import Mathlib

/-!
Verification of the terminal markdown renderer (`markdown-renderer.ts` and
`theme-loader.ts`): a shallow embedding of the renderer's data model and
algorithms, with theorems settling the specification's claims.

Strings are modelled as `List Char` (one entry per code point).  JS numbers
that can be `NaN` are modelled as `Option ℚ` with `none` standing for `NaN`.
Recursions that are not structural use an explicit fuel argument whose
wrapper supplies a provably sufficient amount, keeping every definition
kernel-evaluable on concrete inputs.
-/

namespace MdRenderer

/-- Strings modelled as lists of characters. -/
abbrev Str := List Char

/-- The ESC character, code 27 (`\x1b`). -/
def escC : Char := Char.ofNat 27

/-- JS `String.prototype.trim` on the left. -/
def trimLeft (s : Str) : Str := s.dropWhile Char.isWhitespace

/-- JS `String.prototype.trim` on the right. -/
def trimRight (s : Str) : Str := (s.reverse.dropWhile Char.isWhitespace).reverse

/-- JS `String.prototype.trim`. -/
def trim (s : Str) : Str := trimRight (trimLeft s)

/-- Helper for `splitLines`: prepend a character to the first line. -/
def consHead (c : Char) : List Str → List Str
  | [] => [[c]]
  | l :: ls => (c :: l) :: ls

/-- JS `str.split("\n")`: always returns at least one (possibly empty) piece. -/
def splitLines : Str → List Str
  | [] => [[]]
  | c :: rest => if c = '\n' then [] :: splitLines rest else consHead c (splitLines rest)

/-- JS `pieces.join(sep)`. -/
def joinWith (sep : Str) : List Str → Str
  | [] => []
  | [l] => l
  | l :: ls => l ++ sep ++ joinWith sep ls

/-- A character the body of an SGR escape sequence may contain (`[0-9;]`). -/
def isCodeChar (c : Char) : Bool := c.isDigit || c = ';'

/-- Tail of the escape-sequence matcher: expect `m`, return the remainder. -/
def matchTailM : Str → Option Str
  | [] => none
  | d :: rest' => if d = 'm' then some rest' else none

/-- Try to complete an escape-sequence match for the regex `\x1b\[[0-9;]*m`
after its leading ESC: expect `[`, then code characters, then `m`; on success
return the remainder of the string. -/
def matchCsi : Str → Option Str
  | [] => none
  | c :: rest =>
      if c = '[' then matchTailM (rest.dropWhile isCodeChar) else none

theorem matchCsi_length {l l' : Str} (h : matchCsi l = some l') : l'.length < l.length := by
  cases l with
  | nil => simp [matchCsi] at h
  | cons c rest =>
    simp only [matchCsi] at h
    by_cases hc : c = '['
    · rw [if_pos hc] at h
      cases hds : rest.dropWhile isCodeChar with
      | nil => rw [hds] at h; simp [matchTailM] at h
      | cons d rest'' =>
        rw [hds] at h
        simp only [matchTailM] at h
        by_cases hd : d = 'm'
        · rw [if_pos hd] at h
          injection h with h
          subst h
          have h1 : rest''.length < (rest.dropWhile isCodeChar).length := by
            rw [hds]; simp
          have h2 : (rest.dropWhile isCodeChar).length ≤ rest.length :=
            (List.dropWhile_sublist isCodeChar).length_le
          simp only [List.length_cons]
          omega
        · rw [if_neg hd] at h; simp at h
    · rw [if_neg hc] at h; simp at h

/-- Fueled worker for `stripAnsi`. -/
def stripAnsiAux : Nat → Str → Str
  | 0, s => s
  | _ + 1, [] => []
  | fuel + 1, c :: rest =>
      if c = escC then
        match matchCsi rest with
        | some rest' => stripAnsiAux fuel rest'
        | none => c :: stripAnsiAux fuel rest
      else c :: stripAnsiAux fuel rest

theorem stripAnsiAux_fuel_irrel (f1 : Nat) : ∀ (f2 : Nat) (s : Str),
    s.length ≤ f1 → s.length ≤ f2 → stripAnsiAux f1 s = stripAnsiAux f2 s := by
  induction f1 with
  | zero =>
    intro f2 s h1 _
    have hs : s = [] := List.length_eq_zero.mp (Nat.le_zero.mp h1)
    subst hs
    cases f2 <;> rfl
  | succ n ih =>
    intro f2 s h1 h2
    cases s with
    | nil => cases f2 <;> rfl
    | cons c rest =>
      cases f2 with
      | zero => simp at h2
      | succ m =>
        simp only [stripAnsiAux]
        by_cases hc : c = escC
        · rw [if_pos hc, if_pos hc]
          cases hm : matchCsi rest with
          | some rest' =>
            have hlen := matchCsi_length hm
            simp only [List.length_cons] at h1 h2
            exact ih m rest' (by omega) (by omega)
          | none =>
            simp only [List.length_cons] at h1 h2
            rw [ih m rest (by omega) (by omega)]
        · rw [if_neg hc, if_neg hc]
          simp only [List.length_cons] at h1 h2
          rw [ih m rest (by omega) (by omega)]

/-- Strip ANSI escape codes, the JS regex replace
`str.replace(/\x1b\[[0-9;]*m/g, "")`: a leftmost single-pass scan that
deletes every maximal match of the pattern. -/
def stripAnsi (s : Str) : Str := stripAnsiAux s.length s

theorem stripAnsi_nil : stripAnsi [] = [] := rfl

theorem stripAnsi_cons_esc_some {rest rest' : Str} (h : matchCsi rest = some rest') :
    stripAnsi (escC :: rest) = stripAnsi rest' := by
  show stripAnsiAux (rest.length + 1) (escC :: rest) = stripAnsiAux rest'.length rest'
  simp only [stripAnsiAux, if_pos rfl, h]
  exact stripAnsiAux_fuel_irrel _ _ _ (Nat.le_of_lt (matchCsi_length h)) (Nat.le_refl _)

theorem stripAnsi_cons_esc_none {rest : Str} (h : matchCsi rest = none) :
    stripAnsi (escC :: rest) = escC :: stripAnsi rest := by
  show stripAnsiAux (rest.length + 1) (escC :: rest) = escC :: stripAnsiAux rest.length rest
  simp only [stripAnsiAux, if_pos rfl, h]
  simp

theorem stripAnsi_cons_ne {c : Char} {rest : Str} (h : ¬ c = escC) :
    stripAnsi (c :: rest) = c :: stripAnsi rest := by
  show stripAnsiAux (rest.length + 1) (c :: rest) = c :: stripAnsiAux rest.length rest
  simp only [stripAnsiAux, if_neg h]

/-- Visible width of a string as the source's `visibleWidth` computes it:
the length of the ANSI-stripped string. -/
def visibleWidth (s : Str) : Nat := (stripAnsi s).length

/-- Whether the scan of `stripAnsi` would delete anything: true iff the
string contains a substring matching `\x1b\[[0-9;]*m`. -/
def hasCsi : Str → Bool
  | [] => false
  | c :: rest => (c = escC && (matchCsi rest).isSome) || hasCsi rest

theorem stripAnsi_of_hasCsi_false : ∀ {s : Str}, hasCsi s = false → stripAnsi s = s := by
  intro s
  induction s with
  | nil => intro _; rfl
  | cons c rest ih =>
    intro h
    simp only [hasCsi, Bool.or_eq_false_iff, Bool.and_eq_false_iff] at h
    obtain ⟨h1, h2⟩ := h
    by_cases hc : c = escC
    · subst hc
      cases hm : matchCsi rest with
      | some rest' =>
        rcases h1 with h1 | h1
        · simp at h1
        · rw [hm] at h1; simp at h1
      | none =>
        rw [stripAnsi_cons_esc_none hm, ih h2]
    · rw [stripAnsi_cons_ne hc, ih h2]

/-- `wideChar` models which code points the width measurer counts as
double-width (CJK blocks, Hangul, full-width forms, common emoji planes). -/
def wideChar (c : Char) : Bool :=
  (0x1100 ≤ c.toNat && c.toNat ≤ 0x115F) ||
  (0x2E80 ≤ c.toNat && c.toNat ≤ 0x303E) ||
  (0x3041 ≤ c.toNat && c.toNat ≤ 0x33FF) ||
  (0x3400 ≤ c.toNat && c.toNat ≤ 0x4DBF) ||
  (0x4E00 ≤ c.toNat && c.toNat ≤ 0x9FFF) ||
  (0xA000 ≤ c.toNat && c.toNat ≤ 0xA4CF) ||
  (0xAC00 ≤ c.toNat && c.toNat ≤ 0xD7A3) ||
  (0xF900 ≤ c.toNat && c.toNat ≤ 0xFAFF) ||
  (0xFE30 ≤ c.toNat && c.toNat ≤ 0xFE4F) ||
  (0xFF00 ≤ c.toNat && c.toNat ≤ 0xFF60) ||
  (0xFFE0 ≤ c.toNat && c.toNat ≤ 0xFFE6) ||
  (0x1F300 ≤ c.toNat && c.toNat ≤ 0x1FAFF) ||
  (0x20000 ≤ c.toNat && c.toNat ≤ 0x3FFFD)

/-- Modelled from `Bun.stringWidth` as the source uses it: width 0 for
control characters, 2 for wide characters, 1 otherwise. -/
def charWidth (c : Char) : Nat := if c.toNat < 32 then 0 else if wideChar c then 2 else 1

/-- Modelled from `Bun.stringWidth`: terminal display width of a string,
ignoring embedded ANSI escape sequences and counting wide characters as 2. -/
def stringWidth (s : Str) : Nat := ((stripAnsi s).map charWidth).sum

/-- C9 counterexample: on the input `"\x1b[\x1b[0m0m"`, stripping the inner
escape sequence assembles a new escape sequence out of the remaining
characters, so `visibleWidth (stripAnsi text)` (0) differs from
`visibleWidth text` (4): width measurement is not idempotent with respect to
stripping on every string. -/
theorem c9_width_idem_counterexample :
    visibleWidth (stripAnsi [escC, '[', escC, '[', '0', 'm', '0', 'm']) ≠
      visibleWidth [escC, '[', escC, '[', '0', 'm', '0', 'm'] := by decide

/-- C9 (amended): width measurement is idempotent with respect to stripping
for every string whose stripped form contains no ANSI escape sequence — in
particular for every string whose escape sequences do not overlap or nest:
`visibleWidth (stripAnsi text) = visibleWidth text`. -/
theorem c9_width_idem (s : Str) (h : hasCsi (stripAnsi s) = false) :
    visibleWidth (stripAnsi s) = visibleWidth s := by
  unfold visibleWidth
  rw [stripAnsi_of_hasCsi_false h]

/-- C9 witness: the amended theorem applied to the concrete styled string
`"a\x1b[1mb"`. -/
theorem c9_width_idem_witness :
    hasCsi (stripAnsi ['a', escC, '[', '1', 'm', 'b']) = false ∧
      visibleWidth (stripAnsi ['a', escC, '[', '1', 'm', 'b']) =
        visibleWidth ['a', escC, '[', '1', 'm', 'b'] :=
  ⟨by decide, c9_width_idem ['a', escC, '[', '1', 'm', 'b'] (by decide)⟩

/-- RGBA color record; components are JS numbers modelled as `Option ℚ`
(`none` standing for `NaN`). -/
structure RGBA where
  r : Option ℚ
  g : Option ℚ
  b : Option ℚ
  a : Option ℚ
deriving DecidableEq

/-- `TextChunk`: a styled fragment of output text (`__isChunk` is a mere
type tag and is dropped; absent `attributes` is 0, which JS treats the
same as the field being undefined). -/
structure TextChunk where
  text : Str
  fg : Option RGBA
  bg : Option RGBA
  attributes : Nat
deriving DecidableEq

namespace Attr

def BOLD : Nat := 1
def DIM : Nat := 2
def ITALIC : Nat := 4
def UNDERLINE : Nat := 8
def BLINK : Nat := 16
def INVERSE : Nat := 32
def HIDDEN : Nat := 64
def STRIKETHROUGH : Nat := 128

end Attr

/-- The decimal digit character for `n < 10`. -/
def digitChar (n : Nat) : Char := Char.ofNat (48 + n)

/-- Fueled decimal printer for naturals. -/
def natToStrAux : Nat → Nat → Str
  | 0, _ => []
  | fuel + 1, n =>
      if n < 10 then [digitChar n] else natToStrAux fuel (n / 10) ++ [digitChar (n % 10)]

/-- Decimal string of a natural number. -/
def natToStr (n : Nat) : Str := natToStrAux (n + 1) n

/-- Decimal string of an integer, as JS prints integral numbers. -/
def intToStr (i : Int) : Str := if i < 0 then '-' :: natToStr (-i).toNat else natToStr i.toNat

/-- Fueled decimal expansion of a fractional part in `[0, 1)`. -/
def qFracDigits : Nat → ℚ → Str
  | 0, _ => []
  | fuel + 1, q =>
      if q = 0 then []
      else digitChar (q * 10).floor.toNat :: qFracDigits fuel (q * 10 - (q * 10).floor)

/-- Modelled from JS number-to-string coercion (template interpolation):
exact for `NaN` and for integral values — the only numbers the renderer ever
serializes; non-integral rationals print a truncated decimal expansion. -/
def jsNumToStr : Option ℚ → Str
  | none => ['N', 'a', 'N']
  | some q =>
      if q.den = 1 then intToStr q.num
      else intToStr q.floor ++ '.' :: qFracDigits 17 (q - q.floor)

/-- Build the escape sequence `"\x1b[" ++ body ++ "m"`. -/
def escSeq (body : Str) : Str := escC :: '[' :: body ++ ['m']

/-- The reset sequence `"\x1b[0m"`. -/
def ansiReset : Str := escSeq ['0']

/-- `rgbToAnsi`: 24-bit foreground color escape `"\x1b[38;2;r;g;bm"`. -/
def rgbToAnsi (r g b : Option ℚ) : Str :=
  escSeq (['3', '8', ';', '2', ';'] ++ jsNumToStr r ++ [';'] ++ jsNumToStr g ++ [';'] ++
    jsNumToStr b)

/-- 24-bit background color escape `"\x1b[48;2;r;g;bm"`. -/
def bgToAnsi (r g b : Option ℚ) : Str :=
  escSeq (['4', '8', ';', '2', ';'] ++ jsNumToStr r ++ [';'] ++ jsNumToStr g ++ [';'] ++
    jsNumToStr b)

/-- The attribute escape codes emitted by `textChunksToAnsi` for a chunk. -/
def attrCodes (a : Nat) : Str :=
  if a = 0 then []
  else
    (if a &&& Attr.BOLD ≠ 0 then escSeq ['1'] else []) ++
    (if a &&& Attr.DIM ≠ 0 then escSeq ['2'] else []) ++
    (if a &&& Attr.ITALIC ≠ 0 then escSeq ['3'] else []) ++
    (if a &&& Attr.UNDERLINE ≠ 0 then escSeq ['4'] else []) ++
    (if a &&& Attr.BLINK ≠ 0 then escSeq ['5'] else []) ++
    (if a &&& Attr.INVERSE ≠ 0 then escSeq ['7'] else []) ++
    (if a &&& Attr.HIDDEN ≠ 0 then escSeq ['8'] else []) ++
    (if a &&& Attr.STRIKETHROUGH ≠ 0 then escSeq ['9'] else [])

/-- All escape codes `textChunksToAnsi` emits before a chunk's text. -/
def chunkCodes (c : TextChunk) : Str :=
  attrCodes c.attributes ++
    (match c.fg with
     | some col => rgbToAnsi col.r col.g col.b
     | none => []) ++
    (match c.bg with
     | some col => bgToAnsi col.r col.g col.b
     | none => [])

/-- `textChunksToAnsi`: serialize chunks to an ANSI string — codes, then the
literal text, then a reset whenever any code was emitted. -/
def textChunksToAnsi : List TextChunk → Str
  | [] => []
  | c :: cs =>
      chunkCodes c ++ (c.text ++
        ((if chunkCodes c = [] then [] else ansiReset) ++ textChunksToAnsi cs))

/-- Left-to-right concatenation of the chunks' text fields. -/
def concatTexts : List TextChunk → Str
  | [] => []
  | c :: cs => c.text ++ concatTexts cs

/-- A JS number that is a nonnegative integer. -/
def goodNum : Option ℚ → Bool
  | none => false
  | some q => decide (0 ≤ q.num) && (q.den == 1)

/-- A chunk whose color components (if any) are nonnegative integers. -/
def goodChunk (c : TextChunk) : Bool :=
  (match c.fg with
   | some col => goodNum col.r && goodNum col.g && goodNum col.b
   | none => true) &&
  (match c.bg with
   | some col => goodNum col.r && goodNum col.g && goodNum col.b
   | none => true)

theorem isCodeChar_ne_escC {c : Char} (h : isCodeChar c = true) : c ≠ escC := by
  intro heq
  subst heq
  exact absurd h (by decide)

theorem digitChar_isDigit {n : Nat} (h : n < 10) : (digitChar n).isDigit = true := by
  interval_cases n <;> decide

theorem natToStrAux_digits : ∀ (fuel n : Nat), ∀ c ∈ natToStrAux fuel n, c.isDigit = true := by
  intro fuel
  induction fuel with
  | zero => intro n c hc; simp [natToStrAux] at hc
  | succ m ih =>
    intro n c hc
    simp only [natToStrAux] at hc
    split at hc
    · rename_i hlt
      simp at hc
      subst hc
      exact digitChar_isDigit hlt
    · rw [List.mem_append] at hc
      rcases hc with hc | hc
      · exact ih _ c hc
      · simp at hc
        subst hc
        exact digitChar_isDigit (Nat.mod_lt _ (by omega))

theorem natToStr_digits (n : Nat) : ∀ c ∈ natToStr n, c.isDigit = true :=
  natToStrAux_digits (n + 1) n

theorem jsNumToStr_code {x : Option ℚ} (h : goodNum x = true) :
    ∀ c ∈ jsNumToStr x, isCodeChar c = true := by
  cases x with
  | none => simp [goodNum] at h
  | some q =>
    simp only [goodNum, Bool.and_eq_true, decide_eq_true_eq, beq_iff_eq] at h
    obtain ⟨hnum, hden⟩ := h
    intro c hc
    simp only [jsNumToStr, if_pos hden] at hc
    unfold intToStr at hc
    rw [if_neg (by omega)] at hc
    have := natToStr_digits _ c hc
    simp [isCodeChar, this]

theorem dropWhile_code_append (body x : Str) (hb : ∀ c ∈ body, isCodeChar c = true) :
    (body ++ x).dropWhile isCodeChar = x.dropWhile isCodeChar := by
  induction body with
  | nil => simp
  | cons c b ih =>
    have hc : isCodeChar c = true := hb c (by simp)
    simp only [List.cons_append, List.dropWhile_cons_of_pos hc]
    exact ih (fun d hd => hb d (by simp [hd]))

theorem matchCsi_escBody (body rest : Str) (hb : ∀ c ∈ body, isCodeChar c = true) :
    matchCsi ('[' :: (body ++ 'm' :: rest)) = some rest := by
  simp only [matchCsi, if_pos rfl]
  rw [dropWhile_code_append body ('m' :: rest) hb]
  rw [List.dropWhile_cons_of_neg (by decide)]
  simp [matchTailM]

theorem stripAnsi_escSeq (body rest : Str) (hb : ∀ c ∈ body, isCodeChar c = true) :
    stripAnsi (escSeq body ++ rest) = stripAnsi rest := by
  have hshape : escSeq body ++ rest = escC :: '[' :: (body ++ 'm' :: rest) := by
    simp [escSeq]
  rw [hshape, stripAnsi_cons_esc_some (matchCsi_escBody body rest hb)]

theorem stripAnsi_iteEsc (p : Prop) [Decidable p] (body r : Str)
    (hb : ∀ c ∈ body, isCodeChar c = true) :
    stripAnsi ((if p then escSeq body else []) ++ r) = stripAnsi r := by
  split
  · exact stripAnsi_escSeq body r hb
  · simp

theorem stripAnsi_attrCodes (a : Nat) (r : Str) :
    stripAnsi (attrCodes a ++ r) = stripAnsi r := by
  unfold attrCodes
  split
  · simp
  · simp only [List.append_assoc]
    rw [stripAnsi_iteEsc (a &&& Attr.BOLD ≠ 0) ['1'] _ (by decide)]
    rw [stripAnsi_iteEsc (a &&& Attr.DIM ≠ 0) ['2'] _ (by decide)]
    rw [stripAnsi_iteEsc (a &&& Attr.ITALIC ≠ 0) ['3'] _ (by decide)]
    rw [stripAnsi_iteEsc (a &&& Attr.UNDERLINE ≠ 0) ['4'] _ (by decide)]
    rw [stripAnsi_iteEsc (a &&& Attr.BLINK ≠ 0) ['5'] _ (by decide)]
    rw [stripAnsi_iteEsc (a &&& Attr.INVERSE ≠ 0) ['7'] _ (by decide)]
    rw [stripAnsi_iteEsc (a &&& Attr.HIDDEN ≠ 0) ['8'] _ (by decide)]
    rw [stripAnsi_iteEsc (a &&& Attr.STRIKETHROUGH ≠ 0) ['9'] _ (by decide)]

theorem colorBody_code (r g b : Option ℚ) (d : Char)
    (hr : goodNum r = true) (hg : goodNum g = true) (hb : goodNum b = true) :
    isCodeChar d = true →
    ∀ c ∈ ([d, '8', ';', '2', ';'] ++ jsNumToStr r ++ [';'] ++ jsNumToStr g ++ [';'] ++
      jsNumToStr b), isCodeChar c = true := by
  intro hd c hc
  simp only [List.append_assoc, List.mem_append, List.mem_cons, List.mem_singleton,
    List.not_mem_nil] at hc
  rcases hc with hc | hc
  · rcases hc with rfl | rfl | rfl | rfl | rfl | hfalse
    · exact hd
    · decide
    · decide
    · decide
    · decide
    · simp at hfalse
  · rcases hc with hc | hc
    · exact jsNumToStr_code hr c hc
    · rcases hc with hc | hc
      · simp at hc; subst hc; decide
      · rcases hc with hc | hc
        · exact jsNumToStr_code hg c hc
        · rcases hc with hc | hc
          · simp at hc; subst hc; decide
          · exact jsNumToStr_code hb c hc

theorem stripAnsi_rgbFg (r g b : Option ℚ) (rest : Str)
    (hr : goodNum r = true) (hg : goodNum g = true) (hb : goodNum b = true) :
    stripAnsi (rgbToAnsi r g b ++ rest) = stripAnsi rest :=
  stripAnsi_escSeq _ rest (colorBody_code r g b '3' hr hg hb (by decide))

theorem stripAnsi_rgbBg (r g b : Option ℚ) (rest : Str)
    (hr : goodNum r = true) (hg : goodNum g = true) (hb : goodNum b = true) :
    stripAnsi (bgToAnsi r g b ++ rest) = stripAnsi rest :=
  stripAnsi_escSeq _ rest (colorBody_code r g b '4' hr hg hb (by decide))

theorem stripAnsi_chunkCodes (c : TextChunk) (r : Str) (h : goodChunk c = true) :
    stripAnsi (chunkCodes c ++ r) = stripAnsi r := by
  unfold goodChunk at h
  rw [Bool.and_eq_true] at h
  obtain ⟨hfg, hbg⟩ := h
  unfold chunkCodes
  simp only [List.append_assoc]
  rw [stripAnsi_attrCodes]
  cases hf : c.fg with
  | none =>
    simp only [hf, List.nil_append]
    cases hbb : c.bg with
    | none => simp
    | some col =>
      rw [hbb] at hbg
      simp only [Bool.and_eq_true] at hbg
      exact stripAnsi_rgbBg _ _ _ _ hbg.1.1 hbg.1.2 hbg.2
  | some col =>
    rw [hf] at hfg
    simp only [Bool.and_eq_true] at hfg
    rw [stripAnsi_rgbFg _ _ _ _ hfg.1.1 hfg.1.2 hfg.2]
    cases hbb : c.bg with
    | none => simp
    | some col2 =>
      rw [hbb] at hbg
      simp only [Bool.and_eq_true] at hbg
      exact stripAnsi_rgbBg _ _ _ _ hbg.1.1 hbg.1.2 hbg.2

/-- A string that is empty or begins with ESC. -/
def escHeaded (l : Str) : Prop := l = [] ∨ ∃ t, l = escC :: t

theorem escHeaded_append {x y : Str} (hx : escHeaded x) (hy : escHeaded y) :
    escHeaded (x ++ y) := by
  rcases hx with rfl | ⟨t, rfl⟩
  · simpa using hy
  · exact Or.inr ⟨t ++ y, rfl⟩

theorem escHeaded_escSeq (body : Str) : escHeaded (escSeq body) := Or.inr ⟨_, rfl⟩

theorem escHeaded_ite (p : Prop) [Decidable p] {x : Str} (h : escHeaded x) :
    escHeaded (if p then x else []) := by
  split
  · exact h
  · exact Or.inl rfl

theorem escHeaded_attrCodes (a : Nat) : escHeaded (attrCodes a) := by
  unfold attrCodes
  split
  · exact Or.inl rfl
  · repeat' apply escHeaded_append
    all_goals exact escHeaded_ite _ (escHeaded_escSeq _)

theorem escHeaded_chunkCodes (c : TextChunk) : escHeaded (chunkCodes c) := by
  unfold chunkCodes
  refine escHeaded_append (escHeaded_append (escHeaded_attrCodes _) ?_) ?_
  · cases c.fg
    · exact Or.inl rfl
    · exact escHeaded_escSeq _
  · cases c.bg
    · exact Or.inl rfl
    · exact escHeaded_escSeq _

theorem prefix_append_cases {α : Type} {w a b : List α} (h : w <+: a ++ b) :
    w <+: a ∨ ∃ w', w = a ++ w' ∧ w' <+: b := by
  induction a generalizing w with
  | nil => exact Or.inr ⟨w, rfl, h⟩
  | cons x a ih =>
    cases w with
    | nil => exact Or.inl List.nil_prefix
    | cons y ws =>
      rw [List.cons_append, List.cons_prefix_cons] at h
      obtain ⟨rfl, h⟩ := h
      rcases ih h with h | ⟨w', rfl, hw⟩
      · exact Or.inl (List.cons_prefix_cons.mpr ⟨rfl, h⟩)
      · exact Or.inr ⟨w', rfl, hw⟩

theorem prefix_append_left {α : Type} {a x y : List α} (h : x <+: y) : a ++ x <+: a ++ y := by
  obtain ⟨t, rfl⟩ := h
  exact ⟨t, by rw [List.append_assoc]⟩

/-- A nonempty, ESC-free prefix of the serialized output is a prefix of the
plain concatenation of the chunks' texts. -/
theorem prefix_out_texts : ∀ (cs : List TextChunk) (w : Str),
    (∀ c ∈ cs, goodChunk c = true) → w ≠ [] → escC ∉ w →
    w <+: textChunksToAnsi cs → w <+: concatTexts cs := by
  intro cs
  induction cs with
  | nil =>
    intro w _ hne _ hp
    simp only [textChunksToAnsi] at hp
    exact absurd (List.prefix_nil.mp hp) hne
  | cons c cs ih =>
    intro w hg hne hesc hp
    have hgs : ∀ x ∈ cs, goodChunk x = true := fun x hx => hg x (by simp [hx])
    have hdef : textChunksToAnsi (c :: cs) = chunkCodes c ++ (c.text ++
        ((if chunkCodes c = [] then [] else ansiReset) ++ textChunksToAnsi cs)) := rfl
    rcases escHeaded_chunkCodes c with hcodes | ⟨t, hcodes⟩
    · have hout : textChunksToAnsi (c :: cs) = c.text ++ textChunksToAnsi cs := by
        rw [hdef, hcodes, if_pos rfl]
        simp
      rw [hout] at hp
      show w <+: c.text ++ concatTexts cs
      rcases prefix_append_cases hp with h | ⟨w', rfl, hw'⟩
      · exact h.trans (List.prefix_append _ _)
      · by_cases hw'e : w' = []
        · subst hw'e
          simp only [List.append_nil]
          exact List.prefix_append _ _
        · have hesc' : escC ∉ w' := fun hm => hesc (by simp [hm])
          exact prefix_append_left (ih w' hgs hw'e hesc' hw')
    · rw [hdef, hcodes, List.cons_append] at hp
      cases w with
      | nil => exact absurd rfl hne
      | cons w0 ws =>
        rw [List.cons_prefix_cons] at hp
        have hmem : escC ∈ w0 :: ws := by
          rw [← hp.1]
          exact List.mem_cons_self w0 ws
        exact absurd hmem hesc

theorem dropWhile_head_not {p : Char → Bool} :
    ∀ {l : Str} {d : Char} {du : Str}, l.dropWhile p = d :: du → p d = false := by
  intro l
  induction l with
  | nil => intro d du h; simp at h
  | cons c cl ih =>
    intro d du h
    rw [List.dropWhile_cons] at h
    split at h
    · exact ih h
    · rename_i hc
      injection h with h1 _
      subst h1
      simpa using hc

theorem dropWhile_stop_append {u' R : Str} {d : Char} {du : Str}
    (h : u'.dropWhile isCodeChar = d :: du) :
    (u' ++ R).dropWhile isCodeChar = d :: (du ++ R) := by
  have hd : isCodeChar d = false := dropWhile_head_not h
  have hsplit : u'.takeWhile isCodeChar ++ (d :: du) = u' := by
    rw [← h]
    exact List.takeWhile_append_dropWhile isCodeChar u'
  calc (u' ++ R).dropWhile isCodeChar
      = ((u'.takeWhile isCodeChar ++ (d :: du)) ++ R).dropWhile isCodeChar := by rw [hsplit]
    _ = d :: (du ++ R) := by
        rw [List.append_assoc]
        rw [dropWhile_code_append _ _ (fun c hc => List.mem_takeWhile_imp hc)]
        simp [List.dropWhile_cons, hd]

/-- If the escape matcher succeeds on `u ++ R`, and every nonempty ESC-free
prefix of `R` is also a prefix of `C`, then it succeeds on `u ++ C`. -/
theorem matchCsi_transfer {u R C : Str}
    (hm : (matchCsi (u ++ R)).isSome = true)
    (hpref : ∀ w, w ≠ [] → escC ∉ w → w <+: R → w <+: C) :
    (matchCsi (u ++ C)).isSome = true := by
  cases u with
  | nil =>
    simp only [List.nil_append] at hm ⊢
    cases R with
    | nil => simp [matchCsi] at hm
    | cons c rest =>
      by_cases hc : c = '['
      · subst hc
        simp only [matchCsi, if_pos rfl] at hm
        cases hds : rest.dropWhile isCodeChar with
        | nil => rw [hds] at hm; simp [matchTailM] at hm
        | cons d x =>
          rw [hds] at hm
          simp only [matchTailM] at hm
          by_cases hd : d = 'm'
          · subst hd
            have hsplit : rest.takeWhile isCodeChar ++ ('m' :: x) = rest := by
              rw [← hds]
              exact List.takeWhile_append_dropWhile isCodeChar rest
            have hwpref : ('[' :: (rest.takeWhile isCodeChar ++ ['m'])) <+: ('[' :: rest) := by
              refine List.cons_prefix_cons.mpr ⟨rfl, ?_⟩
              refine ⟨x, ?_⟩
              rw [List.append_assoc]
              simpa using hsplit
            have hwne : ('[' :: (rest.takeWhile isCodeChar ++ ['m'])) ≠ [] := by simp
            have hwesc : escC ∉ ('[' :: (rest.takeWhile isCodeChar ++ ['m'])) := by
              intro hmem
              simp only [List.mem_cons, List.mem_append, List.mem_singleton] at hmem
              rcases hmem with h1 | h1 | h1
              · exact absurd h1 (by decide)
              · exact absurd (List.mem_takeWhile_imp h1) (by decide)
              · exact absurd h1 (by decide)
            obtain ⟨y, hy⟩ := hpref _ hwne hwesc hwpref
            rw [← hy]
            have hshape : ('[' :: (rest.takeWhile isCodeChar ++ ['m'])) ++ y =
                '[' :: (rest.takeWhile isCodeChar ++ ('m' :: y)) := by simp
            rw [hshape]
            rw [matchCsi_escBody _ _ (fun c hc => List.mem_takeWhile_imp hc)]
            rfl
          · rw [if_neg hd] at hm; simp at hm
      · rw [matchCsi] at hm
        rw [if_neg hc] at hm
        simp at hm
  | cons c u' =>
    by_cases hc : c = '['
    · subst hc
      rw [List.cons_append] at hm ⊢
      simp only [matchCsi, if_pos rfl] at hm ⊢
      cases hrest : u'.dropWhile isCodeChar with
      | cons d du =>
        rw [dropWhile_stop_append hrest] at hm
        rw [dropWhile_stop_append hrest]
        simp only [matchTailM] at hm ⊢
        by_cases hd : d = 'm'
        · rw [if_pos hd]; rfl
        · rw [if_neg hd] at hm; simp at hm
      | nil =>
        have hall : ∀ x ∈ u', isCodeChar x = true := List.dropWhile_eq_nil_iff.mp hrest
        rw [dropWhile_code_append u' R hall] at hm
        rw [dropWhile_code_append u' C hall]
        cases hds : R.dropWhile isCodeChar with
        | nil => rw [hds] at hm; simp [matchTailM] at hm
        | cons d x =>
          rw [hds] at hm
          simp only [matchTailM] at hm
          by_cases hd : d = 'm'
          · subst hd
            have hsplit : R.takeWhile isCodeChar ++ ('m' :: x) = R := by
              rw [← hds]
              exact List.takeWhile_append_dropWhile isCodeChar R
            have hwpref : (R.takeWhile isCodeChar ++ ['m']) <+: R := by
              refine ⟨x, ?_⟩
              rw [List.append_assoc]
              simpa using hsplit
            have hwne : (R.takeWhile isCodeChar ++ ['m']) ≠ [] := by simp
            have hwesc : escC ∉ (R.takeWhile isCodeChar ++ ['m']) := by
              intro hmem
              simp only [List.mem_append, List.mem_singleton] at hmem
              rcases hmem with h1 | h1
              · exact absurd (List.mem_takeWhile_imp h1) (by decide)
              · exact absurd h1 (by decide)
            obtain ⟨y, hy⟩ := hpref _ hwne hwesc hwpref
            rw [← hy]
            have hshape : (R.takeWhile isCodeChar ++ ['m']) ++ y =
                R.takeWhile isCodeChar ++ ('m' :: y) := by simp
            rw [hshape]
            rw [dropWhile_code_append _ _ (fun c hc => List.mem_takeWhile_imp hc)]
            rw [List.dropWhile_cons_of_neg (by decide)]
            simp [matchTailM]
          · rw [if_neg hd] at hm; simp at hm
    · rw [List.cons_append] at hm ⊢
      rw [matchCsi, if_neg hc] at hm
      simp at hm

theorem hasCsi_append_right {a b : Str} (h : hasCsi (a ++ b) = false) : hasCsi b = false := by
  induction a with
  | nil => exact h
  | cons c a ih =>
    rw [List.cons_append] at h
    simp only [hasCsi, Bool.or_eq_false_iff] at h
    exact ih h.2

theorem hasCsi_esc_pos : ∀ (a b : Str), (matchCsi b).isSome = true →
    hasCsi (a ++ escC :: b) = true := by
  intro a
  induction a with
  | nil =>
    intro b hb
    simp [hasCsi, hb]
  | cons c a ih =>
    intro b hb
    rw [List.cons_append]
    simp [hasCsi, ih b hb]

theorem stripAnsi_append_of_safe : ∀ (t r : Str),
    (∀ t₁ t₂, t = t₁ ++ escC :: t₂ → matchCsi (t₂ ++ r) = none) →
    stripAnsi (t ++ r) = t ++ stripAnsi r := by
  intro t
  induction t with
  | nil => intro r _; simp
  | cons c t ih =>
    intro r H
    by_cases hc : c = escC
    · subst hc
      have hnone : matchCsi (t ++ r) = none := H [] t rfl
      rw [List.cons_append, stripAnsi_cons_esc_none hnone]
      rw [ih r (fun t₁ t₂ heq => H (escC :: t₁) t₂ (by rw [heq]; rfl)), List.cons_append]
    · rw [List.cons_append, stripAnsi_cons_ne hc,
        ih r (fun t₁ t₂ heq => H (c :: t₁) t₂ (by rw [heq]; rfl)), List.cons_append]

/-- C10 counterexample: the claim fails as stated.  First input: two
unstyled chunks `"a\x1b[1"` and `"m"`, each individually free of ANSI escape
sequences, whose concatenation forms one — stripping the serialized output
loses `"\x1b[1m"`.  Second input: a single chunk with foreground component
`r = -1`; the emitted color code contains `-` and is not recognized by the
stripper, so it survives into the stripped output. -/
theorem c10_counterexample :
    (hasCsi ['a', escC, '['] = false ∧ hasCsi ['1', 'm'] = false ∧
      stripAnsi (textChunksToAnsi
          [⟨['a', escC, '['], none, none, 0⟩, ⟨['1', 'm'], none, none, 0⟩]) ≠
        concatTexts [⟨['a', escC, '['], none, none, 0⟩, ⟨['1', 'm'], none, none, 0⟩]) ∧
    (hasCsi ['x'] = false ∧
      stripAnsi (textChunksToAnsi
          [⟨['x'], some ⟨some (-1), some 0, some 0, some 255⟩, none, 0⟩]) ≠
        concatTexts [⟨['x'], some ⟨some (-1), some 0, some 0, some 255⟩, none, 0⟩]) := by
  constructor
  · refine ⟨by decide, by decide, ?_⟩
    decide
  · refine ⟨by decide, ?_⟩
    decide

/-- C10 (amended): for every sequence of text chunks whose color components
are nonnegative integers and whose concatenated text fields contain no ANSI
escape sequence, stripping all ANSI escape sequences from the output of
`textChunksToAnsi` yields exactly the left-to-right concatenation of the
chunks' text fields — serialization inserts only styling escape codes and
never alters, reorders, or drops literal text. -/
theorem c10_serializer_roundtrip : ∀ (cs : List TextChunk),
    (∀ c ∈ cs, goodChunk c = true) → hasCsi (concatTexts cs) = false →
    stripAnsi (textChunksToAnsi cs) = concatTexts cs := by
  intro cs
  induction cs with
  | nil => intro _ _; rfl
  | cons c cs ih =>
    intro hg ht
    have hgc : goodChunk c = true := hg c (by simp)
    have hgs : ∀ x ∈ cs, goodChunk x = true := fun x hx => hg x (by simp [hx])
    have htc : concatTexts (c :: cs) = c.text ++ concatTexts cs := rfl
    have ht' : hasCsi (concatTexts cs) = false := hasCsi_append_right (htc ▸ ht)
    show stripAnsi (chunkCodes c ++ (c.text ++
      ((if chunkCodes c = [] then [] else ansiReset) ++ textChunksToAnsi cs))) =
      concatTexts (c :: cs)
    rw [stripAnsi_chunkCodes c _ hgc]
    have hsafe : ∀ t₁ t₂, c.text = t₁ ++ escC :: t₂ →
        matchCsi (t₂ ++ ((if chunkCodes c = [] then [] else ansiReset) ++
          textChunksToAnsi cs)) = none := by
      intro t₁ t₂ heq
      by_contra hsome
      rw [← Option.not_isSome_iff_eq_none, not_not] at hsome
      have htrans : (matchCsi (t₂ ++ concatTexts cs)).isSome = true := by
        apply matchCsi_transfer hsome
        intro w hwne hwesc hwp
        by_cases hcz : chunkCodes c = []
        · rw [if_pos hcz, List.nil_append] at hwp
          exact prefix_out_texts cs w hgs hwne hwesc hwp
        · rw [if_neg hcz] at hwp
          exfalso
          cases w with
          | nil => exact hwne rfl
          | cons w0 ws =>
            have : ansiReset ++ textChunksToAnsi cs = escC :: ('[' :: '0' :: 'm' ::
              textChunksToAnsi cs) := rfl
            rw [this, List.cons_prefix_cons] at hwp
            exact hwesc (hwp.1 ▸ List.mem_cons_self w0 ws)
      have : hasCsi (concatTexts (c :: cs)) = true := by
        rw [htc, heq, List.append_assoc, List.cons_append]
        exact hasCsi_esc_pos t₁ (t₂ ++ concatTexts cs) htrans
      rw [ht] at this
      exact absurd this (by simp)
    rw [stripAnsi_append_of_safe c.text _ hsafe]
    rw [htc]
    congr 1
    by_cases hcz : chunkCodes c = []
    · rw [if_pos hcz, List.nil_append]
      exact ih hgs ht'
    · rw [if_neg hcz]
      unfold ansiReset
      rw [stripAnsi_escSeq _ _ (by decide)]
      exact ih hgs ht'

/-- C10 witness: the amended theorem applied to a concrete two-chunk list
with integral colors. -/
theorem c10_serializer_roundtrip_witness :
    (∀ c ∈ [(⟨['h', 'i'], some ⟨some 1, some 2, some 3, some 255⟩, none, 1⟩ : TextChunk),
        ⟨['!'], none, none, 0⟩], goodChunk c = true) ∧
    hasCsi (concatTexts [(⟨['h', 'i'], some ⟨some 1, some 2, some 3, some 255⟩, none, 1⟩ :
        TextChunk), ⟨['!'], none, none, 0⟩]) = false ∧
    stripAnsi (textChunksToAnsi
        [(⟨['h', 'i'], some ⟨some 1, some 2, some 3, some 255⟩, none, 1⟩ : TextChunk),
          ⟨['!'], none, none, 0⟩]) =
      concatTexts [(⟨['h', 'i'], some ⟨some 1, some 2, some 3, some 255⟩, none, 1⟩ :
        TextChunk), ⟨['!'], none, none, 0⟩] :=
  ⟨by decide, by decide,
    c10_serializer_roundtrip _ (by decide) (by decide)⟩

/-- The TUI theme interface: role → color (the source's `MarkdownTheme`,
RGBA 0–1 floats; converted to 0–255 integers by `toIntRGBA` internally). -/
structure MarkdownTheme where
  text : RGBA
  textMuted : RGBA
  accent : RGBA
  primary : RGBA
  border : RGBA
  background : RGBA
  backgroundPanel : RGBA
  backgroundElement : RGBA
  markdownText : RGBA
  markdownHeading : RGBA
  markdownLink : RGBA
  markdownLinkText : RGBA
  markdownCode : RGBA
  markdownCodeBlock : RGBA
  markdownBlockQuote : RGBA
  markdownEmph : RGBA
  markdownStrong : RGBA
  markdownListItem : RGBA
  markdownListEnumeration : RGBA
  markdownHorizontalRule : RGBA
  diffAdded : RGBA
  diffRemoved : RGBA
deriving DecidableEq

/-- The guarded chunk push `addChunk` (foreground only): a chunk is emitted
only when its text is nonempty. -/
def addChunk (t : Str) (color : Option RGBA) (attrs : Nat) : List TextChunk :=
  if t = [] then [] else [⟨t, color, none, attrs⟩]

/-- The guarded chunk push `addChunkWithBg`. -/
def addChunkBg (t : Str) (fg bg : Option RGBA) (attrs : Nat) : List TextChunk :=
  if t = [] then [] else [⟨t, fg, bg, attrs⟩]

/-- Split `s` at the first occurrence of the nonempty delimiter `d`,
returning the part before and the part after the delimiter. -/
def splitFirst (d : Str) : Str → Option (Str × Str)
  | [] => none
  | c :: rest =>
      if d.isPrefixOf (c :: rest) then some ([], (c :: rest).drop d.length)
      else
        match splitFirst d rest with
        | some (a, b) => some (c :: a, b)
        | none => none

theorem splitFirst_spec {d : Str} : ∀ {s a b : Str}, splitFirst d s = some (a, b) →
    s = a ++ (d ++ b) := by
  intro s
  induction s with
  | nil => intro a b h; simp [splitFirst] at h
  | cons c rest ih =>
    intro a b h
    simp only [splitFirst] at h
    split at h
    · rename_i hpre
      obtain ⟨t, ht⟩ := List.isPrefixOf_iff_prefix.mp hpre
      injection h with h
      injection h with h1 h2
      subst h1
      rw [List.nil_append]
      rw [← ht, List.drop_left] at h2
      rw [← h2]
      exact ht.symm
    · cases hs : splitFirst d rest with
      | some p =>
        rw [hs] at h
        cases p with
        | mk a' b' =>
          injection h with h
          injection h with h1 h2
          subst h1
          subst h2
          rw [ih hs]
          rfl
      | none => rw [hs] at h; exact absurd h (by simp)

theorem splitFirst_length {d s a b : Str} (h : splitFirst d s = some (a, b)) :
    a.length + d.length + b.length = s.length := by
  have := splitFirst_spec h
  rw [this]
  simp
  omega

/-- One inline token recognized by the combined inline regex of
`renderInlineThemedWithDefault`. -/
inductive InlineTok
  | boldItalic (content : Str)
  | bold (content : Str)
  | italic (content : Str)
  | code (content : Str)
  | link (txt url : Str)
  | strike (content : Str)
deriving DecidableEq

/-- Alternative 1, `(\*\*\*|___)(.*?)\1`: a `***` or `___` pair with lazily
matched, possibly empty content. -/
def tryBoldItalic (s : Str) : Option (InlineTok × Str) :=
  if ['*', '*', '*'].isPrefixOf s then
    match splitFirst ['*', '*', '*'] (s.drop 3) with
    | some (content, rest) => some (.boldItalic content, rest)
    | none => none
  else if ['_', '_', '_'].isPrefixOf s then
    match splitFirst ['_', '_', '_'] (s.drop 3) with
    | some (content, rest) => some (.boldItalic content, rest)
    | none => none
  else none

/-- Alternative 2, `\*\*(.+?)\*\*`: lazily matched nonempty content. -/
def tryBold (s : Str) : Option (InlineTok × Str) :=
  match s with
  | a :: b :: c :: rest =>
      if a = '*' ∧ b = '*' then
        match splitFirst ['*', '*'] rest with
        | some (p, q) => some (.bold (c :: p), q)
        | none => none
      else none
  | _ => none

/-- Alternative 3, `\*(.+?)\*`. -/
def tryItalic (s : Str) : Option (InlineTok × Str) :=
  match s with
  | a :: c :: rest =>
      if a = '*' then
        match splitFirst ['*'] rest with
        | some (p, q) => some (.italic (c :: p), q)
        | none => none
      else none
  | _ => none

/-- Alternative 4, `` `([^`]+)` ``. -/
def tryCode (s : Str) : Option (InlineTok × Str) :=
  match s with
  | a :: c :: rest =>
      if a = '`' then
        if c = '`' then none
        else
          match splitFirst ['`'] (c :: rest) with
          | some (p, q) => some (.code p, q)
          | none => none
      else none
  | _ => none

/-- Closing part of the link pattern after the url:
`(?:\s+"[^"]*")?\)` — an optional quoted title, then `)`. -/
def jsLinkClose (rest4 : Str) : Option Str :=
  if rest4.takeWhile Char.isWhitespace = [] then
    match rest4 with
    | c :: rest5 => if c = ')' then some rest5 else none
    | [] => none
  else
    match rest4.drop (rest4.takeWhile Char.isWhitespace).length with
    | c :: trest =>
        if c = '"' then
          match trest.drop (trest.takeWhile (fun ch => !(ch == '"'))).length with
          | d :: rest5 =>
              if d = '"' then
                match rest5 with
                | e :: rest6 => if e = ')' then some rest6 else none
                | [] => none
              else none
          | [] => none
        else none
    | [] => none

/-- A character the link url class `[^)\s]` accepts. -/
def urlChar (ch : Char) : Bool := !(ch == ')') && !ch.isWhitespace

/-- The part of the link pattern after `\[([^\]]+)\]`: expect `(`, a greedy
nonempty url of `[^)\s]` characters, an optional quoted title, and `)`. -/
def tryLinkTail (txt : Str) : Str → Option (InlineTok × Str)
  | p :: rest3 =>
      if p = '(' then
        if rest3.takeWhile urlChar = [] then none
        else
          match jsLinkClose (rest3.drop (rest3.takeWhile urlChar).length) with
          | some rest5 => some (.link txt (rest3.takeWhile urlChar), rest5)
          | none => none
      else none
  | [] => none

/-- Alternative 5, `\[([^\]]+)\]\(([^)\s]+)(?:\s+"[^"]*")?\)`. -/
def tryLink (s : Str) : Option (InlineTok × Str) :=
  match s with
  | a :: c :: rest =>
      if a = '[' then
        if c = ']' then none
        else
          match splitFirst [']'] (c :: rest) with
          | some (txt, rest2) => tryLinkTail txt rest2
          | none => none
      else none
  | _ => none

/-- Alternative 6, `~~(.+?)~~`. -/
def tryStrike (s : Str) : Option (InlineTok × Str) :=
  match s with
  | a :: b :: c :: rest =>
      if a = '~' ∧ b = '~' then
        match splitFirst ['~', '~'] rest with
        | some (p, q) => some (.strike (c :: p), q)
        | none => none
      else none
  | _ => none

/-- The combined inline regex at one position: the six alternatives in the
source's alternation order. -/
def tryInlineTok (s : Str) : Option (InlineTok × Str) :=
  tryBoldItalic s <|> tryBold s <|> tryItalic s <|> tryCode s <|> tryLink s <|> tryStrike s

/-- Merge a leading character into a plain-text run, mirroring the single
chunk the JS emits for the text between two matches. -/
def consPlain (c : Char) : List (Str ⊕ InlineTok) → List (Str ⊕ InlineTok)
  | Sum.inl s :: ts => Sum.inl (c :: s) :: ts
  | ts => Sum.inl [c] :: ts

/-- Fueled scanner for the combined inline regex with `exec`: find the
leftmost match, emitting the unmatched text before it as a plain run. -/
def inlineScanAux : Nat → Str → List (Str ⊕ InlineTok)
  | 0, _ => []
  | _ + 1, [] => []
  | fuel + 1, c :: rest =>
      match tryInlineTok (c :: rest) with
      | some (tok, rest') => Sum.inr tok :: inlineScanAux fuel rest'
      | none => consPlain c (inlineScanAux fuel rest)

/-- The tokenization of one line by the combined inline regex. -/
def inlineScan (s : Str) : List (Str ⊕ InlineTok) := inlineScanAux s.length s

/-- One candidate split of the nested-emphasis regex at opening position
`i`: `content = take i ++ mark ++ m ++ mark ++ q` with `m` nonempty and
minimal (the lazy inner group). -/
def nestedAt (mark content : Str) (i : Nat) : Option (Str × Str × Str) :=
  if mark.isPrefixOf (content.drop i) then
    match (content.drop i).drop mark.length with
    | c :: rest =>
        (match splitFirst mark rest with
         | some (a, b) => some (content.take i, c :: a, b)
         | none => none)
    | [] => none
  else none

/-- Greedy leading group of the nested-emphasis regex: rightmost opening
position wins. -/
def nestedSplitAux (mark content : Str) : Nat → Option (Str × Str × Str)
  | 0 => nestedAt mark content 0
  | i + 1 => nestedAt mark content (i + 1) <|> nestedSplitAux mark content i

/-- The nested-emphasis check `/^(.*)?\*(.+?)\*(.*)$/` (with `mark = "*"`,
or `"**"` for the symmetric bold-in-italic check): greedy leading group,
lazily matched nonempty inner span, rest. -/
def nestedSplit (mark content : Str) : Option (Str × Str × Str) :=
  nestedSplitAux mark content content.length

/-- The chunks emitted for one token of the inline scanner, mirroring the
per-alternative branches of `renderInlineThemedWithDefault`. -/
def tokChunks (theme : MarkdownTheme) (defaultColor : RGBA) (defaultAttrs : Nat) :
    Str ⊕ InlineTok → List TextChunk
  | Sum.inl t => addChunk t (some defaultColor) defaultAttrs
  | Sum.inr (.boldItalic content) =>
      addChunk content (some theme.markdownStrong) (Attr.BOLD ||| Attr.ITALIC)
  | Sum.inr (.bold content) =>
      (match nestedSplit ['*'] content with
       | some (pre, mid, post) =>
           addChunk pre (some theme.markdownStrong) Attr.BOLD ++
           addChunk mid (some theme.markdownStrong) (Attr.BOLD ||| Attr.ITALIC) ++
           addChunk post (some theme.markdownStrong) Attr.BOLD
       | none => addChunk content (some theme.markdownStrong) Attr.BOLD)
  | Sum.inr (.italic content) =>
      (match nestedSplit ['*', '*'] content with
       | some (pre, mid, post) =>
           addChunk pre (some theme.markdownEmph) Attr.ITALIC ++
           addChunk mid (some theme.markdownStrong) (Attr.BOLD ||| Attr.ITALIC) ++
           addChunk post (some theme.markdownEmph) Attr.ITALIC
       | none => addChunk content (some theme.markdownEmph) Attr.ITALIC)
  | Sum.inr (.code content) => addChunk content (some theme.markdownCode) 0
  | Sum.inr (.link txt url) =>
      addChunk txt (some theme.markdownLinkText) Attr.UNDERLINE ++
      addChunk [' ', '('] (some theme.markdownText) 0 ++
      addChunk url (some theme.markdownLink) Attr.UNDERLINE ++
      addChunk [')'] (some theme.markdownText) 0
  | Sum.inr (.strike content) => addChunk content (some theme.textMuted) Attr.STRIKETHROUGH

/-- `renderInlineThemedWithDefault`: tokenize one line with the combined
inline regex and emit themed chunks, plain text taking the given default
color and attributes. -/
def renderInlineThemedWithDefault (text : Str) (theme : MarkdownTheme)
    (defaultColor : RGBA) (defaultAttrs : Nat) : List TextChunk :=
  (inlineScan text).flatMap (tokChunks theme defaultColor defaultAttrs)

/-- `renderInlineThemed`: inline rendering with the body-text default. -/
def renderInlineThemed (text : Str) (theme : MarkdownTheme) : List TextChunk :=
  renderInlineThemedWithDefault text theme theme.markdownText 0

/-- C3: on the input line `"**bold *and italic* text**"` the inline
tokenizer emits exactly three styled fragments in order: `"bold "` with the
strong color and bold attribute, `"and italic"` with the strong color and
bold|italic attributes, and `" text"` with the strong color and bold
attribute — one level of italic nesting inside bold. -/
theorem c3_nested_emphasis (theme : MarkdownTheme) (dc : RGBA) (da : Nat) :
    renderInlineThemedWithDefault ("**bold *and italic* text**".data) theme dc da =
      [⟨"bold ".data, some theme.markdownStrong, none, Attr.BOLD⟩,
       ⟨"and italic".data, some theme.markdownStrong, none, Attr.BOLD ||| Attr.ITALIC⟩,
       ⟨" text".data, some theme.markdownStrong, none, Attr.BOLD⟩] := rfl

/-- JS `colWidths.reduce((a, b) => a + b + 3, 1)`: the total drawn table
width for the given column widths (3 per column for padding/border, plus the
final border). -/
def calcWidth (ws : List Nat) : Nat := ws.foldl (fun a b => a + b + 3) 1

/-- JS `Math.max(...ws)` over a list of naturals (0 when empty). -/
def listMax (ws : List Nat) : Nat := ws.foldr max 0

/-- One iteration of the shrink loop: decrement the first occurrence of the
maximum column width, clamped to the floor of 10. -/
def shrinkStep (ws : List Nat) : List Nat :=
  ws.set (ws.indexOf (listMax ws)) (max 10 (ws.getD (ws.indexOf (listMax ws)) 0 - 1))

/-- Fueled shrink loop of `renderTableThemed`: while the total width exceeds
the budget and some column is above 10, shrink the widest column by 1. -/
def shrinkLoopAux (maxWidth : Int) : Nat → List Nat → List Nat
  | 0, ws => ws
  | fuel + 1, ws =>
      if (calcWidth ws : Int) > maxWidth ∧ ws.any (fun w => decide (w > 10)) then
        shrinkLoopAux maxWidth fuel (shrinkStep ws)
      else ws

/-- The column-shrink loop (the sum of the widths bounds the number of
iterations, so it is a sufficient fuel). -/
def shrinkLoop (maxWidth : Int) (ws : List Nat) : List Nat :=
  shrinkLoopAux maxWidth ws.sum ws

theorem listMax_cons (w : Nat) (ws : List Nat) : listMax (w :: ws) = max w (listMax ws) := rfl

theorem le_listMax : ∀ {ws : List Nat} {w : Nat}, w ∈ ws → w ≤ listMax ws := by
  intro ws
  induction ws with
  | nil => intro w h; simp at h
  | cons x xs ih =>
    intro w h
    rw [listMax_cons]
    rcases List.mem_cons.mp h with rfl | h
    · exact Nat.le_max_left _ _
    · exact Nat.le_trans (ih h) (Nat.le_max_right _ _)

theorem listMax_mem : ∀ {ws : List Nat}, ws ≠ [] → listMax ws ∈ ws := by
  intro ws
  induction ws with
  | nil => intro h; exact absurd rfl h
  | cons x xs ih =>
    intro _
    rw [listMax_cons]
    by_cases hxs : xs = []
    · subst hxs
      simp [listMax]
    · rcases Nat.le_total (listMax xs) x with h | h
      · rw [Nat.max_eq_left h]
        exact List.mem_cons_self _ _
      · rw [Nat.max_eq_right h]
        exact List.mem_cons_of_mem _ (ih hxs)

theorem sum_set_plus : ∀ (ws : List Nat) (i : Nat), i < ws.length → ∀ (a : Nat),
    (ws.set i a).sum + ws.getD i 0 = ws.sum + a := by
  intro ws
  induction ws with
  | nil => intro i h; simp at h
  | cons w ws ih =>
    intro i h a
    cases i with
    | zero => simp [List.sum_cons]; omega
    | succ j =>
      simp only [List.set_cons_succ, List.sum_cons, List.getD_cons_succ]
      have := ih j (by simpa using h) a
      omega

theorem getD_set_self : ∀ (ws : List Nat) (i : Nat), i < ws.length → ∀ (a : Nat),
    (ws.set i a).getD i 0 = a := by
  intro ws
  induction ws with
  | nil => intro i h; simp at h
  | cons w ws ih =>
    intro i h a
    cases i with
    | zero => rfl
    | succ j => exact ih j (by simpa using h) a

theorem getD_set_ne (ws : List Nat) (i j : Nat) (h : i ≠ j) (a : Nat) :
    (ws.set i a).getD j 0 = ws.getD j 0 := by
  induction ws generalizing i j with
  | nil => simp
  | cons w ws ih =>
    cases i with
    | zero =>
      cases j with
      | zero => exact absurd rfl h
      | succ j' => rfl
    | succ i' =>
      cases j with
      | zero => rfl
      | succ j' =>
        simp only [List.set_cons_succ, List.getD_cons_succ]
        exact ih i' j' (fun he => h (by rw [he]))

theorem calcWidth_eq_sum (ws : List Nat) : calcWidth ws = ws.sum + 3 * ws.length + 1 := by
  suffices h : ∀ (acc : Nat), ws.foldl (fun a b => a + b + 3) acc =
      acc + ws.sum + 3 * ws.length by
    unfold calcWidth
    rw [h 1]
    omega
  induction ws with
  | nil => intro acc; simp
  | cons w ws ih =>
    intro acc
    simp only [List.foldl_cons, List.sum_cons, List.length_cons]
    rw [ih (acc + w + 3)]
    ring

theorem shrinkStep_sum_lt {ws : List Nat} (h : 10 < listMax ws) :
    (shrinkStep ws).sum < ws.sum := by
  have hne : ws ≠ [] := by
    intro h0
    subst h0
    simp [listMax] at h
  have hmem : listMax ws ∈ ws := listMax_mem hne
  have hidx : ws.indexOf (listMax ws) < ws.length := List.indexOf_lt_length.mpr hmem
  have hval : ws.getD (ws.indexOf (listMax ws)) 0 = listMax ws := by
    rw [List.getD_eq_getElem _ _ hidx]
    exact List.getElem_indexOf hidx
  have hmax : max 10 (ws.getD (ws.indexOf (listMax ws)) 0 - 1) = listMax ws - 1 := by
    rw [hval]
    omega
  unfold shrinkStep
  rw [hmax]
  have hsum := sum_set_plus ws _ hidx (listMax ws - 1)
  rw [hval] at hsum
  omega

theorem shrinkStep_getD_ge (ws : List Nat) (i : Nat) (h : i < ws.length) :
    min 10 (ws.getD i 0) ≤ (shrinkStep ws).getD i 0 := by
  unfold shrinkStep
  by_cases heq : ws.indexOf (listMax ws) = i
  · rw [heq, getD_set_self ws i (heq ▸ h) _]
    omega
  · rw [getD_set_ne ws _ i heq _]
    omega

theorem shrinkStep_length (ws : List Nat) : (shrinkStep ws).length = ws.length := by
  unfold shrinkStep
  exact List.length_set ws _ _

theorem shrinkLoopAux_length (maxW : Int) : ∀ (fuel : Nat) (ws : List Nat),
    (shrinkLoopAux maxW fuel ws).length = ws.length := by
  intro fuel
  induction fuel with
  | zero => intro ws; rfl
  | succ n ih =>
    intro ws
    unfold shrinkLoopAux
    split
    · rw [ih (shrinkStep ws), shrinkStep_length]
    · rfl

theorem shrinkLoopAux_getD (maxW : Int) : ∀ (fuel : Nat) (ws : List Nat) (i : Nat),
    i < ws.length → min 10 (ws.getD i 0) ≤ (shrinkLoopAux maxW fuel ws).getD i 0 := by
  intro fuel
  induction fuel with
  | zero =>
    intro ws i h
    simp only [shrinkLoopAux]
    omega
  | succ n ih =>
    intro ws i h
    unfold shrinkLoopAux
    split
    · have h1 := shrinkStep_getD_ge ws i h
      have h2 := ih (shrinkStep ws) i (by rw [shrinkStep_length]; exact h)
      omega
    · omega

theorem shrinkLoopAux_exit (maxW : Int) : ∀ (fuel : Nat) (ws : List Nat), ws.sum ≤ fuel →
    ¬ ((calcWidth (shrinkLoopAux maxW fuel ws) : Int) > maxW ∧
      (shrinkLoopAux maxW fuel ws).any (fun w => decide (w > 10)) = true) := by
  intro fuel
  induction fuel with
  | zero =>
    intro ws hsum
    intro ⟨_, hany⟩
    rw [List.any_eq_true] at hany
    obtain ⟨w, hw, hgt⟩ := hany
    have : w ≤ ws.sum := List.single_le_sum (fun x _ => Nat.zero_le x) w hw
    simp at hgt
    omega
  | succ n ih =>
    intro ws hsum
    unfold shrinkLoopAux
    split
    · rename_i hguard
      apply ih
      have hany := hguard.2
      rw [List.any_eq_true] at hany
      obtain ⟨w, hw, hgt⟩ := hany
      simp at hgt
      have hmax : 10 < listMax ws := Nat.lt_of_lt_of_le hgt (le_listMax hw)
      have := shrinkStep_sum_lt hmax
      omega
    · rename_i hguard
      exact hguard

/-- C2: the column-shrink loop of `renderTableThemed` terminates for every
table and terminal width (it is a total function, with the sum of the
natural widths bounding the iteration count), preserves the number of
columns, never drives a column below 10 unless its natural width was already
below 10, and on exit either the computed total width fits the budget or
every column is at the floor of 10. -/
theorem c2_shrink_loop (ws : List Nat) (maxW : Int) :
    (shrinkLoop maxW ws).length = ws.length ∧
    (∀ i, i < ws.length → min 10 (ws.getD i 0) ≤ (shrinkLoop maxW ws).getD i 0) ∧
    ((calcWidth (shrinkLoop maxW ws) : Int) ≤ maxW ∨
      ∀ w ∈ shrinkLoop maxW ws, w ≤ 10) := by
  unfold shrinkLoop
  refine ⟨shrinkLoopAux_length maxW ws.sum ws, fun i h => shrinkLoopAux_getD maxW ws.sum ws i h, ?_⟩
  have hexit := shrinkLoopAux_exit maxW ws.sum ws (Nat.le_refl _)
  rw [not_and_or] at hexit
  rcases hexit with h | h
  · left
    omega
  · right
    intro w hw
    by_contra hgt
    apply h
    rw [List.any_eq_true]
    exact ⟨w, hw, by simp; omega⟩

/-- C2 witness: the shrink loop applied to natural widths `[40, 5]` with
budget 20. -/
theorem c2_shrink_loop_witness :
    (0 : Nat) < ([40, 5] : List Nat).length ∧
      min 10 (([40, 5] : List Nat).getD 0 0) ≤ (shrinkLoop 20 [40, 5]).getD 0 0 :=
  ⟨by decide, (c2_shrink_loop [40, 5] 20).2.1 0 (by decide)⟩

namespace Box

def topLeft : Char := Char.ofNat 0x250c
def topRight : Char := Char.ofNat 0x2510
def bottomLeft : Char := Char.ofNat 0x2514
def bottomRight : Char := Char.ofNat 0x2518
def horizontal : Char := Char.ofNat 0x2500
def vertical : Char := Char.ofNat 0x2502
def leftT : Char := Char.ofNat 0x251c
def rightT : Char := Char.ofNat 0x2524
def topT : Char := Char.ofNat 0x252c
def bottomT : Char := Char.ofNat 0x2534
def cross : Char := Char.ofNat 0x253c

end Box

/-- Cell accumulation of `parseRow`: split on `|` but not `\|` (an escaped
pipe becomes a literal pipe). -/
def parseRowCells : Str → List Str
  | [] => [[]]
  | [c] => if c = '|' then [[], []] else [[c]]
  | c :: c2 :: rest =>
      if c = '\\' ∧ c2 = '|' then consHead '|' (parseRowCells rest)
      else if c = '|' then [] :: parseRowCells (c2 :: rest)
      else consHead c (parseRowCells (c2 :: rest))

/-- `parseRow`: split a table row on unescaped pipes, discard the outer
cells produced by the row's outer pipes (`slice(1, -1)`), and trim each
cell. -/
def parseRow (row : Str) : List Str :=
  (((parseRowCells row).drop 1).dropLast).map trim

/-- The separator-line character class `[\s\-:|]`. -/
def isSepChar (c : Char) : Bool := c.isWhitespace || c = '-' || c = ':' || c = '|'

/-- `isSeparatorLine`: the test `/^\|[\s\-:|\s]+\|$/`. -/
def isSeparatorLine (line : Str) : Bool :=
  match line with
  | c :: rest =>
      c == '|' && rest.getLast? == some '|' && !rest.dropLast.isEmpty &&
        rest.dropLast.all isSepChar
  | [] => false

/-- Fueled generic replace of `/d(.+?)d/g` with the inner content: one of
the markdown-stripping passes of the table's `visibleLength`. -/
def replacePairAux (d : Str) : Nat → Str → Str
  | 0, s => s
  | _ + 1, [] => []
  | fuel + 1, c :: rest =>
      match (if d.isPrefixOf (c :: rest) then
              match (c :: rest).drop d.length with
              | e :: rest2 =>
                  (match splitFirst d rest2 with
                   | some (a, b) => some (e :: a, b)
                   | none => none)
              | [] => none
            else none) with
      | some (content, b) => content ++ replacePairAux d fuel b
      | none => c :: replacePairAux d fuel rest

/-- Fueled replace of `/\[([^\]]+)\]\(([^)]+)\)/g` with `"$1 ($2)"`. -/
def replaceLinkAux : Nat → Str → Str
  | 0, s => s
  | _ + 1, [] => []
  | fuel + 1, c :: rest =>
      match (match c :: rest with
             | '[' :: c2 :: rest2 =>
                 if c2 = ']' then none
                 else
                   match splitFirst [']'] (c2 :: rest2) with
                   | some (txt, rest3) =>
                       (match rest3 with
                        | '(' :: c3 :: rest4 =>
                            if c3 = ')' then none
                            else
                              match splitFirst [')'] (c3 :: rest4) with
                              | some (url, rest5) => some (txt, url, rest5)
                              | none => none
                        | _ => none)
                   | none => none
             | _ => none) with
      | some (txt, url, b) => txt ++ ([' ', '('] ++ (url ++ (')' :: replaceLinkAux fuel b)))
      | none => c :: replaceLinkAux fuel rest

/-- The markdown-syntax stripping of the table's `visibleLength`: bold,
italic, code and strikethrough markers removed, links rewritten as
`"text (url)"`. -/
def stripMarkdown (text : Str) : Str :=
  let t1 := replacePairAux ['*', '*', '*'] text.length text
  let t2 := replacePairAux ['*', '*'] t1.length t1
  let t3 := replacePairAux ['*'] t2.length t2
  let t4 := replacePairAux ['`'] t3.length t3
  let t5 := replacePairAux ['~', '~'] t4.length t4
  replaceLinkAux t5.length t5

/-- The table engine's `visibleLength`: display width after markdown
stripping. -/
def visibleLength (text : Str) : Nat := stringWidth (stripMarkdown text)

/-- Token accumulation of the table `wordWrap`: split on spaces except
inside backtick-quoted spans. -/
def wwTokensAux : Str → Str → Bool → List Str
  | [], current, _ => if current = [] then [] else [current]
  | c :: rest, current, inBt =>
      if c = '`' then wwTokensAux rest (current ++ ['`']) (!inBt)
      else if c = ' ' ∧ inBt = false then
        (if current = [] then [] else [current]) ++ ([' '] :: wwTokensAux rest [] false)
      else wwTokensAux rest (current ++ [c]) inBt

def wwTokens (text : Str) : List Str := wwTokensAux text [] false

/-- Re-wrap a broken piece in backticks when the original token was
quoted. -/
def wrapQ (isQuoted : Bool) (p : Str) : Str := if isQuoted then '`' :: (p ++ ['`']) else p

/-- The effective per-piece budget of `breakLongToken` (leaving room for
backticks when the token is quoted); computed in ℤ as JS would. -/
def effectiveMax (isQuoted : Bool) (maxLen : Nat) : Int :=
  if isQuoted then (maxLen : Int) - 2 else (maxLen : Int)

/-- The character loop of `breakLongToken`: break after `.` or `-` once the
accumulated piece reaches the (possibly negative) effective budget, except
at the token's last character. -/
def breakLoopAux (isQuoted : Bool) (maxLen : Nat) : Str → Str → List Str
  | part, [] => if part = [] then [] else [wrapQ isQuoted part]
  | part, c :: rest =>
      if ((part ++ [c]).length : Int) ≥ effectiveMax isQuoted maxLen - 2 ∧
          (c = '.' ∨ c = '-') ∧ rest ≠ [] then
        wrapQ isQuoted (part ++ [c]) :: breakLoopAux isQuoted maxLen [] rest
      else breakLoopAux isQuoted maxLen (part ++ [c]) rest

/-- `breakLongToken`: break an over-long token on `.`/`-` characters near
the length budget, preserving backtick quoting around each broken piece. -/
def breakLongToken (token : Str) (maxLen : Nat) : List Str :=
  if token.length ≤ maxLen then [token]
  else if token.take 1 == ['`'] && token.getLast? == some '`' then
    breakLoopAux true maxLen [] (token.dropLast.drop 1)
  else breakLoopAux false maxLen [] token

/-- The shared inner loop of `wordWrap` over the parts of a broken token
(state: emitted lines and the current line, which the source does not reset
before entering the loop). -/
def wwAddParts (width : Nat) : List Str → List Str × Str → List Str × Str
  | [], acc => acc
  | part :: ps, (lines, line) =>
      if visibleLength line = 0 then wwAddParts width ps (lines, part)
      else if visibleLength (line ++ part) ≤ width then
        wwAddParts width ps (lines, line ++ part)
      else wwAddParts width ps (lines ++ [trimRight line], part)

/-- The token loop of the table `wordWrap`. -/
def wwLoop (width : Nat) : List Str → List Str × Str → List Str × Str
  | [], acc => acc
  | token :: ts, (lines, line) =>
      if token = [' '] then
        if 0 < visibleLength line ∧ visibleLength line < width then
          wwLoop width ts (lines, line ++ [' '])
        else wwLoop width ts (lines, line)
      else if visibleLength line = 0 then
        if width < visibleLength token then
          wwLoop width ts (wwAddParts width (breakLongToken token width) (lines, line))
        else wwLoop width ts (lines, token)
      else if visibleLength (line ++ token) ≤ width then
        wwLoop width ts (lines, line ++ token)
      else
        if width < visibleLength token then
          wwLoop width ts
            (wwAddParts width (breakLongToken token width) (lines ++ [trimRight line], line))
        else wwLoop width ts (lines ++ [trimRight line], token)

/-- Close out the `wordWrap` loop state: push the trailing line if nonempty,
and fall back to a single empty line if nothing was produced. -/
def wwFinish : List Str × Str → List Str
  | (lines, line) =>
      if line = [] then (if lines = [] then [[]] else lines)
      else lines ++ [trimRight line]

/-- The table-local `wordWrap`: wrap one cell's text to the given width,
returning the wrapped lines (never empty). -/
def wordWrap (text : Str) (width : Nat) : List Str :=
  if visibleLength text ≤ width then [text]
  else wwFinish (wwLoop width (wwTokens text) ([], []))

/-- Sum of the display widths of a chunk list's texts, as `renderCell`
accumulates it. -/
def cellLen (chunks : List TextChunk) : Nat := (chunks.map (fun c => stringWidth c.text)).sum

/-- `renderCell`: render one wrapped cell line with inline formatting and
pad it to the column width. -/
def renderCell (text : Str) (width : Nat) (isHeader : Bool) (theme : MarkdownTheme) :
    List TextChunk :=
  if text = [] then addChunk (List.replicate width ' ') (some theme.markdownText) 0
  else
    let cellChunks :=
      if isHeader then [⟨text, some theme.markdownHeading, none, Attr.BOLD⟩]
      else renderInlineThemed text theme
    cellChunks ++
      (if cellLen cellChunks < width then
        addChunk (List.replicate (width - cellLen cellChunks) ' ') (some theme.markdownText) 0
      else [])

/-- A horizontal border row: left corner, column segments of `w + 2`
horizontals joined by the mid glyph, right corner. -/
def borderRowStr (l m r : Char) (ws : List Nat) : Str :=
  l :: (joinWith [m] (ws.map (fun w => List.replicate (w + 2) Box.horizontal)) ++ [r])

/-- The header row of a table block. -/
def headerRowOf (tableLines : List Str) : List Str := parseRow tableLines.headI

/-- The data rows of a table block: separator lines dropped, rest parsed. -/
def dataRowsOf (tableLines : List Str) : List (List Str) :=
  ((tableLines.drop 1).filter (fun l => !isSeparatorLine l)).map parseRow

/-- Natural column widths: the larger of the header cell's and the widest
data cell's stripped display width, per column. -/
def natWidthsOf (tableLines : List Str) : List Nat :=
  (headerRowOf tableLines).enum.map (fun p =>
    max (visibleLength p.2)
      (listMax ((dataRowsOf tableLines).map (fun r => visibleLength (r.getD p.1 [])))))

/-- The final column widths after the shrink-to-budget loop. -/
def tableColWidths (tableLines : List Str) (cols : Nat) : List Nat :=
  shrinkLoop ((cols : Int) - 4) (natWidthsOf tableLines)

/-- The chunks of one header cell: padding space, the (padded or truncated)
bold cell text, closing space and border. -/
def headerCellChunks (theme : MarkdownTheme) (cell : Str) (targetWidth : Nat) :
    List TextChunk :=
  addChunk [' '] (some theme.border) 0 ++
  ((if stringWidth cell ≤ targetWidth then
      addChunk (cell ++ List.replicate (targetWidth - stringWidth cell) ' ')
        (some theme.markdownHeading) Attr.BOLD
    else addChunk (cell.take targetWidth) (some theme.markdownHeading) Attr.BOLD) ++
  addChunk [' ', Box.vertical] (some theme.border) 0)

/-- The chunks of the single-line header row. -/
def headerRowChunks (theme : MarkdownTheme) (headerRow : List Str) (colWidths : List Nat) :
    List TextChunk :=
  addChunk [Box.vertical] (some theme.border) 0 ++
  (((headerRow.zip colWidths).flatMap (fun p => headerCellChunks theme p.1 p.2)) ++
  addChunk ['\n'] none 0)

/-- The chunks of one cell on one line of a (possibly wrapped) data row. -/
def dataCellChunks (theme : MarkdownTheme) (lns : List Str) (w : Nat) (lineIdx : Nat) :
    List TextChunk :=
  addChunk [' '] (some theme.border) 0 ++
  (renderCell (lns.getD lineIdx []) w false theme ++
  addChunk [' ', Box.vertical] (some theme.border) 0)

/-- The chunks of one data row: wrap every cell, then emit one grid line per
wrapped row height. -/
def dataRowChunks (theme : MarkdownTheme) (colWidths : List Nat) (row : List Str) :
    List TextChunk :=
  let wrapped := row.enum.map (fun p => wordWrap p.2 (colWidths.getD p.1 10))
  (List.range (listMax (wrapped.map List.length))).flatMap (fun lineIdx =>
    addChunk [Box.vertical] (some theme.border) 0 ++
    ((wrapped.enum.flatMap (fun p => dataCellChunks theme p.2 (colWidths.getD p.1 0) lineIdx)) ++
    addChunk ['\n'] none 0))

/-- `renderTableThemed`: parse the accumulated table lines, compute and
shrink column widths, and emit the bordered grid as styled chunks.  A table
with fewer than 2 lines emits nothing. -/
def renderTableThemed (tableLines : List Str) (theme : MarkdownTheme) (cols : Nat) :
    List TextChunk :=
  if tableLines.length < 2 then []
  else
    let colWidths := tableColWidths tableLines cols
    addChunk (borderRowStr Box.topLeft Box.topT Box.topRight colWidths ++ ['\n'])
      (some theme.border) 0 ++
    (headerRowChunks theme (headerRowOf tableLines) colWidths ++
    (addChunk (borderRowStr Box.leftT Box.cross Box.rightT colWidths ++ ['\n'])
      (some theme.border) 0 ++
    (((dataRowsOf tableLines).flatMap (dataRowChunks theme colWidths)) ++
    addChunk (borderRowStr Box.bottomLeft Box.bottomT Box.bottomRight colWidths ++ ['\n'])
      (some theme.border) 0)))

/-- The emitted rows of a rendered table: the concatenation of the chunk
texts, split on newlines, without the final empty piece. -/
def tableRows (tableLines : List Str) (theme : MarkdownTheme) (cols : Nat) : List Str :=
  (splitLines (concatTexts (renderTableThemed tableLines theme cols))).dropLast

/-- `createDefaultCliTheme`'s `rgb` helper (0–255 ints to 0–1 floats). -/
def rgbTheme (r g b : Nat) : RGBA :=
  ⟨some ((r : ℚ) / 255), some ((g : ℚ) / 255), some ((b : ℚ) / 255), some 1⟩

/-- `createDefaultCliTheme`: the default CLI theme. -/
def createDefaultCliTheme : MarkdownTheme :=
  ⟨rgbTheme 229 229 229, rgbTheme 102 102 102, rgbTheme 36 114 200, rgbTheme 36 114 200,
   rgbTheme 102 102 102, rgbTheme 0 0 0, rgbTheme 60 60 60, rgbTheme 40 40 40,
   rgbTheme 229 229 229, rgbTheme 229 229 229, rgbTheme 36 114 200, rgbTheme 17 168 205,
   rgbTheme 13 188 121, rgbTheme 229 229 229, rgbTheme 229 229 16, rgbTheme 229 229 16,
   rgbTheme 229 229 229, rgbTheme 36 114 200, rgbTheme 17 168 205, rgbTheme 102 102 102,
   rgbTheme 13 188 121, rgbTheme 205 49 49⟩

/-- C1 counterexample: the claim fails as stated in several ways.
Input A (cols 20): an unbreakable 40-character cell cannot be wrapped to its
shrunken column, so its grid line has width 44 while the border rows have
width 16, and 44 also exceeds the terminal width 20.  Input B: a data row
with more cells than the header renders wider (9) than the borders (5).
Input C: a table whose header has zero columns renders a 1-wide header row
between 2-wide borders.  Input D (cols 10): every row has equal width 14,
but 14 exceeds the terminal width 10 because every column is pinned at the
floor of 10. -/
theorem c1_counterexample :
    ((tableRows ["| h |".data, "|---|".data,
        ("| ".data ++ (List.replicate 40 'a' ++ " |".data))]
        createDefaultCliTheme 20).map stringWidth = [16, 16, 16, 44, 16] ∧
      (44 : Nat) ≠ 16 ∧ ¬ ((44 : Nat) ≤ 20)) ∧
    ((tableRows ["| a |".data, "|---|".data, "| x | y |".data]
        createDefaultCliTheme 80).map stringWidth = [5, 5, 5, 9, 5] ∧ (9 : Nat) ≠ 5) ∧
    ((tableRows ["|".data, "|".data] createDefaultCliTheme 80).map stringWidth =
        [2, 1, 2, 2] ∧ (1 : Nat) ≠ 2) ∧
    ((tableRows ["| h |".data, "|---|".data, "| aaaa-aaaa-aa |".data]
        createDefaultCliTheme 10).map stringWidth = [14, 14, 14, 14, 14, 14] ∧
      ¬ ((14 : Nat) ≤ 10)) := by
  refine ⟨⟨?_, by decide, by decide⟩, ⟨?_, by decide⟩, ⟨?_, by decide⟩, ⟨?_, by decide⟩⟩
  · decide
  · decide
  · decide
  · decide

/-- Plain display width, with no ANSI stripping. -/
def rawWidth (s : Str) : Nat := (s.map charWidth).sum

theorem rawWidth_append (a b : Str) : rawWidth (a ++ b) = rawWidth a + rawWidth b := by
  unfold rawWidth
  simp

theorem hasCsi_false_of_noEsc {s : Str} (h : escC ∉ s) : hasCsi s = false := by
  induction s with
  | nil => rfl
  | cons c rest ih =>
    simp only [hasCsi, Bool.or_eq_false_iff, Bool.and_eq_false_iff]
    refine ⟨Or.inl ?_, ih (fun hm => h (List.mem_cons_of_mem _ hm))⟩
    simp only [decide_eq_false_iff_not]
    intro hc
    exact h (hc ▸ List.mem_cons_self c rest)

theorem stringWidth_eq_rawWidth {s : Str} (h : escC ∉ s) : stringWidth s = rawWidth s := by
  unfold stringWidth rawWidth
  rw [stripAnsi_of_hasCsi_false (hasCsi_false_of_noEsc h)]

theorem rawWidth_replicate (n : Nat) (c : Char) :
    rawWidth (List.replicate n c) = n * charWidth c := by
  unfold rawWidth
  simp [List.map_replicate, List.sum_replicate, Nat.smul_one_eq_cast]

theorem concatTexts_append (a b : List TextChunk) :
    concatTexts (a ++ b) = concatTexts a ++ concatTexts b := by
  induction a with
  | nil => rfl
  | cons c cs ih =>
    show c.text ++ concatTexts (cs ++ b) = (c.text ++ concatTexts cs) ++ concatTexts b
    rw [ih, List.append_assoc]

theorem concatTexts_addChunk (t : Str) (color : Option RGBA) (attrs : Nat) :
    concatTexts (addChunk t color attrs) = t := by
  unfold addChunk
  split
  · rename_i h
    rw [h]
    rfl
  · show t ++ [] = t
    simp

/-- Concatenation of rows, each terminated by a newline. -/
def joinNLTerm : List Str → Str
  | [] => []
  | r :: rs => r ++ ('\n' :: joinNLTerm rs)

theorem joinNLTerm_append (a b : List Str) :
    joinNLTerm (a ++ b) = joinNLTerm a ++ joinNLTerm b := by
  induction a with
  | nil => rfl
  | cons r rs ih =>
    show r ++ ('\n' :: joinNLTerm (rs ++ b)) = (r ++ ('\n' :: joinNLTerm rs)) ++ joinNLTerm b
    rw [ih]
    simp

/-- Prepend a whole string to the first line of a line list. -/
def consHead2 (r : Str) : List Str → List Str
  | [] => [r]
  | l :: ls => (r ++ l) :: ls

theorem splitLines_ne_nil (s : Str) : splitLines s ≠ [] := by
  induction s with
  | nil => simp [splitLines]
  | cons c rest ih =>
    simp only [splitLines]
    split
    · simp
    · cases hs : splitLines rest with
      | nil => exact absurd hs ih
      | cons l ls => simp [consHead]

theorem splitLines_append_nlfree {r : Str} (h : '\n' ∉ r) (s : Str) :
    splitLines (r ++ s) = consHead2 r (splitLines s) := by
  induction r with
  | nil =>
    cases hs : splitLines s with
    | nil => exact absurd hs (splitLines_ne_nil s)
    | cons l ls => rw [List.nil_append, hs]; rfl
  | cons c r' ih =>
    have hc : ¬ c = '\n' := fun he => h (he ▸ List.mem_cons_self c r')
    have h' : '\n' ∉ r' := fun hm => h (List.mem_cons_of_mem _ hm)
    show splitLines (c :: (r' ++ s)) = _
    simp only [splitLines, if_neg hc, ih h']
    cases hs : splitLines s with
    | nil => exact absurd hs (splitLines_ne_nil s)
    | cons l ls => rfl

theorem splitLines_segments : ∀ (rows : List Str), (∀ r ∈ rows, '\n' ∉ r) →
    splitLines (joinNLTerm rows) = rows ++ [[]] := by
  intro rows
  induction rows with
  | nil => intro _; rfl
  | cons r rs ih =>
    intro h
    show splitLines (r ++ ('\n' :: joinNLTerm rs)) = _
    rw [splitLines_append_nlfree (h r (List.mem_cons_self r rs))]
    have hstep : splitLines ('\n' :: joinNLTerm rs) = [] :: splitLines (joinNLTerm rs) := by
      simp [splitLines]
    rw [hstep, ih (fun x hx => h x (List.mem_cons_of_mem _ hx))]
    simp [consHead2]

/-- The literal characters carried by an inline token. -/
def tokChars : InlineTok → Str
  | .boldItalic c => c
  | .bold c => c
  | .italic c => c
  | .code c => c
  | .link t u => t ++ u
  | .strike c => c

theorem allP_splitFirst {P : Char → Prop} {d s a b : Str} (h : splitFirst d s = some (a, b))
    (hs : ∀ ch ∈ s, P ch) : (∀ ch ∈ a, P ch) ∧ (∀ ch ∈ b, P ch) := by
  have heq := splitFirst_spec h
  subst heq
  constructor
  · intro ch hch
    exact hs ch (by simp [hch])
  · intro ch hch
    exact hs ch (by simp [hch])

theorem allP_sub {P : Char → Prop} {s t : Str} (hsub : t ⊆ s) (hs : ∀ ch ∈ s, P ch) :
    ∀ ch ∈ t, P ch := fun ch hch => hs ch (hsub hch)

theorem allP_tryBoldItalic {P : Char → Prop} {s : Str} {tok : InlineTok} {r : Str}
    (h : tryBoldItalic s = some (tok, r)) (hs : ∀ ch ∈ s, P ch) :
    (∀ ch ∈ tokChars tok, P ch) ∧ (∀ ch ∈ r, P ch) := by
  have hds : ∀ ch ∈ s.drop 3, P ch := allP_sub (List.drop_subset 3 s) hs
  unfold tryBoldItalic at h
  split at h
  · cases hsp : splitFirst ['*', '*', '*'] (s.drop 3) with
    | some p =>
      obtain ⟨a, b⟩ := p
      rw [hsp] at h
      injection h with h
      injection h with h1 h2
      subst h1
      subst h2
      have := allP_splitFirst hsp hds
      exact ⟨this.1, this.2⟩
    | none => rw [hsp] at h; exact absurd h (by simp)
  · split at h
    · cases hsp : splitFirst ['_', '_', '_'] (s.drop 3) with
      | some p =>
        obtain ⟨a, b⟩ := p
        rw [hsp] at h
        injection h with h
        injection h with h1 h2
        subst h1
        subst h2
        have := allP_splitFirst hsp hds
        exact ⟨this.1, this.2⟩
      | none => rw [hsp] at h; exact absurd h (by simp)
    · exact absurd h (by simp)

theorem allP_tryBold {P : Char → Prop} {s : Str} {tok : InlineTok} {r : Str}
    (h : tryBold s = some (tok, r)) (hs : ∀ ch ∈ s, P ch) :
    (∀ ch ∈ tokChars tok, P ch) ∧ (∀ ch ∈ r, P ch) := by
  unfold tryBold at h
  split at h
  · rename_i a b c rest
    split at h
    · cases hsp : splitFirst ['*', '*'] rest with
      | some pq =>
        obtain ⟨p, q⟩ := pq
        rw [hsp] at h
        injection h with h
        injection h with h1 h2
        subst h1
        subst h2
        have hrest : ∀ ch ∈ rest, P ch := fun ch hch => hs ch (by simp [hch])
        have hab := allP_splitFirst hsp hrest
        refine ⟨?_, hab.2⟩
        intro ch hch
        simp only [tokChars] at hch
        rcases List.mem_cons.mp hch with rfl | hch
        · exact hs ch (by simp)
        · exact hab.1 ch hch
      | none => rw [hsp] at h; exact absurd h (by simp)
    · exact absurd h (by simp)
  · exact absurd h (by simp)

theorem allP_tryItalic {P : Char → Prop} {s : Str} {tok : InlineTok} {r : Str}
    (h : tryItalic s = some (tok, r)) (hs : ∀ ch ∈ s, P ch) :
    (∀ ch ∈ tokChars tok, P ch) ∧ (∀ ch ∈ r, P ch) := by
  unfold tryItalic at h
  split at h
  · rename_i a c rest
    split at h
    · cases hsp : splitFirst ['*'] rest with
      | some pq =>
        obtain ⟨p, q⟩ := pq
        rw [hsp] at h
        injection h with h
        injection h with h1 h2
        subst h1
        subst h2
        have hrest : ∀ ch ∈ rest, P ch := fun ch hch => hs ch (by simp [hch])
        have hab := allP_splitFirst hsp hrest
        refine ⟨?_, hab.2⟩
        intro ch hch
        simp only [tokChars] at hch
        rcases List.mem_cons.mp hch with rfl | hch
        · exact hs ch (by simp)
        · exact hab.1 ch hch
      | none => rw [hsp] at h; exact absurd h (by simp)
    · exact absurd h (by simp)
  · exact absurd h (by simp)

theorem allP_tryCode {P : Char → Prop} {s : Str} {tok : InlineTok} {r : Str}
    (h : tryCode s = some (tok, r)) (hs : ∀ ch ∈ s, P ch) :
    (∀ ch ∈ tokChars tok, P ch) ∧ (∀ ch ∈ r, P ch) := by
  unfold tryCode at h
  split at h
  · rename_i a c rest
    split at h
    · split at h
      · exact absurd h (by simp)
      · cases hsp : splitFirst ['`'] (c :: rest) with
        | some pq =>
          obtain ⟨p, q⟩ := pq
          rw [hsp] at h
          injection h with h
          injection h with h1 h2
          subst h1
          subst h2
          have hcr : ∀ ch ∈ c :: rest, P ch := fun ch hch => hs ch (by
            rcases List.mem_cons.mp hch with rfl | hch
            · simp
            · simp [hch])
          have hab := allP_splitFirst hsp hcr
          refine ⟨?_, hab.2⟩
          intro ch hch
          simp only [tokChars] at hch
          exact hab.1 ch hch
        | none => rw [hsp] at h; exact absurd h (by simp)
    · exact absurd h (by simp)
  · exact absurd h (by simp)

theorem jsLinkClose_subset {r4 r5 : Str} (h : jsLinkClose r4 = some r5) : r5 ⊆ r4 := by
  unfold jsLinkClose at h
  split at h
  · split at h
    · rename_i c rest5
      split at h
      · injection h with h
        subst h
        intro ch hch
        simp [hch]
      · exact absurd h (by simp)
    · exact absurd h (by simp)
  · split at h
    · rename_i c trest heq
      split at h
      · split at h
        · rename_i d rest5' heq2
          split at h
          · split at h
            · rename_i e rest6
              split at h
              · injection h with h
                subst h
                intro ch hch
                have h1 : ch ∈ trest.drop
                    (trest.takeWhile (fun ch => !(ch == '"'))).length := by
                  rw [heq2]
                  simp [hch]
                have h2 : ch ∈ trest := List.drop_subset _ _ h1
                have h3 : ch ∈ r4.drop (r4.takeWhile Char.isWhitespace).length := by
                  rw [heq]
                  simp [h2]
                exact List.drop_subset _ _ h3
              · exact absurd h (by simp)
            · exact absurd h (by simp)
          · exact absurd h (by simp)
        · exact absurd h (by simp)
      · exact absurd h (by simp)
    · exact absurd h (by simp)

theorem allP_tryLinkTail {P : Char → Prop} {txt rest2 : Str} {tok : InlineTok} {r : Str}
    (h : tryLinkTail txt rest2 = some (tok, r)) (htxt : ∀ ch ∈ txt, P ch)
    (hr2 : ∀ ch ∈ rest2, P ch) :
    (∀ ch ∈ tokChars tok, P ch) ∧ (∀ ch ∈ r, P ch) := by
  cases rest2 with
  | nil => simp [tryLinkTail] at h
  | cons p rest3 =>
    simp only [tryLinkTail] at h
    by_cases hp : p = '('
    · rw [if_pos hp] at h
      by_cases hu : rest3.takeWhile urlChar = []
      · rw [if_pos hu] at h
        exact absurd h (by simp)
      · rw [if_neg hu] at h
        cases hcl : jsLinkClose (rest3.drop (rest3.takeWhile urlChar).length) with
        | some rest5 =>
          rw [hcl] at h
          injection h with h
          injection h with h1 h2
          subst h1
          subst h2
          have hrest3 : ∀ ch ∈ rest3, P ch := fun ch hch => hr2 ch (by simp [hch])
          constructor
          · intro ch hch
            simp only [tokChars] at hch
            rcases List.mem_append.mp hch with hch | hch
            · exact htxt ch hch
            · exact hrest3 ch (List.takeWhile_subset _ hch)
          · intro ch hch
            have := jsLinkClose_subset hcl hch
            exact hrest3 ch (List.drop_subset _ _ this)
        | none => rw [hcl] at h; exact absurd h (by simp)
    · rw [if_neg hp] at h
      exact absurd h (by simp)

theorem allP_tryLink {P : Char → Prop} {s : Str} {tok : InlineTok} {r : Str}
    (h : tryLink s = some (tok, r)) (hs : ∀ ch ∈ s, P ch) :
    (∀ ch ∈ tokChars tok, P ch) ∧ (∀ ch ∈ r, P ch) := by
  unfold tryLink at h
  split at h
  · rename_i a c rest
    split at h
    · split at h
      · exact absurd h (by simp)
      · cases hsp : splitFirst [']'] (c :: rest) with
        | some p =>
          obtain ⟨txt, rest2⟩ := p
          rw [hsp] at h
          have hcr : ∀ ch ∈ c :: rest, P ch := fun ch hch => hs ch (by
            rcases List.mem_cons.mp hch with rfl | hch
            · simp
            · simp [hch])
          have hab := allP_splitFirst hsp hcr
          exact allP_tryLinkTail h hab.1 hab.2
        | none => rw [hsp] at h; exact absurd h (by simp)
    · exact absurd h (by simp)
  · exact absurd h (by simp)

theorem allP_tryStrike {P : Char → Prop} {s : Str} {tok : InlineTok} {r : Str}
    (h : tryStrike s = some (tok, r)) (hs : ∀ ch ∈ s, P ch) :
    (∀ ch ∈ tokChars tok, P ch) ∧ (∀ ch ∈ r, P ch) := by
  unfold tryStrike at h
  split at h
  · rename_i a b c rest
    split at h
    · cases hsp : splitFirst ['~', '~'] rest with
      | some pq =>
        obtain ⟨p, q⟩ := pq
        rw [hsp] at h
        injection h with h
        injection h with h1 h2
        subst h1
        subst h2
        have hrest : ∀ ch ∈ rest, P ch := fun ch hch => hs ch (by simp [hch])
        have hab := allP_splitFirst hsp hrest
        refine ⟨?_, hab.2⟩
        intro ch hch
        simp only [tokChars] at hch
        rcases List.mem_cons.mp hch with rfl | hch
        · exact hs ch (by simp)
        · exact hab.1 ch hch
      | none => rw [hsp] at h; exact absurd h (by simp)
    · exact absurd h (by simp)
  · exact absurd h (by simp)

theorem allP_tryInlineTok {P : Char → Prop} {s : Str} {tok : InlineTok} {r : Str}
    (h : tryInlineTok s = some (tok, r)) (hs : ∀ ch ∈ s, P ch) :
    (∀ ch ∈ tokChars tok, P ch) ∧ (∀ ch ∈ r, P ch) := by
  unfold tryInlineTok at h
  cases h1 : tryBoldItalic s with
  | some v =>
    rw [h1] at h
    simp only [Option.some_orElse] at h
    obtain ⟨t1, r1⟩ := v
    injection h with h
    injection h with ha hb
    subst ha
    subst hb
    exact allP_tryBoldItalic h1 hs
  | none =>
    rw [h1] at h
    simp only [Option.none_orElse] at h
    cases h2 : tryBold s with
    | some v =>
      rw [h2] at h
      simp only [Option.some_orElse] at h
      obtain ⟨t1, r1⟩ := v
      injection h with h
      injection h with ha hb
      subst ha
      subst hb
      exact allP_tryBold h2 hs
    | none =>
      rw [h2] at h
      simp only [Option.none_orElse] at h
      cases h3 : tryItalic s with
      | some v =>
        rw [h3] at h
        simp only [Option.some_orElse] at h
        obtain ⟨t1, r1⟩ := v
        injection h with h
        injection h with ha hb
        subst ha
        subst hb
        exact allP_tryItalic h3 hs
      | none =>
        rw [h3] at h
        simp only [Option.none_orElse] at h
        cases h4 : tryCode s with
        | some v =>
          rw [h4] at h
          simp only [Option.some_orElse] at h
          obtain ⟨t1, r1⟩ := v
          injection h with h
          injection h with ha hb
          subst ha
          subst hb
          exact allP_tryCode h4 hs
        | none =>
          rw [h4] at h
          simp only [Option.none_orElse] at h
          cases h5 : tryLink s with
          | some v =>
            rw [h5] at h
            simp only [Option.some_orElse] at h
            obtain ⟨t1, r1⟩ := v
            injection h with h
            injection h with ha hb
            subst ha
            subst hb
            exact allP_tryLink h5 hs
          | none =>
            rw [h5] at h
            simp only [Option.none_orElse] at h
            exact allP_tryStrike h hs

theorem allP_consPlain {P : Char → Prop} {c : Char} {ts : List (Str ⊕ InlineTok)}
    (hc : P c)
    (hts : ∀ x ∈ ts, (∀ t, x = Sum.inl t → ∀ ch ∈ t, P ch) ∧
      (∀ tk, x = Sum.inr tk → ∀ ch ∈ tokChars tk, P ch)) :
    ∀ x ∈ consPlain c ts, (∀ t, x = Sum.inl t → ∀ ch ∈ t, P ch) ∧
      (∀ tk, x = Sum.inr tk → ∀ ch ∈ tokChars tk, P ch) := by
  cases ts with
  | nil =>
    intro x hx
    simp only [consPlain, List.mem_singleton] at hx
    subst hx
    refine ⟨?_, ?_⟩
    · intro t ht ch hch
      injection ht with ht
      subst ht
      rcases List.mem_singleton.mp hch with rfl
      exact hc
    · intro tk htk
      exact absurd htk (by simp)
  | cons y ys =>
    cases y with
    | inl t0 =>
      intro x hx
      simp only [consPlain] at hx
      rcases List.mem_cons.mp hx with rfl | hx
      · refine ⟨?_, ?_⟩
        · intro t ht ch hch
          injection ht with ht
          subst ht
          rcases List.mem_cons.mp hch with rfl | hch
          · exact hc
          · exact (hts (Sum.inl t0) (by simp)).1 t0 rfl ch hch
        · intro tk htk
          exact absurd htk (by simp)
      · exact hts x (by simp [hx])
    | inr tk0 =>
      intro x hx
      simp only [consPlain] at hx
      rcases List.mem_cons.mp hx with rfl | hx
      · refine ⟨?_, ?_⟩
        · intro t ht ch hch
          injection ht with ht
          subst ht
          rcases List.mem_singleton.mp hch with rfl
          exact hc
        · intro tk htk
          exact absurd htk (by simp)
      · exact hts x (by simp [hx])

theorem allP_inlineScanAux {P : Char → Prop} : ∀ (fuel : Nat) (s : Str),
    (∀ ch ∈ s, P ch) →
    ∀ x ∈ inlineScanAux fuel s, (∀ t, x = Sum.inl t → ∀ ch ∈ t, P ch) ∧
      (∀ tk, x = Sum.inr tk → ∀ ch ∈ tokChars tk, P ch) := by
  intro fuel
  induction fuel with
  | zero => intro s _ x hx; simp [inlineScanAux] at hx
  | succ n ih =>
    intro s hs x hx
    cases s with
    | nil => simp [inlineScanAux] at hx
    | cons c rest =>
      simp only [inlineScanAux] at hx
      cases htry : tryInlineTok (c :: rest) with
      | some v =>
        obtain ⟨tk, rest'⟩ := v
        rw [htry] at hx
        have hsub := allP_tryInlineTok htry hs
        rcases List.mem_cons.mp hx with rfl | hx
        · refine ⟨?_, ?_⟩
          · intro t ht
            exact absurd ht (by simp)
          · intro tk2 htk ch hch
            injection htk with htk
            subst htk
            exact hsub.1 ch hch
        · exact ih rest' hsub.2 x hx
      | none =>
        rw [htry] at hx
        exact allP_consPlain (hs c (by simp))
          (ih rest (fun ch hch => hs ch (by simp [hch]))) x hx

theorem allP_nestedAt {P : Char → Prop} {mark content : Str} {i : Nat}
    {pre mid post : Str} (h : nestedAt mark content i = some (pre, mid, post))
    (hc : ∀ ch ∈ content, P ch) :
    (∀ ch ∈ pre, P ch) ∧ (∀ ch ∈ mid, P ch) ∧ (∀ ch ∈ post, P ch) := by
  unfold nestedAt at h
  split at h
  · rename_i hpre
    cases hd : (content.drop i).drop mark.length with
    | nil => rw [hd] at h; simp at h
    | cons c rest =>
      rw [hd] at h
      have h' : (match splitFirst mark rest with
          | some (a, b) => some (content.take i, c :: a, b)
          | none => none) = some (pre, mid, post) := h
      clear h
      cases hsp : splitFirst mark rest with
      | some pq =>
        obtain ⟨a, b⟩ := pq
        rw [hsp] at h'
        have h := h'
        injection h with h
        injection h with h1 h
        injection h with h2 h3
        subst h1
        subst h2
        subst h3
        have hdrop : ∀ ch ∈ (content.drop i).drop mark.length, P ch :=
          allP_sub (List.Subset.trans (List.drop_subset _ _) (List.drop_subset _ _)) hc
        have hcr : ∀ ch ∈ c :: rest, P ch := by rw [← hd]; exact hdrop
        have hab := allP_splitFirst hsp (fun ch hch => hcr ch (by simp [hch]))
        refine ⟨allP_sub (List.take_subset _ _) hc, ?_, hab.2⟩
        intro ch hch
        rcases List.mem_cons.mp hch with rfl | hch
        · exact hcr ch (by simp)
        · exact hab.1 ch hch
      | none => rw [hsp] at h'; exact absurd h' (by simp)
  · exact absurd h (by simp)

theorem allP_nestedSplitAux {P : Char → Prop} {mark content : Str} :
    ∀ {i : Nat} {pre mid post : Str},
    nestedSplitAux mark content i = some (pre, mid, post) →
    (∀ ch ∈ content, P ch) →
    (∀ ch ∈ pre, P ch) ∧ (∀ ch ∈ mid, P ch) ∧ (∀ ch ∈ post, P ch) := by
  intro i
  induction i with
  | zero =>
    intro pre mid post h hc
    exact allP_nestedAt h hc
  | succ n ih =>
    intro pre mid post h hc
    unfold nestedSplitAux at h
    cases hat : nestedAt mark content (n + 1) with
    | some v =>
      rw [hat] at h
      simp only [Option.some_orElse] at h
      obtain ⟨p1, m1, q1⟩ := v
      injection h with h
      injection h with h1 h
      injection h with h2 h3
      subst h1
      subst h2
      subst h3
      exact allP_nestedAt hat hc
    | none =>
      rw [hat] at h
      simp only [Option.none_orElse] at h
      exact ih h hc

theorem allP_nestedSplit {P : Char → Prop} {mark content pre mid post : Str}
    (h : nestedSplit mark content = some (pre, mid, post))
    (hc : ∀ ch ∈ content, P ch) :
    (∀ ch ∈ pre, P ch) ∧ (∀ ch ∈ mid, P ch) ∧ (∀ ch ∈ post, P ch) :=
  allP_nestedSplitAux h hc

theorem mem_addChunk {ck : TextChunk} {t : Str} {color : Option RGBA} {attrs : Nat}
    (h : ck ∈ addChunk t color attrs) : ck.text = t := by
  unfold addChunk at h
  split at h
  · simp at h
  · rcases List.mem_singleton.mp h with rfl
    rfl

theorem allP_tokChunks {P : Char → Prop} {theme : MarkdownTheme} {dc : RGBA} {da : Nat}
    (hsp : P ' ') (hop : P '(') (hcl : P ')')
    {x : Str ⊕ InlineTok}
    (hx : (∀ t, x = Sum.inl t → ∀ ch ∈ t, P ch) ∧
      (∀ tk, x = Sum.inr tk → ∀ ch ∈ tokChars tk, P ch)) :
    ∀ ck ∈ tokChunks theme dc da x, ∀ ch ∈ ck.text, P ch := by
  intro ck hck ch hch
  cases x with
  | inl t =>
    simp only [tokChunks] at hck
    rw [mem_addChunk hck] at hch
    exact hx.1 t rfl ch hch
  | inr tk =>
    have htk := hx.2 tk rfl
    cases tk with
    | boldItalic content =>
      simp only [tokChunks] at hck
      rw [mem_addChunk hck] at hch
      exact htk ch hch
    | bold content =>
      simp only [tokChunks] at hck
      have hcnt : ∀ c2 ∈ content, P c2 := htk
      cases hns : nestedSplit ['*'] content with
      | some v =>
        obtain ⟨pre, mid, post⟩ := v
        rw [hns] at hck
        have hparts := allP_nestedSplit hns hcnt
        rcases List.mem_append.mp hck with hck | hck
        · rcases List.mem_append.mp hck with hck | hck
          · rw [mem_addChunk hck] at hch
            exact hparts.1 ch hch
          · rw [mem_addChunk hck] at hch
            exact hparts.2.1 ch hch
        · rw [mem_addChunk hck] at hch
          exact hparts.2.2 ch hch
      | none =>
        rw [hns] at hck
        rw [mem_addChunk hck] at hch
        exact hcnt ch hch
    | italic content =>
      simp only [tokChunks] at hck
      have hcnt : ∀ c2 ∈ content, P c2 := htk
      cases hns : nestedSplit ['*', '*'] content with
      | some v =>
        obtain ⟨pre, mid, post⟩ := v
        rw [hns] at hck
        have hparts := allP_nestedSplit hns hcnt
        rcases List.mem_append.mp hck with hck | hck
        · rcases List.mem_append.mp hck with hck | hck
          · rw [mem_addChunk hck] at hch
            exact hparts.1 ch hch
          · rw [mem_addChunk hck] at hch
            exact hparts.2.1 ch hch
        · rw [mem_addChunk hck] at hch
          exact hparts.2.2 ch hch
      | none =>
        rw [hns] at hck
        rw [mem_addChunk hck] at hch
        exact hcnt ch hch
    | code content =>
      simp only [tokChunks] at hck
      rw [mem_addChunk hck] at hch
      exact htk ch hch
    | link txt url =>
      simp only [tokChunks] at hck
      have htu : ∀ c2 ∈ txt ++ url, P c2 := htk
      rcases List.mem_append.mp hck with hck | hck
      · rcases List.mem_append.mp hck with hck | hck
        · rcases List.mem_append.mp hck with hck | hck
          · rw [mem_addChunk hck] at hch
            exact htu ch (by simp [hch])
          · rw [mem_addChunk hck] at hch
            rcases List.mem_cons.mp hch with rfl | hch
            · exact hsp
            · rcases List.mem_singleton.mp hch with rfl
              exact hop
        · rw [mem_addChunk hck] at hch
          exact htu ch (by simp [hch])
      · rw [mem_addChunk hck] at hch
        rcases List.mem_singleton.mp hch with rfl
        exact hcl
    | strike content =>
      simp only [tokChunks] at hck
      rw [mem_addChunk hck] at hch
      exact htk ch hch

/-- Character-closure of the inline renderer: each chunk's text consists of
characters of the input line or of the literal characters the link
alternative inserts. -/
theorem allP_renderInline {P : Char → Prop} (hsp : P ' ') (hop : P '(') (hcl : P ')')
    {t : Str} (ht : ∀ ch ∈ t, P ch) (theme : MarkdownTheme) (dc : RGBA) (da : Nat) :
    ∀ ck ∈ renderInlineThemedWithDefault t theme dc da, ∀ ch ∈ ck.text, P ch := by
  intro ck hck
  unfold renderInlineThemedWithDefault at hck
  rw [List.mem_flatMap] at hck
  obtain ⟨x, hx, hck⟩ := hck
  exact allP_tokChunks hsp hop hcl (allP_inlineScanAux t.length t ht x hx) ck hck

theorem allP_reverse {P : Char → Prop} {s : Str} (h : ∀ ch ∈ s, P ch) :
    ∀ ch ∈ s.reverse, P ch := fun ch hch => h ch (List.mem_reverse.mp hch)

theorem allP_trimRight {P : Char → Prop} {s : Str} (h : ∀ ch ∈ s, P ch) :
    ∀ ch ∈ trimRight s, P ch := by
  intro ch hch
  unfold trimRight at hch
  have h1 := List.mem_reverse.mp hch
  have h2 := List.dropWhile_subset _ h1
  exact h ch (List.mem_reverse.mp h2)

theorem allP_trimLeft {P : Char → Prop} {s : Str} (h : ∀ ch ∈ s, P ch) :
    ∀ ch ∈ trimLeft s, P ch := fun ch hch => h ch (List.dropWhile_subset _ hch)

theorem allP_trim {P : Char → Prop} {s : Str} (h : ∀ ch ∈ s, P ch) :
    ∀ ch ∈ trim s, P ch := allP_trimRight (allP_trimLeft h)

theorem allP_consHeadCells {P : Char → Prop} {c : Char} {cells : List Str} (hc : P c)
    (hcells : ∀ cell ∈ cells, ∀ ch ∈ cell, P ch) :
    ∀ cell ∈ consHead c cells, ∀ ch ∈ cell, P ch := by
  cases cells with
  | nil =>
    intro cell hcell ch hch
    rcases List.mem_singleton.mp hcell with rfl
    rcases List.mem_singleton.mp hch with rfl
    exact hc
  | cons l ls =>
    intro cell hcell ch hch
    rcases List.mem_cons.mp hcell with rfl | hcell
    · rcases List.mem_cons.mp hch with rfl | hch
      · exact hc
      · exact hcells l (by simp) ch hch
    · exact hcells cell (by simp [hcell]) ch hch

theorem allP_parseRowCells {P : Char → Prop} : ∀ (n : Nat) (row : Str), row.length ≤ n →
    (∀ ch ∈ row, P ch) → ∀ cell ∈ parseRowCells row, ∀ ch ∈ cell, P ch := by
  intro n
  induction n with
  | zero =>
    intro row hlen _ cell hcell ch hch
    have : row = [] := List.length_eq_zero.mp (Nat.le_zero.mp hlen)
    subst this
    simp only [parseRowCells, List.mem_singleton] at hcell
    subst hcell
    simp at hch
  | succ m ih =>
    intro row hlen hrow
    match row with
    | [] =>
      intro cell hcell ch hch
      simp only [parseRowCells, List.mem_singleton] at hcell
      subst hcell
      simp at hch
    | [c] =>
      intro cell hcell ch hch
      simp only [parseRowCells] at hcell
      split at hcell
      · rcases List.mem_cons.mp hcell with rfl | hcell
        · simp at hch
        · rcases List.mem_singleton.mp hcell with rfl
          simp at hch
      · rcases List.mem_singleton.mp hcell with rfl
        rcases List.mem_singleton.mp hch with rfl
        exact hrow ch (by simp)
    | c :: c2 :: rest =>
      simp only [parseRowCells]
      simp only [List.length_cons] at hlen
      split
      · rename_i hesc
        refine allP_consHeadCells ?_ (ih rest (by omega) ?_)
        · rw [← hesc.2]
          exact hrow c2 (by simp)
        · intro ch hch
          exact hrow ch (by simp [hch])
      · split
        · intro cell hcell ch hch
          rcases List.mem_cons.mp hcell with rfl | hcell
          · simp at hch
          · exact ih (c2 :: rest) (by simp; omega)
              (fun x hx => hrow x (by simp [List.mem_cons.mp hx])) cell hcell ch hch
        · refine allP_consHeadCells (hrow c (by simp)) ?_
          exact ih (c2 :: rest) (by simp; omega)
            (fun x hx => hrow x (by simp [List.mem_cons.mp hx]))

theorem allP_mem_map_trim {P : Char → Prop} {l : List Str} {cell : Str}
    (hcell : cell ∈ l.map trim) (hl : ∀ x ∈ l, ∀ ch ∈ x, P ch) : ∀ ch ∈ cell, P ch := by
  rw [List.mem_map] at hcell
  obtain ⟨x, hx, rfl⟩ := hcell
  exact allP_trim (hl x hx)

/-- Character-closure of `parseRow`: cell characters come from the row. -/
theorem allP_parseRow {P : Char → Prop} {row : Str} (hrow : ∀ ch ∈ row, P ch) :
    ∀ cell ∈ parseRow row, ∀ ch ∈ cell, P ch := by
  intro cell hcell
  unfold parseRow at hcell
  refine allP_mem_map_trim hcell ?_
  intro x hx
  exact allP_parseRowCells row.length row (Nat.le_refl _) hrow x
    (List.drop_subset _ _ (List.dropLast_subset _ hx))

theorem allP_wwTokensAux {P : Char → Prop} (hsp : P ' ') :
    ∀ (text current : Str) (b : Bool), (∀ ch ∈ text, P ch) → (∀ ch ∈ current, P ch) →
    ∀ tk ∈ wwTokensAux text current b, ∀ ch ∈ tk, P ch := by
  intro text
  induction text with
  | nil =>
    intro current b _ hcur tk htk
    simp only [wwTokensAux] at htk
    split at htk
    · simp at htk
    · rcases List.mem_singleton.mp htk with rfl
      exact hcur
  | cons c rest ih =>
    intro current b htext hcur tk htk
    have hc : P c := htext c (by simp)
    have hrest : ∀ ch ∈ rest, P ch := fun ch hch => htext ch (by simp [hch])
    simp only [wwTokensAux] at htk
    split at htk
    · rename_i hbt
      refine ih (current ++ ['`']) (!b) hrest ?_ tk htk
      intro ch hch
      rcases List.mem_append.mp hch with hch | hch
      · exact hcur ch hch
      · rcases List.mem_singleton.mp hch with rfl
        rw [← hbt]
        exact hc
    · split at htk
      · rw [List.mem_append] at htk
        rcases htk with htk | htk
        · intro ch hch
          split at htk
          · simp at htk
          · rcases List.mem_singleton.mp htk with rfl
            exact hcur ch hch
        · rcases List.mem_cons.mp htk with rfl | htk
          · intro ch hch
            rcases List.mem_singleton.mp hch with rfl
            exact hsp
          · exact ih [] false hrest (by simp) tk htk
      · refine ih (current ++ [c]) b hrest ?_ tk htk
        intro ch hch
        rcases List.mem_append.mp hch with hch | hch
        · exact hcur ch hch
        · rcases List.mem_singleton.mp hch with rfl
          exact hc

theorem allP_wrapQ {P : Char → Prop} {q : Bool} {p : Str} (hq : q = true → P '`')
    (hp : ∀ ch ∈ p, P ch) : ∀ ch ∈ wrapQ q p, P ch := by
  intro ch hch
  unfold wrapQ at hch
  split at hch
  · rename_i hqt
    rcases List.mem_cons.mp hch with rfl | hch
    · exact hq hqt
    · rcases List.mem_append.mp hch with hch | hch
      · exact hp ch hch
      · rcases List.mem_singleton.mp hch with rfl
        exact hq hqt
  · exact hp ch hch

theorem allP_breakLoopAux {P : Char → Prop} {q : Bool} {maxLen : Nat}
    (hq : q = true → P '`') :
    ∀ (inner part : Str), (∀ ch ∈ inner, P ch) → (∀ ch ∈ part, P ch) →
    ∀ p ∈ breakLoopAux q maxLen part inner, ∀ ch ∈ p, P ch := by
  intro inner
  induction inner with
  | nil =>
    intro part _ hpart p hp
    simp only [breakLoopAux] at hp
    split at hp
    · simp at hp
    · rcases List.mem_singleton.mp hp with rfl
      exact allP_wrapQ hq hpart
  | cons c rest ih =>
    intro part hinner hpart p hp
    have hc : P c := hinner c (by simp)
    have hrest : ∀ ch ∈ rest, P ch := fun ch hch => hinner ch (by simp [hch])
    have hpc : ∀ ch ∈ part ++ [c], P ch := by
      intro ch hch
      rcases List.mem_append.mp hch with hch | hch
      · exact hpart ch hch
      · rcases List.mem_singleton.mp hch with rfl
        exact hc
    simp only [breakLoopAux] at hp
    split at hp
    · rcases List.mem_cons.mp hp with rfl | hp
      · exact allP_wrapQ hq hpc
      · exact ih [] hrest (by simp) p hp
    · exact ih (part ++ [c]) hrest hpc p hp

theorem allP_breakLongToken {P : Char → Prop} {token : Str} {maxLen : Nat}
    (htok : ∀ ch ∈ token, P ch) :
    ∀ p ∈ breakLongToken token maxLen, ∀ ch ∈ p, P ch := by
  intro p hp
  unfold breakLongToken at hp
  split at hp
  · rcases List.mem_singleton.mp hp with rfl
    exact htok
  · split at hp
    · rename_i hquoted
      rw [Bool.and_eq_true, beq_iff_eq] at hquoted
      have hbt : P '`' := by
        have h1 : '`' ∈ token.take 1 := by rw [hquoted.1]; simp
        exact htok '`' (List.take_subset _ _ h1)
      exact allP_breakLoopAux (fun _ => hbt) _ []
        (fun ch hch => htok ch (List.dropLast_subset _ (List.drop_subset _ _ hch)))
        (by simp) p hp
    · refine allP_breakLoopAux ?_ _ [] htok (by simp) p hp
      intro hfalse
      exact absurd hfalse (by simp)

theorem allP_wwAddParts {P : Char → Prop} (width : Nat) :
    ∀ (parts : List Str) (lines : List Str) (line : Str),
    (∀ pt ∈ parts, ∀ ch ∈ pt, P ch) → (∀ l ∈ lines, ∀ ch ∈ l, P ch) →
    (∀ ch ∈ line, P ch) →
    (∀ l ∈ (wwAddParts width parts (lines, line)).1, ∀ ch ∈ l, P ch) ∧
      (∀ ch ∈ (wwAddParts width parts (lines, line)).2, P ch) := by
  intro parts
  induction parts with
  | nil =>
    intro lines line _ hlines hline
    exact ⟨hlines, hline⟩
  | cons pt ps ih =>
    intro lines line hparts hlines hline
    have hpt : ∀ ch ∈ pt, P ch := hparts pt (by simp)
    have hps : ∀ x ∈ ps, ∀ ch ∈ x, P ch := fun x hx => hparts x (by simp [hx])
    simp only [wwAddParts]
    split
    · exact ih lines pt hps hlines hpt
    · split
      · refine ih lines (line ++ pt) hps hlines ?_
        intro ch hch
        rcases List.mem_append.mp hch with hch | hch
        · exact hline ch hch
        · exact hpt ch hch
      · refine ih (lines ++ [trimRight line]) pt hps ?_ hpt
        intro l hl
        rcases List.mem_append.mp hl with hl | hl
        · exact hlines l hl
        · rcases List.mem_singleton.mp hl with rfl
          exact allP_trimRight hline

theorem allP_wwLoop {P : Char → Prop} (width : Nat) (hsp : P ' ') :
    ∀ (tokens : List Str) (lines : List Str) (line : Str),
    (∀ tk ∈ tokens, ∀ ch ∈ tk, P ch) → (∀ l ∈ lines, ∀ ch ∈ l, P ch) →
    (∀ ch ∈ line, P ch) →
    (∀ l ∈ (wwLoop width tokens (lines, line)).1, ∀ ch ∈ l, P ch) ∧
      (∀ ch ∈ (wwLoop width tokens (lines, line)).2, P ch) := by
  intro tokens
  induction tokens with
  | nil =>
    intro lines line _ hlines hline
    exact ⟨hlines, hline⟩
  | cons tk ts ih =>
    intro lines line htoks hlines hline
    have htk : ∀ ch ∈ tk, P ch := htoks tk (by simp)
    have hts : ∀ x ∈ ts, ∀ ch ∈ x, P ch := fun x hx => htoks x (by simp [hx])
    have hlinesp : ∀ l ∈ lines ++ [trimRight line], ∀ ch ∈ l, P ch := by
      intro l hl
      rcases List.mem_append.mp hl with hl | hl
      · exact hlines l hl
      · rcases List.mem_singleton.mp hl with rfl
        exact allP_trimRight hline
    simp only [wwLoop]
    split
    · split
      · refine ih lines (line ++ [' ']) hts hlines ?_
        intro ch hch
        rcases List.mem_append.mp hch with hch | hch
        · exact hline ch hch
        · rcases List.mem_singleton.mp hch with rfl
          exact hsp
      · exact ih lines line hts hlines hline
    · split
      · split
        · have hadd := allP_wwAddParts width (breakLongToken tk width) lines line
            (allP_breakLongToken htk) hlines hline
          exact ih _ _ hts hadd.1 hadd.2
        · exact ih lines tk hts hlines htk
      · split
        · refine ih lines (line ++ tk) hts hlines ?_
          intro ch hch
          rcases List.mem_append.mp hch with hch | hch
          · exact hline ch hch
          · exact htk ch hch
        · split
          · have hadd := allP_wwAddParts width (breakLongToken tk width)
              (lines ++ [trimRight line]) line (allP_breakLongToken htk) hlinesp hline
            exact ih _ _ hts hadd.1 hadd.2
          · exact ih (lines ++ [trimRight line]) tk hts hlinesp htk

/-- Character-closure of the table `wordWrap`: wrapped-line characters come
from the cell text, plus the space the token splitter inserts. -/
theorem allP_wordWrap {P : Char → Prop} (hsp : P ' ') {text : Str} {width : Nat}
    (htext : ∀ ch ∈ text, P ch) : ∀ ln ∈ wordWrap text width, ∀ ch ∈ ln, P ch := by
  intro ln hln
  unfold wordWrap at hln
  split at hln
  · rcases List.mem_singleton.mp hln with rfl
    exact htext
  · have htoks := allP_wwTokensAux hsp text [] false htext (by simp)
    have hres := allP_wwLoop width hsp (wwTokens text) [] [] htoks (by simp) (by simp)
    simp only [wwFinish] at hln
    split at hln
    · split at hln
      · rcases List.mem_singleton.mp hln with rfl
        simp
      · exact hres.1 ln hln
    · rw [List.mem_append] at hln
      rcases hln with hln | hln
      · exact hres.1 ln hln
      · rcases List.mem_singleton.mp hln with rfl
        exact allP_trimRight hres.2

/-- The character string of one rendered header cell (padded or truncated to
the column width). -/
def hcellStr (cell : Str) (w : Nat) : Str :=
  if stringWidth cell ≤ w then cell ++ List.replicate (w - stringWidth cell) ' '
  else cell.take w

/-- The character string of the rendered header row. -/
def hdrRowStr (headerRow : List Str) (ws : List Nat) : Str :=
  Box.vertical ::
    (headerRow.zip ws).flatMap (fun p => ' ' :: (hcellStr p.1 p.2 ++ [' ', Box.vertical]))

/-- The character string of one rendered data cell on one grid line. -/
def cellLineStr (theme : MarkdownTheme) (lns : List Str) (w lineIdx : Nat) : Str :=
  concatTexts (renderCell (lns.getD lineIdx []) w false theme)

/-- The character string of one grid line of a (possibly wrapped) data row. -/
def dataLineStr (theme : MarkdownTheme) (ws : List Nat) (wrapped : List (List Str))
    (lineIdx : Nat) : Str :=
  Box.vertical ::
    wrapped.enum.flatMap (fun p =>
      ' ' :: (cellLineStr theme p.2 (ws.getD p.1 0) lineIdx ++ [' ', Box.vertical]))

/-- The word-wrapped cells of a data row. -/
def wrapRow (ws : List Nat) (row : List Str) : List (List Str) :=
  row.enum.map (fun p => wordWrap p.2 (ws.getD p.1 10))

/-- The character strings of the grid lines of one data row. -/
def dataRowStrs (theme : MarkdownTheme) (ws : List Nat) (row : List Str) : List Str :=
  (List.range (listMax ((wrapRow ws row).map List.length))).map
    (dataLineStr theme ws (wrapRow ws row))

/-- All character strings of the rendered table grid, row by row. -/
def tableRowStrs (tableLines : List Str) (theme : MarkdownTheme) (cols : Nat) : List Str :=
  borderRowStr Box.topLeft Box.topT Box.topRight (tableColWidths tableLines cols) ::
  (hdrRowStr (headerRowOf tableLines) (tableColWidths tableLines cols) ::
  (borderRowStr Box.leftT Box.cross Box.rightT (tableColWidths tableLines cols) ::
  (((dataRowsOf tableLines).flatMap
      (dataRowStrs theme (tableColWidths tableLines cols))) ++
   [borderRowStr Box.bottomLeft Box.bottomT Box.bottomRight (tableColWidths tableLines cols)])))

theorem concatTexts_flatMap (f : α → List TextChunk) : ∀ l : List α,
    concatTexts (l.flatMap f) = l.flatMap (fun x => concatTexts (f x)) := by
  intro l
  induction l with
  | nil => rfl
  | cons x xs ih =>
    rw [List.flatMap_cons, List.flatMap_cons, concatTexts_append, ih]

theorem concatTexts_headerCellChunks (theme : MarkdownTheme) (cell : Str) (w : Nat) :
    concatTexts (headerCellChunks theme cell w) =
    ' ' :: (hcellStr cell w ++ [' ', Box.vertical]) := by
  unfold headerCellChunks hcellStr
  rw [concatTexts_append, concatTexts_append, concatTexts_addChunk, concatTexts_addChunk]
  split
  · rw [concatTexts_addChunk]; rfl
  · rw [concatTexts_addChunk]; rfl

theorem concatTexts_headerRowChunks (theme : MarkdownTheme) (hr : List Str) (ws : List Nat) :
    concatTexts (headerRowChunks theme hr ws) = hdrRowStr hr ws ++ ['\n'] := by
  unfold headerRowChunks hdrRowStr
  rw [concatTexts_append, concatTexts_append, concatTexts_addChunk, concatTexts_addChunk,
    concatTexts_flatMap]
  simp only [concatTexts_headerCellChunks]
  rfl

theorem concatTexts_dataCellChunks (theme : MarkdownTheme) (lns : List Str) (w i : Nat) :
    concatTexts (dataCellChunks theme lns w i) =
    ' ' :: (cellLineStr theme lns w i ++ [' ', Box.vertical]) := by
  unfold dataCellChunks cellLineStr
  rw [concatTexts_append, concatTexts_append, concatTexts_addChunk, concatTexts_addChunk]
  rfl

theorem concatTexts_flatMap_nl {g : Nat → List TextChunk} {f : Nat → Str}
    (hgf : ∀ i, concatTexts (g i) = f i ++ ['\n']) :
    ∀ l : List Nat, concatTexts (l.flatMap g) = joinNLTerm (l.map f) := by
  intro l
  induction l with
  | nil => rfl
  | cons x xs ih =>
    rw [List.flatMap_cons, List.map_cons, concatTexts_append, hgf, ih]
    show _ = f x ++ ('\n' :: joinNLTerm (xs.map f))
    rw [List.append_assoc]
    rfl

theorem concatTexts_dataRowChunks (theme : MarkdownTheme) (ws : List Nat) (row : List Str) :
    concatTexts (dataRowChunks theme ws row) = joinNLTerm (dataRowStrs theme ws row) := by
  unfold dataRowChunks dataRowStrs wrapRow
  refine concatTexts_flatMap_nl ?_ _
  intro i
  rw [concatTexts_append, concatTexts_append, concatTexts_addChunk, concatTexts_addChunk,
    concatTexts_flatMap]
  simp only [concatTexts_dataCellChunks]
  show _ = Box.vertical :: (_ ++ ['\n'])
  rw [List.cons_append, List.nil_append]

theorem joinNLTerm_flatMap (f : α → List Str) : ∀ l : List α,
    (l.flatMap (fun x => joinNLTerm (f x))) = joinNLTerm (l.flatMap f) := by
  intro l
  induction l with
  | nil => rfl
  | cons x xs ih =>
    rw [List.flatMap_cons, List.flatMap_cons, joinNLTerm_append, ih]

theorem concatTexts_renderTable (tableLines : List Str) (theme : MarkdownTheme) (cols : Nat)
    (h : ¬ tableLines.length < 2) :
    concatTexts (renderTableThemed tableLines theme cols) =
    joinNLTerm (tableRowStrs tableLines theme cols) := by
  unfold renderTableThemed tableRowStrs
  rw [if_neg h]
  rw [concatTexts_append, concatTexts_append, concatTexts_append, concatTexts_append,
    concatTexts_addChunk, concatTexts_addChunk, concatTexts_addChunk,
    concatTexts_headerRowChunks, concatTexts_flatMap]
  simp only [concatTexts_dataRowChunks]
  rw [joinNLTerm_flatMap]
  show _ = _ ++ ('\n' :: (_ ++ ('\n' :: (_ ++ ('\n' :: joinNLTerm _)))))
  rw [joinNLTerm_append]
  simp [joinNLTerm, List.append_assoc]

theorem rawWidth_cons (c : Char) (s : Str) : rawWidth (c :: s) = charWidth c + rawWidth s := by
  simp [rawWidth]

theorem rawWidth_flatMap (f : α → Str) : ∀ l : List α,
    rawWidth (l.flatMap f) = (l.map (fun x => rawWidth (f x))).sum := by
  intro l
  induction l with
  | nil => rfl
  | cons x xs ih =>
    rw [List.flatMap_cons, rawWidth_append, List.map_cons, List.sum_cons, ih]

theorem sum_map_add_const (γ : Nat) (g : α → Nat) : ∀ l : List α,
    (l.map (fun x => g x + γ)).sum = (l.map g).sum + γ * l.length := by
  intro l
  induction l with
  | nil => simp
  | cons x xs ih =>
    rw [List.map_cons, List.sum_cons, ih, List.map_cons, List.sum_cons, List.length_cons,
      Nat.mul_succ]
    omega

theorem sum_range_getD : ∀ ws : List Nat,
    ((List.range ws.length).map (fun i => ws.getD i 0)).sum = ws.sum := by
  intro ws
  induction ws with
  | nil => rfl
  | cons w tl ih =>
    rw [List.length_cons, List.range_succ_eq_map, List.map_cons, List.map_map, List.sum_cons]
    rw [show ((fun i => (w :: tl).getD i 0) ∘ Nat.succ) = (fun i => tl.getD i 0) from rfl]
    rw [ih, List.getD_cons_zero, List.sum_cons]

theorem rawWidth_joinWith (sep : Str) : ∀ ls : List Str, ls ≠ [] →
    rawWidth (joinWith sep ls) =
      (ls.map rawWidth).sum + (ls.length - 1) * rawWidth sep := by
  intro ls
  induction ls with
  | nil => intro h; exact absurd rfl h
  | cons l ls ih =>
    intro _
    cases ls with
    | nil => simp [joinWith]
    | cons l2 ls2 =>
      rw [show joinWith sep (l :: l2 :: ls2) = l ++ sep ++ joinWith sep (l2 :: ls2) from rfl]
      rw [rawWidth_append, rawWidth_append, ih (by simp)]
      simp only [List.map_cons, List.sum_cons, List.length_cons, Nat.succ_sub_one,
        Nat.succ_mul]
      omega

theorem rawWidth_borderRowStr (l m r : Char) (hl : charWidth l = 1) (hm : charWidth m = 1)
    (hr : charWidth r = 1) (ws : List Nat) (hne : ws ≠ []) :
    rawWidth (borderRowStr l m r ws) = calcWidth ws := by
  unfold borderRowStr
  rw [rawWidth_cons, rawWidth_append, rawWidth_joinWith [m] _ (by simpa using hne)]
  rw [List.map_map]
  have hcg : ∀ w ∈ ws, (rawWidth ∘ fun w => List.replicate (w + 2) Box.horizontal) w = w + 2 :=
    fun w _ => by
      rw [Function.comp_apply, rawWidth_replicate,
        show charWidth Box.horizontal = 1 from by decide, Nat.mul_one]
  rw [List.map_congr_left hcg]
  rw [sum_map_add_const 2 (fun w => w) ws, List.map_id', List.length_map, hl,
    show rawWidth [r] = charWidth r from by simp [rawWidth], hr,
    show rawWidth [m] = charWidth m from by simp [rawWidth], hm, calcWidth_eq_sum]
  have hpos : 0 < ws.length := List.length_pos.mpr hne
  omega

theorem rawWidth_hcellStr {cell : Str} {w : Nat} (hesc : escC ∉ cell)
    (hfit : stringWidth cell ≤ w) : rawWidth (hcellStr cell w) = w := by
  unfold hcellStr
  rw [if_pos hfit, rawWidth_append, rawWidth_replicate, ← stringWidth_eq_rawWidth hesc,
    show charWidth ' ' = 1 from by decide, Nat.mul_one]
  omega

theorem rawWidth_hdrRowStr {hr : List Str} {ws : List Nat} (hlen : hr.length = ws.length)
    (hesc : ∀ cell ∈ hr, escC ∉ cell)
    (hfit : ∀ p ∈ hr.zip ws, stringWidth p.1 ≤ p.2) :
    rawWidth (hdrRowStr hr ws) = calcWidth ws := by
  unfold hdrRowStr
  rw [rawWidth_cons, rawWidth_flatMap]
  have hcg : ∀ p ∈ hr.zip ws,
      rawWidth (' ' :: (hcellStr p.1 p.2 ++ [' ', Box.vertical])) = p.2 + 3 := fun p hp => by
    rw [rawWidth_cons, rawWidth_append,
      rawWidth_hcellStr (hesc p.1 (List.of_mem_zip hp).1) (hfit p hp),
      show charWidth ' ' = 1 from by decide,
      show rawWidth [' ', Box.vertical] = 2 from by decide]
    omega
  rw [List.map_congr_left hcg]
  rw [show (fun (p : Str × Nat) => p.2 + 3) = ((fun v => v + 3) ∘ Prod.snd) from rfl,
    ← List.map_map, List.map_snd_zip hr ws (Nat.le_of_eq hlen.symm),
    sum_map_add_const 3 (fun v => v) ws, List.map_id', calcWidth_eq_sum,
    show charWidth Box.vertical = 1 from by decide]
  omega

theorem rawWidth_concatTexts : ∀ cs : List TextChunk,
    rawWidth (concatTexts cs) = (cs.map (fun c => rawWidth c.text)).sum := by
  intro cs
  induction cs with
  | nil => rfl
  | cons c cs ih =>
    rw [show concatTexts (c :: cs) = c.text ++ concatTexts cs from rfl, rawWidth_append, ih,
      List.map_cons, List.sum_cons]

theorem cellLen_eq_rawWidth {cs : List TextChunk} (h : ∀ c ∈ cs, escC ∉ c.text) :
    cellLen cs = rawWidth (concatTexts cs) := by
  unfold cellLen
  rw [rawWidth_concatTexts]
  exact congrArg List.sum (List.map_congr_left fun c hc => stringWidth_eq_rawWidth (h c hc))

theorem rawWidth_cellLineStr (theme : MarkdownTheme) {lns : List Str} {w : Nat} (i : Nat)
    (hesc : ∀ ln ∈ lns, ∀ ch ∈ ln, ch ≠ escC)
    (hfit : ∀ ln ∈ lns, cellLen (renderInlineThemed ln theme) ≤ w) :
    rawWidth (cellLineStr theme lns w i) = w := by
  unfold cellLineStr renderCell
  by_cases hln : lns.getD i [] = []
  · rw [hln, if_pos rfl, concatTexts_addChunk, rawWidth_replicate,
      show charWidth ' ' = 1 from by decide, Nat.mul_one]
  · have hmem : lns.getD i [] ∈ lns := by
      rw [List.getD_eq_getElem?_getD] at hln ⊢
      cases hgi : lns[i]? with
      | none => rw [hgi] at hln; exact absurd rfl hln
      | some v => exact List.getElem?_mem hgi
    have hch := allP_renderInline (by decide) (by decide) (by decide) (hesc _ hmem)
      theme theme.markdownText 0
    have hchunks : ∀ c ∈ renderInlineThemed (lns.getD i []) theme, escC ∉ c.text :=
      fun c hc hin => hch c hc escC hin rfl
    have hclen := cellLen_eq_rawWidth hchunks
    rw [if_neg hln]
    show rawWidth (concatTexts ((renderInlineThemed (lns.getD i []) theme) ++
      (if cellLen (renderInlineThemed (lns.getD i []) theme) < w then
        addChunk (List.replicate (w - cellLen (renderInlineThemed (lns.getD i []) theme)) ' ')
          (some theme.markdownText) 0
      else []))) = w
    rw [concatTexts_append, rawWidth_append]
    by_cases hlt : cellLen (renderInlineThemed (lns.getD i []) theme) < w
    · rw [if_pos hlt, concatTexts_addChunk, rawWidth_replicate,
        show charWidth ' ' = 1 from by decide, Nat.mul_one, ← hclen]
      omega
    · rw [if_neg hlt, show concatTexts ([] : List TextChunk) = ([] : Str) from rfl,
        show rawWidth ([] : Str) = 0 from rfl, Nat.add_zero, ← hclen]
      exact Nat.le_antisymm (hfit _ hmem) (Nat.le_of_not_lt hlt)

theorem rawWidth_dataLineStr (theme : MarkdownTheme) {ws : List Nat}
    {wrapped : List (List Str)} (i : Nat) (hlen : wrapped.length = ws.length)
    (hcell : ∀ p ∈ wrapped.enum, (∀ ln ∈ p.2, ∀ ch ∈ ln, ch ≠ escC) ∧
      (∀ ln ∈ p.2, cellLen (renderInlineThemed ln theme) ≤ ws.getD p.1 0)) :
    rawWidth (dataLineStr theme ws wrapped i) = calcWidth ws := by
  unfold dataLineStr
  rw [rawWidth_cons, rawWidth_flatMap]
  have hcg : ∀ p ∈ wrapped.enum,
      rawWidth (' ' :: (cellLineStr theme p.2 (ws.getD p.1 0) i ++ [' ', Box.vertical])) =
        ws.getD p.1 0 + 3 := fun p hp => by
    rw [rawWidth_cons, rawWidth_append,
      rawWidth_cellLineStr theme i (hcell p hp).1 (hcell p hp).2,
      show charWidth ' ' = 1 from by decide,
      show rawWidth [' ', Box.vertical] = 2 from by decide]
    omega
  rw [List.map_congr_left hcg]
  rw [show (fun (p : Nat × List Str) => ws.getD p.1 0 + 3) =
      ((fun j => ws.getD j 0 + 3) ∘ Prod.fst) from rfl,
    ← List.map_map, List.enum_eq_enumFrom, List.enumFrom_map_fst, ← List.range_eq_range',
    hlen, sum_map_add_const 3 (fun j => ws.getD j 0) (List.range ws.length),
    sum_range_getD, List.length_range, calcWidth_eq_sum,
    show charWidth Box.vertical = 1 from by decide]
  omega

/-- A character that is neither a newline nor the escape character. -/
abbrev tameChar (ch : Char) : Prop := ch ≠ '\n' ∧ ch ≠ escC

theorem allP_concatTexts {P : Char → Prop} : ∀ {cs : List TextChunk},
    (∀ c ∈ cs, ∀ ch ∈ c.text, P ch) → ∀ ch ∈ concatTexts cs, P ch := by
  intro cs
  induction cs with
  | nil => intro _ ch hch; exact absurd hch (List.not_mem_nil ch)
  | cons c cs ih =>
    intro h ch hch
    rw [show concatTexts (c :: cs) = c.text ++ concatTexts cs from rfl,
      List.mem_append] at hch
    rcases hch with hch | hch
    · exact h c (List.mem_cons_self c cs) ch hch
    · exact ih (fun c' hc' => h c' (List.mem_cons_of_mem c hc')) ch hch

theorem allP_joinWith {P : Char → Prop} {sep : Str} (hsep : ∀ ch ∈ sep, P ch) :
    ∀ ls : List Str, (∀ s ∈ ls, ∀ ch ∈ s, P ch) → ∀ ch ∈ joinWith sep ls, P ch := by
  intro ls
  induction ls with
  | nil => intro _ ch hch; exact absurd hch (List.not_mem_nil ch)
  | cons l ls ih =>
    intro h ch hch
    cases ls with
    | nil => exact h l (List.mem_cons_self l []) ch hch
    | cons l2 ls2 =>
      rw [show joinWith sep (l :: l2 :: ls2) = l ++ sep ++ joinWith sep (l2 :: ls2) from rfl,
        List.mem_append, List.mem_append] at hch
      rcases hch with (hch | hch) | hch
      · exact h l (List.mem_cons_self _ _) ch hch
      · exact hsep ch hch
      · exact ih (fun s hs => h s (List.mem_cons_of_mem l hs)) ch hch

theorem tame_borderRowStr {l m r : Char} (hl : tameChar l) (hm : tameChar m)
    (hr : tameChar r) (ws : List Nat) : ∀ ch ∈ borderRowStr l m r ws, tameChar ch := by
  intro ch hch
  unfold borderRowStr at hch
  rcases List.mem_cons.mp hch with rfl | hch
  · exact hl
  · rw [List.mem_append] at hch
    rcases hch with hch | hch
    · refine allP_joinWith (fun c hc => ?_) _ (fun s hs c hc => ?_) ch hch
      · rcases List.mem_singleton.mp hc with rfl; exact hm
      · rw [List.mem_map] at hs
        obtain ⟨w, _, rfl⟩ := hs
        rcases List.eq_of_mem_replicate hc with rfl
        decide
    · rcases List.mem_singleton.mp hch with rfl; exact hr

theorem tame_hcellStr {cell : Str} {w : Nat} (hcell : ∀ ch ∈ cell, tameChar ch) :
    ∀ ch ∈ hcellStr cell w, tameChar ch := by
  intro ch hch
  unfold hcellStr at hch
  split at hch
  · rw [List.mem_append] at hch
    rcases hch with hch | hch
    · exact hcell ch hch
    · rcases List.eq_of_mem_replicate hch with rfl; decide
  · exact hcell ch (List.take_subset _ _ hch)

theorem tame_hdrRowStr {hr : List Str} {ws : List Nat}
    (hcells : ∀ cell ∈ hr, ∀ ch ∈ cell, tameChar ch) :
    ∀ ch ∈ hdrRowStr hr ws, tameChar ch := by
  intro ch hch
  unfold hdrRowStr at hch
  rcases List.mem_cons.mp hch with rfl | hch
  · decide
  · rw [List.mem_flatMap] at hch
    obtain ⟨p, hp, hch⟩ := hch
    rcases List.mem_cons.mp hch with rfl | hch
    · decide
    · rw [List.mem_append] at hch
      rcases hch with hch | hch
      · exact tame_hcellStr (hcells p.1 (List.of_mem_zip hp).1) ch hch
      · rcases List.mem_cons.mp hch with rfl | hch
        · decide
        · rcases List.mem_singleton.mp hch with rfl; decide

theorem getD_mem_of_ne_nil {lns : List Str} {i : Nat} (hln : lns.getD i [] ≠ []) :
    lns.getD i [] ∈ lns := by
  rw [List.getD_eq_getElem?_getD] at hln ⊢
  cases hgi : lns[i]? with
  | none => rw [hgi] at hln; exact absurd rfl hln
  | some v => exact List.getElem?_mem hgi

theorem tame_cellLineStr (theme : MarkdownTheme) {lns : List Str} {w : Nat} (i : Nat)
    (hlns : ∀ ln ∈ lns, ∀ ch ∈ ln, tameChar ch) :
    ∀ ch ∈ cellLineStr theme lns w i, tameChar ch := by
  intro ch hch
  unfold cellLineStr renderCell at hch
  by_cases hln : lns.getD i [] = []
  · rw [hln, if_pos rfl, concatTexts_addChunk] at hch
    rcases List.eq_of_mem_replicate hch with rfl; decide
  · have hmem := getD_mem_of_ne_nil hln
    rw [if_neg hln] at hch
    have hstep : ch ∈ concatTexts ((renderInlineThemed (lns.getD i []) theme) ++
      (if cellLen (renderInlineThemed (lns.getD i []) theme) < w then
        addChunk (List.replicate (w - cellLen (renderInlineThemed (lns.getD i []) theme)) ' ')
          (some theme.markdownText) 0
      else [])) := hch
    rw [concatTexts_append, List.mem_append] at hstep
    rcases hstep with hstep | hstep
    · have hch2 := allP_renderInline (by decide) (by decide) (by decide)
        (hlns _ hmem) theme theme.markdownText 0
      exact allP_concatTexts hch2 ch hstep
    · split at hstep
      · rw [concatTexts_addChunk] at hstep
        rcases List.eq_of_mem_replicate hstep with rfl; decide
      · exact absurd hstep (List.not_mem_nil ch)

theorem tame_dataLineStr (theme : MarkdownTheme) {ws : List Nat}
    {wrapped : List (List Str)} (i : Nat)
    (hw : ∀ p ∈ wrapped.enum, ∀ ln ∈ p.2, ∀ ch ∈ ln, tameChar ch) :
    ∀ ch ∈ dataLineStr theme ws wrapped i, tameChar ch := by
  intro ch hch
  unfold dataLineStr at hch
  rcases List.mem_cons.mp hch with rfl | hch
  · decide
  · rw [List.mem_flatMap] at hch
    obtain ⟨p, hp, hch⟩ := hch
    rcases List.mem_cons.mp hch with rfl | hch
    · decide
    · rw [List.mem_append] at hch
      rcases hch with hch | hch
      · exact tame_cellLineStr theme i (hw p hp) ch hch
      · rcases List.mem_cons.mp hch with rfl | hch
        · decide
        · rcases List.mem_singleton.mp hch with rfl; decide

theorem wrapRow_enum_spec {ws : List Nat} {row : List Str} {p : Nat × List Str}
    (hp : p ∈ (wrapRow ws row).enum) :
    ∃ cell, row[p.1]? = some cell ∧ p.2 = wordWrap cell (ws.getD p.1 10) := by
  obtain ⟨i, lns⟩ := p
  rw [List.mk_mem_enum_iff_getElem?] at hp
  unfold wrapRow at hp
  rw [List.getElem?_map, List.enum_eq_enumFrom, List.getElem?_enumFrom] at hp
  cases hc : row[i]? with
  | none => rw [hc] at hp; simp at hp
  | some cell =>
    rw [hc] at hp
    simp only [Option.map_some', Nat.zero_add, Option.some.injEq] at hp
    exact ⟨cell, rfl, hp.symm⟩

/-- C1 (amended): for every table block of at least two newline-free,
escape-free lines whose header row is nonempty, whose data rows all have
exactly the header's column count, whose shrunken column widths fit the
`cols - 4` budget, whose header cells fit their final column widths, and
whose word-wrapped data-cell lines render within their column widths, every
row emitted by `renderTableThemed` — top border, header row, separator,
every line of every wrapped data row, bottom border — has the same visible
display width `calcWidth (tableColWidths tableLines cols)`, and that width
is at most the terminal width `cols`. -/
theorem c1_table_row_widths (tableLines : List Str) (theme : MarkdownTheme) (cols : Nat)
    (hlen : 2 ≤ tableLines.length)
    (hchars : ∀ ln ∈ tableLines, ∀ ch ∈ ln, tameChar ch)
    (hhdr : headerRowOf tableLines ≠ [])
    (hrows : ∀ row ∈ dataRowsOf tableLines, row.length = (headerRowOf tableLines).length)
    (hbudget : (calcWidth (tableColWidths tableLines cols) : Int) ≤ (cols : Int) - 4)
    (hfitH : ∀ p ∈ (headerRowOf tableLines).zip (tableColWidths tableLines cols),
      stringWidth p.1 ≤ p.2)
    (hfitD : ∀ row ∈ dataRowsOf tableLines, ∀ p ∈ row.enum,
      ∀ ln ∈ wordWrap p.2 ((tableColWidths tableLines cols).getD p.1 10),
      cellLen (renderInlineThemed ln theme) ≤ (tableColWidths tableLines cols).getD p.1 0) :
    ∀ row ∈ tableRows tableLines theme cols,
      stringWidth row = calcWidth (tableColWidths tableLines cols) ∧
      stringWidth row ≤ cols := by
  have hnot : ¬ tableLines.length < 2 := Nat.not_lt.mpr hlen
  have hwsl : (tableColWidths tableLines cols).length = (headerRowOf tableLines).length := by
    unfold tableColWidths shrinkLoop
    rw [shrinkLoopAux_length]
    unfold natWidthsOf
    rw [List.length_map, List.enum_length]
  have hwsne : tableColWidths tableLines cols ≠ [] := by
    intro h
    rw [h] at hwsl
    exact hhdr (List.length_eq_zero.mp hwsl.symm)
  have hheadI : tableLines.headI ∈ tableLines := by
    cases tableLines with
    | nil => simp at hlen
    | cons a rest => exact List.mem_cons_self a rest
  have hhdrcells : ∀ cell ∈ headerRowOf tableLines, ∀ ch ∈ cell, tameChar ch :=
    allP_parseRow (hchars _ hheadI)
  have hdatacells : ∀ r ∈ dataRowsOf tableLines, ∀ cell ∈ r, ∀ ch ∈ cell, tameChar ch := by
    intro r hr
    unfold dataRowsOf at hr
    rw [List.mem_map] at hr
    obtain ⟨l, hl, rfl⟩ := hr
    exact allP_parseRow
      (hchars l (List.drop_subset 1 tableLines (List.mem_of_mem_filter hl)))
  have hkey : ∀ row ∈ tableRowStrs tableLines theme cols,
      (∀ ch ∈ row, tameChar ch) ∧
      rawWidth row = calcWidth (tableColWidths tableLines cols) := by
    intro row hrow
    unfold tableRowStrs at hrow
    rcases List.mem_cons.mp hrow with rfl | hrow
    · exact ⟨tame_borderRowStr (by decide) (by decide) (by decide) _,
        rawWidth_borderRowStr _ _ _ (by decide) (by decide) (by decide) _ hwsne⟩
    rcases List.mem_cons.mp hrow with rfl | hrow
    · exact ⟨tame_hdrRowStr hhdrcells,
        rawWidth_hdrRowStr hwsl.symm
          (fun cell hc hin => (hhdrcells cell hc escC hin).2 rfl) hfitH⟩
    rcases List.mem_cons.mp hrow with rfl | hrow
    · exact ⟨tame_borderRowStr (by decide) (by decide) (by decide) _,
        rawWidth_borderRowStr _ _ _ (by decide) (by decide) (by decide) _ hwsne⟩
    rw [List.mem_append] at hrow
    rcases hrow with hrow | hrow
    · rw [List.mem_flatMap] at hrow
      obtain ⟨r, hr, hrow⟩ := hrow
      unfold dataRowStrs at hrow
      rw [List.mem_map] at hrow
      obtain ⟨i, _, rfl⟩ := hrow
      have hwrlen : (wrapRow (tableColWidths tableLines cols) r).length =
          (tableColWidths tableLines cols).length := by
        unfold wrapRow
        rw [List.length_map, List.enum_length, hrows r hr, hwsl]
      have hcellf : ∀ p ∈ (wrapRow (tableColWidths tableLines cols) r).enum,
          (∀ ln ∈ p.2, ∀ ch ∈ ln, tameChar ch) ∧
          (∀ ln ∈ p.2, cellLen (renderInlineThemed ln theme) ≤
            (tableColWidths tableLines cols).getD p.1 0) := by
        intro p hp
        obtain ⟨cell, hc, hwc⟩ := wrapRow_enum_spec hp
        have hcellmem : cell ∈ r := List.getElem?_mem hc
        have hpe : (p.1, cell) ∈ r.enum := List.mk_mem_enum_iff_getElem?.mpr hc
        constructor
        · intro ln hln
          rw [hwc] at hln
          exact allP_wordWrap (by decide) (hdatacells r hr cell hcellmem) ln hln
        · intro ln hln
          rw [hwc] at hln
          exact hfitD r hr (p.1, cell) hpe ln hln
      exact ⟨tame_dataLineStr theme i (fun p hp ln hln => (hcellf p hp).1 ln hln),
        rawWidth_dataLineStr theme i hwrlen (fun p hp =>
          ⟨fun ln hln ch hch => ((hcellf p hp).1 ln hln ch hch).2, (hcellf p hp).2⟩)⟩
    · rcases List.mem_singleton.mp hrow with rfl
      exact ⟨tame_borderRowStr (by decide) (by decide) (by decide) _,
        rawWidth_borderRowStr _ _ _ (by decide) (by decide) (by decide) _ hwsne⟩
  have hnl : ∀ r ∈ tableRowStrs tableLines theme cols, '\n' ∉ r :=
    fun r hr hin => ((hkey r hr).1 '\n' hin).1 rfl
  have hrowseq : tableRows tableLines theme cols = tableRowStrs tableLines theme cols := by
    unfold tableRows
    rw [concatTexts_renderTable tableLines theme cols hnot,
      splitLines_segments _ hnl, List.dropLast_concat]
  intro row hrow
  rw [hrowseq] at hrow
  obtain ⟨htame, hwidth⟩ := hkey row hrow
  have hesc : escC ∉ row := fun hin => (htame escC hin).2 rfl
  rw [stringWidth_eq_rawWidth hesc, hwidth]
  exact ⟨rfl, by omega⟩

/-- C1 witness: the amended theorem applied to the concrete table
`| a | b | / |---|---| / | 1 | 2 |` at terminal width 80: every emitted grid
row has visible width exactly `calcWidth` of the final column widths, which
is at most 80. -/
theorem c1_table_row_widths_witness :
    (2 ≤ (["| a | b |".data, "|---|---|".data, "| 1 | 2 |".data] : List Str).length) ∧
    ∀ row ∈ tableRows ["| a | b |".data, "|---|---|".data, "| 1 | 2 |".data]
        createDefaultCliTheme 80,
      stringWidth row =
        calcWidth (tableColWidths
          ["| a | b |".data, "|---|---|".data, "| 1 | 2 |".data] 80) ∧
      stringWidth row ≤ 80 :=
  ⟨by decide,
    c1_table_row_widths ["| a | b |".data, "|---|---|".data, "| 1 | 2 |".data]
      createDefaultCliTheme 80 (by decide) (by decide) (by decide) (by decide)
      (by decide) (by decide) (by decide)⟩

/-- The `AnsiColors` table (30-37 normal, 90-97 bright foreground); the
source indexes it only inside those ranges, so the value elsewhere is
unreachable. -/
def AnsiColors : Nat → Nat × Nat × Nat
  | 30 => (0, 0, 0)
  | 31 => (205, 49, 49)
  | 32 => (13, 188, 121)
  | 33 => (229, 229, 16)
  | 34 => (36, 114, 200)
  | 35 => (188, 63, 188)
  | 36 => (17, 168, 205)
  | 37 => (229, 229, 229)
  | 90 => (102, 102, 102)
  | 91 => (241, 76, 76)
  | 92 => (35, 209, 139)
  | 93 => (245, 245, 67)
  | 94 => (59, 142, 234)
  | 95 => (214, 112, 214)
  | 96 => (41, 184, 219)
  | 97 => (229, 229, 229)
  | _ => (0, 0, 0)

/-- The `AnsiBgColors` table (40-47 normal, 100-107 bright background). -/
def AnsiBgColors : Nat → Nat × Nat × Nat
  | 40 => (0, 0, 0)
  | 41 => (205, 49, 49)
  | 42 => (13, 188, 121)
  | 43 => (229, 229, 16)
  | 44 => (36, 114, 200)
  | 45 => (188, 63, 188)
  | 46 => (17, 168, 205)
  | 47 => (229, 229, 229)
  | 100 => (102, 102, 102)
  | 101 => (241, 76, 76)
  | 102 => (35, 209, 139)
  | 103 => (245, 245, 67)
  | 104 => (59, 142, 234)
  | 105 => (214, 112, 214)
  | 106 => (41, 184, 219)
  | 107 => (229, 229, 229)
  | _ => (0, 0, 0)

/-- The 16 base colors of `ansi256ToRgb`. -/
def ansi256Table : Nat → Nat × Nat × Nat
  | 0 => (0, 0, 0)
  | 1 => (128, 0, 0)
  | 2 => (0, 128, 0)
  | 3 => (128, 128, 0)
  | 4 => (0, 0, 128)
  | 5 => (128, 0, 128)
  | 6 => (0, 128, 128)
  | 7 => (192, 192, 192)
  | 8 => (128, 128, 128)
  | 9 => (255, 0, 0)
  | 10 => (0, 255, 0)
  | 11 => (255, 255, 0)
  | 12 => (0, 0, 255)
  | 13 => (255, 0, 255)
  | 14 => (0, 255, 255)
  | _ => (255, 255, 255)

/-- `ansi256ToRgb`: 256-color index to RGB (16 base colors, 6x6x6 cube,
24-level grayscale ramp). -/
def ansi256ToRgb (n : Nat) : Nat × Nat × Nat :=
  if n < 16 then ansi256Table n
  else if n < 232 then
    ((if (n - 16) / 36 = 0 then 0 else ((n - 16) / 36) * 40 + 55),
     (if ((n - 16) % 36) / 6 = 0 then 0 else (((n - 16) % 36) / 6) * 40 + 55),
     (if (n - 16) % 6 = 0 then 0 else ((n - 16) % 6) * 40 + 55))
  else ((n - 232) * 10 + 8, (n - 232) * 10 + 8, (n - 232) * 10 + 8)

/-- A `{r, g, b, a: 255}` color literal from an RGB triple. -/
def rgbaOf (t : Nat × Nat × Nat) : RGBA :=
  ⟨some (t.1 : ℚ), some (t.2.1 : ℚ), some (t.2.2 : ℚ), some 255⟩

/-- JS `body.split(";")` on the captured code body. -/
def splitSemis : Str → List Str
  | [] => [[]]
  | c :: rest => if c = ';' then [] :: splitSemis rest else consHead c (splitSemis rest)

/-- JS `Number(s)` on a string of decimal digits (the empty string is 0). -/
def digitsToNat (s : Str) : Nat := s.foldl (fun a c => a * 10 + (c.toNat - 48)) 0

/-- The numeric codes of a captured escape-sequence body. -/
def parseCodes (body : Str) : List Nat := (splitSemis body).map digitsToNat

/-- The parser state of `ansiToStyledText`: current foreground, background
and attribute bits. -/
def applyCodesAux : Nat → List Nat → (Option RGBA × Option RGBA × Nat) →
    (Option RGBA × Option RGBA × Nat)
  | 0, _, st => st
  | _ + 1, [], st => st
  | fuel + 1, code :: rest, st =>
    if code = 0 then applyCodesAux fuel rest (none, none, 0)
    else if code = 1 then applyCodesAux fuel rest (st.1, st.2.1, st.2.2 ||| Attr.BOLD)
    else if code = 2 then applyCodesAux fuel rest (st.1, st.2.1, st.2.2 ||| Attr.DIM)
    else if code = 3 then applyCodesAux fuel rest (st.1, st.2.1, st.2.2 ||| Attr.ITALIC)
    else if code = 4 then applyCodesAux fuel rest (st.1, st.2.1, st.2.2 ||| Attr.UNDERLINE)
    else if code = 5 then applyCodesAux fuel rest (st.1, st.2.1, st.2.2 ||| Attr.BLINK)
    else if code = 7 then applyCodesAux fuel rest (st.1, st.2.1, st.2.2 ||| Attr.INVERSE)
    else if code = 9 then
      applyCodesAux fuel rest (st.1, st.2.1, st.2.2 ||| Attr.STRIKETHROUGH)
    else if 30 ≤ code ∧ code ≤ 37 then
      applyCodesAux fuel rest (some (rgbaOf (AnsiColors code)), st.2.1, st.2.2)
    else if 40 ≤ code ∧ code ≤ 47 then
      applyCodesAux fuel rest (st.1, some (rgbaOf (AnsiBgColors code)), st.2.2)
    else if 90 ≤ code ∧ code ≤ 97 then
      applyCodesAux fuel rest (some (rgbaOf (AnsiColors code)), st.2.1, st.2.2)
    else if 100 ≤ code ∧ code ≤ 107 then
      applyCodesAux fuel rest (st.1, some (rgbaOf (AnsiBgColors code)), st.2.2)
    else if code = 38 ∧ rest.head? = some 2 then
      applyCodesAux fuel (rest.drop 4)
        (some ⟨some ((rest.getD 1 0 : Nat) : ℚ), some ((rest.getD 2 0 : Nat) : ℚ),
          some ((rest.getD 3 0 : Nat) : ℚ), some 255⟩, st.2.1, st.2.2)
    else if code = 48 ∧ rest.head? = some 2 then
      applyCodesAux fuel (rest.drop 4)
        (st.1, some ⟨some ((rest.getD 1 0 : Nat) : ℚ), some ((rest.getD 2 0 : Nat) : ℚ),
          some ((rest.getD 3 0 : Nat) : ℚ), some 255⟩, st.2.2)
    else if code = 38 ∧ rest.head? = some 5 then
      applyCodesAux fuel (rest.drop 2)
        (some (rgbaOf (ansi256ToRgb (rest.getD 1 0))), st.2.1, st.2.2)
    else if code = 48 ∧ rest.head? = some 5 then
      applyCodesAux fuel (rest.drop 2)
        (st.1, some (rgbaOf (ansi256ToRgb (rest.getD 1 0))), st.2.2)
    else if code = 39 then applyCodesAux fuel rest (none, st.2.1, st.2.2)
    else if code = 49 then applyCodesAux fuel rest (st.1, none, st.2.2)
    else applyCodesAux fuel rest st

/-- The inner code loop of `ansiToStyledText`. -/
def applyCodes (codes : List Nat) (st : Option RGBA × Option RGBA × Nat) :
    Option RGBA × Option RGBA × Nat :=
  applyCodesAux codes.length codes st

/-- Split the tail after an ESC into the captured `[0-9;]*` body and the
remainder after the closing `m`, if the tail matches `\[[0-9;]*m`. -/
def csiSplit : Str → Option (Str × Str)
  | [] => none
  | c :: rest =>
    if c = '[' then
      match matchTailM (rest.dropWhile isCodeChar) with
      | some rem => some (rest.takeWhile isCodeChar, rem)
      | none => none
    else none

/-- The guarded chunk push of `ansiToStyledText`. -/
def ansiChunk (text : Str) (st : Option RGBA × Option RGBA × Nat) : List TextChunk :=
  if text = [] then [] else [⟨text, st.1, st.2.1, st.2.2⟩]

/-- Fueled scanner of `ansiToStyledText`: text between escape sequences is
pushed as a chunk with the current style, each escape sequence updates the
style state. -/
def ansiScanAux : Nat → Str → Str → (Option RGBA × Option RGBA × Nat) → List TextChunk
  | 0, s, cur, st => ansiChunk (cur ++ s) st
  | _ + 1, [], cur, st => ansiChunk cur st
  | fuel + 1, c :: rest, cur, st =>
    if c = escC then
      match csiSplit rest with
      | some (body, rem) =>
          ansiChunk cur st ++ ansiScanAux fuel rem [] (applyCodes (parseCodes body) st)
      | none => ansiScanAux fuel rest (cur ++ [c]) st
    else ansiScanAux fuel rest (cur ++ [c]) st

/-- `ansiToStyledText`: parse ANSI escape codes back into styled chunks. -/
def ansiToStyledText (input : Str) : List TextChunk :=
  ansiScanAux input.length input [] (none, none, 0)

theorem or_hidden_free {a c : Nat} (ha : a &&& Attr.HIDDEN = 0)
    (hc : c &&& Attr.HIDDEN = 0) : (a ||| c) &&& Attr.HIDDEN = 0 := by
  rw [Nat.and_distrib_right, ha, hc]
  decide

theorem applyCodesAux_hidden : ∀ (fuel : Nat) (codes : List Nat)
    (st : Option RGBA × Option RGBA × Nat), st.2.2 &&& Attr.HIDDEN = 0 →
    (applyCodesAux fuel codes st).2.2 &&& Attr.HIDDEN = 0 := by
  intro fuel
  induction fuel with
  | zero => intro codes st h; exact h
  | succ n ih =>
    intro codes st h
    cases codes with
    | nil => exact h
    | cons code rest =>
      have h0 : (0 : Nat) &&& Attr.HIDDEN = 0 := by decide
      have hb1 : Attr.BOLD &&& Attr.HIDDEN = 0 := by decide
      have hb2 : Attr.DIM &&& Attr.HIDDEN = 0 := by decide
      have hb3 : Attr.ITALIC &&& Attr.HIDDEN = 0 := by decide
      have hb4 : Attr.UNDERLINE &&& Attr.HIDDEN = 0 := by decide
      have hb5 : Attr.BLINK &&& Attr.HIDDEN = 0 := by decide
      have hb6 : Attr.INVERSE &&& Attr.HIDDEN = 0 := by decide
      have hb7 : Attr.STRIKETHROUGH &&& Attr.HIDDEN = 0 := by decide
      unfold applyCodesAux
      by_cases hx1 : code = 0
      · rw [if_pos hx1]; exact ih _ _ h0
      rw [if_neg hx1]
      by_cases hx2 : code = 1
      · rw [if_pos hx2]; exact ih _ _ (or_hidden_free h hb1)
      rw [if_neg hx2]
      by_cases hx3 : code = 2
      · rw [if_pos hx3]; exact ih _ _ (or_hidden_free h hb2)
      rw [if_neg hx3]
      by_cases hx4 : code = 3
      · rw [if_pos hx4]; exact ih _ _ (or_hidden_free h hb3)
      rw [if_neg hx4]
      by_cases hx5 : code = 4
      · rw [if_pos hx5]; exact ih _ _ (or_hidden_free h hb4)
      rw [if_neg hx5]
      by_cases hx6 : code = 5
      · rw [if_pos hx6]; exact ih _ _ (or_hidden_free h hb5)
      rw [if_neg hx6]
      by_cases hx7 : code = 7
      · rw [if_pos hx7]; exact ih _ _ (or_hidden_free h hb6)
      rw [if_neg hx7]
      by_cases hx8 : code = 9
      · rw [if_pos hx8]; exact ih _ _ (or_hidden_free h hb7)
      rw [if_neg hx8]
      by_cases hx9 : 30 ≤ code ∧ code ≤ 37
      · rw [if_pos hx9]; exact ih _ _ h
      rw [if_neg hx9]
      by_cases hx10 : 40 ≤ code ∧ code ≤ 47
      · rw [if_pos hx10]; exact ih _ _ h
      rw [if_neg hx10]
      by_cases hx11 : 90 ≤ code ∧ code ≤ 97
      · rw [if_pos hx11]; exact ih _ _ h
      rw [if_neg hx11]
      by_cases hx12 : 100 ≤ code ∧ code ≤ 107
      · rw [if_pos hx12]; exact ih _ _ h
      rw [if_neg hx12]
      by_cases hx13 : code = 38 ∧ rest.head? = some 2
      · rw [if_pos hx13]; exact ih _ _ h
      rw [if_neg hx13]
      by_cases hx14 : code = 48 ∧ rest.head? = some 2
      · rw [if_pos hx14]; exact ih _ _ h
      rw [if_neg hx14]
      by_cases hx15 : code = 38 ∧ rest.head? = some 5
      · rw [if_pos hx15]; exact ih _ _ h
      rw [if_neg hx15]
      by_cases hx16 : code = 48 ∧ rest.head? = some 5
      · rw [if_pos hx16]; exact ih _ _ h
      rw [if_neg hx16]
      by_cases hx17 : code = 39
      · rw [if_pos hx17]; exact ih _ _ h
      rw [if_neg hx17]
      by_cases hx18 : code = 49
      · rw [if_pos hx18]; exact ih _ _ h
      rw [if_neg hx18]
      exact ih _ _ h

theorem ansiScanAux_hidden : ∀ (fuel : Nat) (s cur : Str)
    (st : Option RGBA × Option RGBA × Nat), st.2.2 &&& Attr.HIDDEN = 0 →
    ∀ c ∈ ansiScanAux fuel s cur st, c.attributes &&& Attr.HIDDEN = 0 := by
  intro fuel
  induction fuel with
  | zero =>
    intro s cur st h c hc
    unfold ansiScanAux ansiChunk at hc
    split at hc
    · exact absurd hc (List.not_mem_nil c)
    · rcases List.mem_singleton.mp hc with rfl; exact h
  | succ n ih =>
    intro s cur st h c hc
    cases s with
    | nil =>
      unfold ansiScanAux ansiChunk at hc
      split at hc
      · exact absurd hc (List.not_mem_nil c)
      · rcases List.mem_singleton.mp hc with rfl; exact h
    | cons ch rest =>
      unfold ansiScanAux at hc
      by_cases hesc : ch = escC
      · rw [if_pos hesc] at hc
        cases hsp : csiSplit rest with
        | none =>
          rw [hsp] at hc
          exact ih _ _ _ h c hc
        | some pr =>
          rw [hsp] at hc
          obtain ⟨body, rem⟩ := pr
          have hc2 : c ∈ ansiChunk cur st ++
              ansiScanAux n rem [] (applyCodes (parseCodes body) st) := hc
          rw [List.mem_append] at hc2
          rcases hc2 with hc2 | hc2
          · unfold ansiChunk at hc2
            split at hc2
            · exact absurd hc2 (List.not_mem_nil c)
            · rcases List.mem_singleton.mp hc2 with rfl; exact h
          · exact ih _ _ _ (applyCodesAux_hidden _ _ _ h) c hc2
      · rw [if_neg hesc] at hc
        exact ih _ _ _ h c hc

/-- C4: the claim fails against the code: the parser `ansiToStyledText`
never recognizes the hidden/conceal attribute.  SGR code 8 is missing from
its dispatch (codes 0, 1, 2, 3, 4, 5, 7, 9, the color ranges, 38/48
extensions and 39/49 are handled) even though the serializer emits
`ESC[8m` for the HIDDEN bit.  Concretely: parsing `"\x1b[8mhidden"` yields
the text with attributes 0; round-tripping a HIDDEN-attributed chunk
through `textChunksToAnsi` loses the attribute; and no output chunk of
`ansiToStyledText` ever carries the HIDDEN bit, on any input. -/
theorem c4_hidden_attribute_ignored :
    (ansiToStyledText (escC :: ("[8m".data ++ "hidden".data)) =
      [⟨"hidden".data, none, none, 0⟩]) ∧
    (ansiToStyledText (textChunksToAnsi [⟨"hidden".data, none, none, Attr.HIDDEN⟩]) =
      [⟨"hidden".data, none, none, 0⟩]) ∧
    ∀ (input : Str), ∀ c ∈ ansiToStyledText input, c.attributes &&& Attr.HIDDEN = 0 := by
  refine ⟨by decide, by decide, ?_⟩
  intro input c hc
  exact ansiScanAux_hidden input.length input [] (none, none, 0) (by decide) c hc

/-- C4 witness: the universally quantified part of the theorem applied to
the concrete failing input `"\x1b[8mhidden"` and its actually emitted
chunk. -/
theorem c4_hidden_attribute_ignored_witness :
    ((⟨"hidden".data, none, none, 0⟩ : TextChunk) ∈
      ansiToStyledText (escC :: ("[8m".data ++ "hidden".data))) ∧
    (⟨"hidden".data, none, none, 0⟩ : TextChunk).attributes &&& Attr.HIDDEN = 0 :=
  ⟨by decide, c4_hidden_attribute_ignored.2.2 (escC :: ("[8m".data ++ "hidden".data))
    ⟨"hidden".data, none, none, 0⟩ (by decide)⟩

/-- JS `/\s+(.+)$/` applied to `rest`: at least one whitespace character,
then a nonempty remainder.  When `rest` is all whitespace of length at least
2, the greedy `\s+` gives one character back to `(.+)`, so the content is
the last whitespace character. -/
def wsContentSplit (rest : Str) : Option Str :=
  if rest.takeWhile Char.isWhitespace = [] then none
  else if rest.dropWhile Char.isWhitespace = [] then
    if 2 ≤ rest.length then some [rest.getLastD ' '] else none
  else some (rest.dropWhile Char.isWhitespace)

/-- JS `/^(#{1,6})\s+(.+)$/` of `renderMarkdownSimple` (content part). -/
def headerMatchS (line : Str) : Option Str :=
  if 1 ≤ (line.takeWhile (· = '#')).length ∧ (line.takeWhile (· = '#')).length ≤ 6 then
    wsContentSplit (line.drop (line.takeWhile (· = '#')).length)
  else none

/-- JS `/^(-{3,}|_{3,}|\*{3,})$/.test` on a trimmed line. -/
def hrTest (t : Str) : Bool :=
  decide (3 ≤ t.length) && (t.all (· = '-') || t.all (· = '_') || t.all (· = '*'))

/-- JS `/^(\s*)[-*+]\s+(.+)$/` of `renderMarkdownSimple`: indentation depth
(half the leading-whitespace length, floored) and content. -/
def listMatchS (line : Str) : Option (Nat × Str) :=
  match line.drop (line.takeWhile Char.isWhitespace).length with
  | c :: rest2 =>
    if c = '-' ∨ c = '*' ∨ c = '+' then
      (wsContentSplit rest2).map
        (fun ct => ((line.takeWhile Char.isWhitespace).length / 2, ct))
    else none
  | [] => none

/-- The line loop of `renderMarkdownSimple`; `none` models the JS
`RangeError` thrown by `"".repeat` on a negative count (horizontal rule with
`cols < 4`).  An unclosed code block's content is discarded. -/
def rmsAux (cols : Nat) : List Str → Bool → List Str → Option (List Str)
  | [], _, _ => some []
  | line :: rest, inCode, content =>
    if "```".data.isPrefixOf line then
      (if inCode then
        (rmsAux cols rest false []).map
          (fun r => ("  ".data ++ joinWith ('\n' :: "  ".data) content) :: r)
      else rmsAux cols rest true content)
    else if inCode then rmsAux cols rest true (content ++ [line])
    else match headerMatchS line with
    | some ct => (rmsAux cols rest false content).map (fun r => ('\n' :: (ct ++ ['\n'])) :: r)
    | none =>
      if hrTest (trim line) then
        (if cols < 4 then none
        else (rmsAux cols rest false content).map
          (fun r => ('\n' :: (List.replicate (min (cols - 4) 60) Box.horizontal ++ ['\n'])) :: r))
      else match listMatchS line with
      | some pr => (rmsAux cols rest false content).map
          (fun r => ((List.replicate pr.1 "  ".data).flatten ++ ("- ".data ++ pr.2)) :: r)
      | none => (rmsAux cols rest false content).map (fun r => line :: r)

/-- `renderMarkdownSimple` (the `colors: false` fallback) with the default
indent `"  "` and list prefix `"- "`. -/
def renderMarkdownSimple (md : Str) (cols : Nat) : Option Str :=
  (rmsAux cols (splitLines md) false []).map (joinWith ['\n'])

/-- `Math.round(x * 255)` on a JS number component (`none` is NaN). -/
def toIntComp (o : Option ℚ) : Option ℚ := o.map (fun q => ((⌊q * 255 + 1 / 2⌋ : ℤ) : ℚ))

/-- `toIntRGBA`: TUI 0-1 floats to internal 0-255 ints. -/
def toIntRGBA (c : RGBA) : RGBA := ⟨toIntComp c.r, toIntComp c.g, toIntComp c.b, toIntComp c.a⟩

/-- The theme conversion at the top of `renderMarkdownThemedStyled`. -/
def themeToInt (t : MarkdownTheme) : MarkdownTheme :=
  ⟨toIntRGBA t.text, toIntRGBA t.textMuted, toIntRGBA t.accent, toIntRGBA t.primary,
   toIntRGBA t.border, toIntRGBA t.background, toIntRGBA t.backgroundPanel,
   toIntRGBA t.backgroundElement, toIntRGBA t.markdownText, toIntRGBA t.markdownHeading,
   toIntRGBA t.markdownLink, toIntRGBA t.markdownLinkText, toIntRGBA t.markdownCode,
   toIntRGBA t.markdownCodeBlock, toIntRGBA t.markdownBlockQuote, toIntRGBA t.markdownEmph,
   toIntRGBA t.markdownStrong, toIntRGBA t.markdownListItem,
   toIntRGBA t.markdownListEnumeration, toIntRGBA t.markdownHorizontalRule,
   toIntRGBA t.diffAdded, toIntRGBA t.diffRemoved⟩

/-- `trimmed.startsWith("```")`. -/
def fenceTest (t : Str) : Bool := "```".data.isPrefixOf t

/-- `trimmed.startsWith("|") && trimmed.endsWith("|")`. -/
def tableLineTest (t : Str) : Bool := "|".data.isPrefixOf t && "|".data.isSuffixOf t

/-- The lookahead check ending a table block:
`!nextLine || !nextLine.startsWith("|") || !nextLine.endsWith("|")` (the
table continues iff this is false). -/
def tableCont : Option Str → Bool
  | none => false
  | some nl => !(trim nl).isEmpty && tableLineTest (trim nl)

/-- JS `/^(#{1,6})\s+(.*)$/` of the themed renderer (content may be
empty). -/
def headerMatchT (t : Str) : Option (Nat × Str) :=
  if 1 ≤ (t.takeWhile (· = '#')).length ∧ (t.takeWhile (· = '#')).length ≤ 6 ∧
      (t.drop (t.takeWhile (· = '#')).length).takeWhile Char.isWhitespace ≠ [] then
    some ((t.takeWhile (· = '#')).length,
      (t.drop (t.takeWhile (· = '#')).length).dropWhile Char.isWhitespace)
  else none

/-- `trimmed.replace(/^>\s*/, "")` (assuming `trimmed` starts with `>`). -/
def bqContent (t : Str) : Str := (t.drop 1).dropWhile Char.isWhitespace

/-- JS `/^[-*+]\s+\[([ xX])\]\s+(.*)$/`: checked flag and content. -/
def taskMatchT (t : Str) : Option (Bool × Str) :=
  match t with
  | b :: rest =>
    if b = '-' ∨ b = '*' ∨ b = '+' then
      if rest.takeWhile Char.isWhitespace = [] then none
      else match rest.dropWhile Char.isWhitespace with
        | '[' :: m :: ']' :: rest2 =>
          if m = ' ' ∨ m = 'x' ∨ m = 'X' then
            if rest2.takeWhile Char.isWhitespace = [] then none
            else some (m == 'x' || m == 'X', rest2.dropWhile Char.isWhitespace)
          else none
        | _ => none
    else none
  | [] => none

/-- JS `/^[-*+]\s+(.*)$/`: unordered-list content. -/
def ulMatchT (t : Str) : Option Str :=
  match t with
  | b :: rest =>
    if b = '-' ∨ b = '*' ∨ b = '+' then
      if rest.takeWhile Char.isWhitespace = [] then none
      else some (rest.dropWhile Char.isWhitespace)
    else none
  | [] => none

/-- JS `/^(\d+)[.)]\s+(.*)$/`: ordered-list number string and content. -/
def olMatchT (t : Str) : Option (Str × Str) :=
  if t.takeWhile Char.isDigit = [] then none
  else match t.drop (t.takeWhile Char.isDigit).length with
    | c :: rest2 =>
      if c = '.' ∨ c = ')' then
        if rest2.takeWhile Char.isWhitespace = [] then none
        else some (t.takeWhile Char.isDigit, rest2.dropWhile Char.isWhitespace)
      else none
    | [] => none

/-- The per-line state of `renderMarkdownThemedStyled`: in-code flag,
code-block language, and accumulated table lines. -/
structure RState where
  inCode : Bool
  lang : Str
  tableAcc : List Str
deriving DecidableEq

/-- One iteration of the line loop of `renderMarkdownThemedStyled`:
emitted chunks and next state, or `none` for the JS `RangeError` of the
horizontal-rule branch when `cols < 4`. -/
def rmtStep (theme : MarkdownTheme) (cols : Nat) (line : Str) (next : Option Str)
    (st : RState) : Option (List TextChunk × RState) :=
  if fenceTest (trim line) then
    (if st.inCode then some ([], ⟨false, [], st.tableAcc⟩)
     else some ([], ⟨true, trim ((trim line).drop 3), st.tableAcc⟩))
  else if st.inCode then
    (if st.lang = "diff".data then
      (if "+".data.isPrefixOf (trim line) then
        some (addChunk ("  ".data ++ (line ++ ['\n'])) (some theme.diffAdded) 0, st)
       else if "-".data.isPrefixOf (trim line) then
        some (addChunk ("  ".data ++ (line ++ ['\n'])) (some theme.diffRemoved) 0, st)
       else some (addChunk ("  ".data ++ (line ++ ['\n'])) (some theme.markdownCodeBlock) 0, st))
     else some (addChunk ("  ".data ++ (line ++ ['\n'])) (some theme.markdownCodeBlock)
        Attr.ITALIC, st))
  else if tableLineTest (trim line) then
    (if tableCont next then some ([], ⟨st.inCode, st.lang, st.tableAcc ++ [trim line]⟩)
     else some (renderTableThemed (st.tableAcc ++ [trim line]) theme cols,
        ⟨st.inCode, st.lang, []⟩))
  else match headerMatchT (trim line) with
  | some pr =>
    if pr.1 ≤ 2 then
      some (addChunkBg "  ".data (some theme.markdownHeading) (some theme.backgroundPanel)
          Attr.BOLD ++
        (renderInlineThemedWithDefault pr.2 theme theme.markdownHeading Attr.BOLD ++
         addChunkBg "  \n".data (some theme.markdownHeading) (some theme.backgroundPanel)
          Attr.BOLD), st)
    else
      some (renderInlineThemedWithDefault pr.2 theme theme.markdownHeading Attr.BOLD ++
        addChunk ['\n'] none 0, st)
  | none =>
    if hrTest (trim line) then
      (if cols < 4 then none
       else some (addChunk (List.replicate (cols - 4) Box.horizontal ++ ['\n'])
          (some theme.markdownHorizontalRule) Attr.DIM, st))
    else if ">".data.isPrefixOf (trim line) then
      some (addChunk ("  ".data ++ (Box.vertical :: " ".data)) (some theme.border) Attr.DIM ++
        (renderInlineThemedWithDefault (bqContent (trim line)) theme theme.markdownBlockQuote
          Attr.ITALIC ++
         addChunk ['\n'] none 0), st)
    else match taskMatchT (trim line) with
    | some pr =>
      some (addChunk (line.takeWhile Char.isWhitespace ++ "- ".data)
          (some theme.markdownListItem) 0 ++
        (addChunk "[".data (some theme.markdownListItem) 0 ++
        (addChunk (if pr.1 then "x".data else " ".data)
          (some (if pr.1 then theme.diffAdded else theme.textMuted)) 0 ++
        (addChunk "] ".data (some theme.markdownListItem) 0 ++
        (renderInlineThemed pr.2 theme ++ addChunk ['\n'] none 0)))), st)
    | none => match ulMatchT (trim line) with
      | some ct =>
        some (addChunk (line.takeWhile Char.isWhitespace ++ "- ".data)
            (some theme.markdownListItem) 0 ++
          (renderInlineThemed ct theme ++ addChunk ['\n'] none 0), st)
      | none => match olMatchT (trim line) with
        | some pr =>
          some (addChunk (line.takeWhile Char.isWhitespace ++ (pr.1 ++ ". ".data))
              (some theme.markdownListEnumeration) 0 ++
            (renderInlineThemed pr.2 theme ++ addChunk ['\n'] none 0), st)
        | none =>
          if (trim line).isEmpty then some (addChunk ['\n'] none 0, st)
          else some (renderInlineThemed line theme ++ addChunk ['\n'] none 0, st)

/-- The line loop of `renderMarkdownThemedStyled` (lookahead is the head of
the remaining lines; a table block flushes on its last line, so nothing is
pending at the end). -/
def rmtAux (theme : MarkdownTheme) (cols : Nat) : List Str → RState → Option (List TextChunk)
  | [], _ => some []
  | line :: rest, st =>
    match rmtStep theme cols line rest.head? st with
    | none => none
    | some pr => (rmtAux theme cols rest pr.2).map (fun r => pr.1 ++ r)

/-- `renderMarkdownThemedStyled`: themed markdown rendering to styled
chunks; `none` models the JS `RangeError` on a horizontal rule with
`cols < 4`. -/
def renderMarkdownThemedStyled (md : Str) (tuiTheme : MarkdownTheme) (cols : Nat) :
    Option (List TextChunk) :=
  rmtAux (themeToInt tuiTheme) cols (splitLines md) ⟨false, [], []⟩

/-- `renderMarkdown`: the main entry point; `colors = false` falls back to
`renderMarkdownSimple`, otherwise the themed chunks are serialized with
`textChunksToAnsi`. -/
def renderMarkdown (md : Str) (theme : MarkdownTheme) (cols : Nat) (colors : Bool) :
    Option Str :=
  if colors then (renderMarkdownThemedStyled md theme cols).map textChunksToAnsi
  else renderMarkdownSimple md cols

theorem exists_some_ite {α : Type} {c : Prop} [Decidable c] (a b : α) :
    ∃ p, (if c then some a else some b) = some p := by
  by_cases h : c
  · exact ⟨a, if_pos h⟩
  · exact ⟨b, if_neg h⟩

theorem rmtStep_total (theme : MarkdownTheme) (cols : Nat) (hcols : 4 ≤ cols)
    (line : Str) (next : Option Str) (st : RState) :
    ∃ p, rmtStep theme cols line next st = some p := by
  unfold rmtStep
  by_cases h1 : fenceTest (trim line) = true
  · rw [if_pos h1]
    exact exists_some_ite _ _
  rw [if_neg h1]
  by_cases h2 : st.inCode = true
  · rw [if_pos h2]
    by_cases h3 : st.lang = "diff".data
    · rw [if_pos h3]
      by_cases h4 : "+".data.isPrefixOf (trim line) = true
      · rw [if_pos h4]; exact ⟨_, rfl⟩
      rw [if_neg h4]
      exact exists_some_ite _ _
    · rw [if_neg h3]; exact ⟨_, rfl⟩
  rw [if_neg h2]
  by_cases h3 : tableLineTest (trim line) = true
  · rw [if_pos h3]
    exact exists_some_ite _ _
  rw [if_neg h3]
  cases hh : headerMatchT (trim line) with
  | some pr =>
    simp only [hh]
    exact exists_some_ite _ _
  | none =>
  simp only [hh]
  by_cases h4 : hrTest (trim line) = true
  · rw [if_pos h4, if_neg (Nat.not_lt.mpr hcols)]
    exact ⟨_, rfl⟩
  rw [if_neg h4]
  by_cases h5 : ">".data.isPrefixOf (trim line) = true
  · rw [if_pos h5]; exact ⟨_, rfl⟩
  rw [if_neg h5]
  cases ht : taskMatchT (trim line) with
  | some pr => simp only [ht]; exact ⟨_, rfl⟩
  | none =>
  simp only [ht]
  cases hu : ulMatchT (trim line) with
  | some ct => simp only [hu]; exact ⟨_, rfl⟩
  | none =>
  simp only [hu]
  cases ho : olMatchT (trim line) with
  | some pr => simp only [ho]; exact ⟨_, rfl⟩
  | none =>
  simp only [ho]
  exact exists_some_ite _ _

theorem rmtAux_total (theme : MarkdownTheme) (cols : Nat) (hcols : 4 ≤ cols) :
    ∀ (lines : List Str) (st : RState), ∃ cs, rmtAux theme cols lines st = some cs := by
  intro lines
  induction lines with
  | nil => intro st; exact ⟨[], rfl⟩
  | cons line rest ih =>
    intro st
    obtain ⟨p, hp⟩ := rmtStep_total theme cols hcols line rest.head? st
    obtain ⟨cs, hcs⟩ := ih p.2
    exact ⟨p.1 ++ cs, by simp only [rmtAux, hp, hcs, Option.map_some']⟩

/-- C6 counterexample: the pipeline is not total.  A horizontal rule at
terminal width 2 makes the source evaluate `"─".repeat(cols - 4)` with a
negative count, which throws a `RangeError` (modelled as `none`), both in
`renderMarkdownThemedStyled` and through `renderMarkdown` with colors. -/
theorem c6_counterexample :
    renderMarkdownThemedStyled "---".data createDefaultCliTheme 2 = none ∧
    renderMarkdown "---".data createDefaultCliTheme 2 true = none := by
  exact ⟨rfl, rfl⟩

/-- C6 (amended): for every document, theme and terminal width of at least
4 columns, `renderMarkdownThemedStyled` produces some fragment sequence —
with the `cols ≥ 4` restriction the pipeline raises no error on any
input. -/
theorem c6_render_total (md : Str) (theme : MarkdownTheme) (cols : Nat) (hcols : 4 ≤ cols) :
    ∃ cs, renderMarkdownThemedStyled md theme cols = some cs :=
  rmtAux_total (themeToInt theme) cols hcols (splitLines md) ⟨false, [], []⟩

/-- C6 witness: the amended theorem applied at a concrete document
exercising headings, rules and text, at width 80. -/
theorem c6_render_total_witness :
    (4 ≤ 80) ∧
    ∃ cs, renderMarkdownThemedStyled "# Hi\n---\ntext".data createDefaultCliTheme 80 =
      some cs :=
  ⟨by decide, c6_render_total "# Hi\n---\ntext".data createDefaultCliTheme 80 (by decide)⟩

theorem allP_splitLines {P : Char → Prop} : ∀ {s : Str}, (∀ ch ∈ s, P ch) →
    ∀ l ∈ splitLines s, ∀ ch ∈ l, P ch := by
  intro s
  induction s with
  | nil =>
    intro _ l hl
    rcases List.mem_singleton.mp hl with rfl
    intro ch hch
    exact absurd hch (List.not_mem_nil ch)
  | cons c rest ih =>
    intro h l hl
    have hc : P c := h c (List.mem_cons_self c rest)
    have hrest : ∀ ch ∈ rest, P ch := fun ch hch => h ch (List.mem_cons_of_mem c hch)
    unfold splitLines at hl
    split at hl
    · rcases List.mem_cons.mp hl with rfl | hl
      · intro ch hch; exact absurd hch (List.not_mem_nil ch)
      · exact ih hrest l hl
    · exact allP_consHeadCells hc (ih hrest) l hl

theorem allP_wsContentSplit {P : Char → Prop} (hsp : P ' ') {rest ct : Str}
    (hrest : ∀ ch ∈ rest, P ch) (h : wsContentSplit rest = some ct) :
    ∀ ch ∈ ct, P ch := by
  unfold wsContentSplit at h
  split at h
  · exact absurd h (by simp)
  split at h
  · split at h
    · injection h with h
      subst h
      intro ch hch
      rcases List.mem_singleton.mp hch with rfl
      rcases List.mem_cons.mp (List.getLastD_mem_cons rest ' ') with he | he
      · rw [he]; exact hsp
      · exact hrest _ he
    · exact absurd h (by simp)
  · injection h with h
    subst h
    exact fun ch hch => hrest ch (List.dropWhile_sublist Char.isWhitespace |>.subset hch)

theorem allP_headerMatchS {P : Char → Prop} (hsp : P ' ') {line ct : Str}
    (hline : ∀ ch ∈ line, P ch) (h : headerMatchS line = some ct) :
    ∀ ch ∈ ct, P ch := by
  unfold headerMatchS at h
  split at h
  · exact allP_wsContentSplit hsp
      (fun ch hch => hline ch (List.drop_subset _ line hch)) h
  · exact absurd h (by simp)

theorem allP_listMatchS {P : Char → Prop} (hsp : P ' ') {line : Str} {pr : Nat × Str}
    (hline : ∀ ch ∈ line, P ch) (h : listMatchS line = some pr) :
    ∀ ch ∈ pr.2, P ch := by
  unfold listMatchS at h
  split at h
  next c rest2 hdrop =>
    split at h
    · cases hw : wsContentSplit rest2 with
      | none => rw [hw] at h; exact absurd h (by simp)
      | some ct =>
        rw [hw] at h
        simp only [Option.map_some'] at h
        injection h with h
        subst h
        have hrest2 : ∀ ch ∈ rest2, P ch := by
          intro ch hch
          have : ch ∈ line.drop (line.takeWhile Char.isWhitespace).length := by
            rw [hdrop]; exact List.mem_cons_of_mem c hch
          exact hline ch (List.drop_subset _ line this)
        exact allP_wsContentSplit hsp hrest2 hw
    · exact absurd h (by simp)
  next => exact absurd h (by simp)

theorem allP_rmsAux {P : Char → Prop} (hnl : P '\n') (hsp : P ' ') (hdash : P '-')
    (hhz : P Box.horizontal) (cols : Nat) :
    ∀ (lines : List Str) (inCode : Bool) (content : List Str) (r : List Str),
    (∀ l ∈ lines, ∀ ch ∈ l, P ch) → (∀ l ∈ content, ∀ ch ∈ l, P ch) →
    rmsAux cols lines inCode content = some r → ∀ l ∈ r, ∀ ch ∈ l, P ch := by
  intro lines
  induction lines with
  | nil =>
    intro inCode content r _ _ h
    injection h with h
    subst h
    intro l hl
    exact absurd hl (List.not_mem_nil l)
  | cons line rest ih =>
    intro inCode content r hlines hcontent h
    have hline : ∀ ch ∈ line, P ch := hlines line (List.mem_cons_self line rest)
    have hrest : ∀ l ∈ rest, ∀ ch ∈ l, P ch :=
      fun l hl => hlines l (List.mem_cons_of_mem line hl)
    unfold rmsAux at h
    by_cases hf : "```".data.isPrefixOf line = true
    · rw [if_pos hf] at h
      by_cases hic : inCode = true
      · rw [if_pos hic] at h
        cases hrec : rmsAux cols rest false [] with
        | none => rw [hrec] at h; exact absurd h (by simp)
        | some r2 =>
          rw [hrec, Option.map_some'] at h
          injection h with h
          subst h
          intro l hl
          rcases List.mem_cons.mp hl with rfl | hl
          · have hj : ∀ ch ∈ joinWith ('\n' :: "  ".data) content, P ch :=
              allP_joinWith (fun ch hch => by
                rcases List.mem_cons.mp hch with rfl | hch
                · exact hnl
                · rcases List.mem_cons.mp hch with rfl | hch
                  · exact hsp
                  · rcases List.mem_singleton.mp hch with rfl; exact hsp)
                content hcontent
            intro ch hch
            rcases List.mem_append.mp hch with hch | hch
            · rcases List.mem_cons.mp hch with rfl | hch
              · exact hsp
              · rcases List.mem_singleton.mp hch with rfl; exact hsp
            · exact hj ch hch
          · exact ih false [] r2 hrest (by simp) hrec l hl
      · rw [if_neg hic] at h
        exact ih true content r hrest hcontent h
    · rw [if_neg hf] at h
      by_cases hic : inCode = true
      · rw [if_pos hic] at h
        refine ih true (content ++ [line]) r hrest ?_ h
        intro l hl
        rcases List.mem_append.mp hl with hl | hl
        · exact hcontent l hl
        · rcases List.mem_singleton.mp hl with rfl; exact hline
      rw [if_neg hic] at h
      cases hh : headerMatchS line with
      | some ct =>
        rw [hh] at h
        have h2 : (rmsAux cols rest false content).map
            (fun r => ('\n' :: (ct ++ ['\n'])) :: r) = some r := h
        cases hrec : rmsAux cols rest false content with
        | none => rw [hrec] at h2; exact absurd h2 (by simp)
        | some r2 =>
          rw [hrec, Option.map_some'] at h2
          injection h2 with h2
          subst h2
          intro l hl
          rcases List.mem_cons.mp hl with rfl | hl
          · intro ch hch
            rcases List.mem_cons.mp hch with rfl | hch
            · exact hnl
            rcases List.mem_append.mp hch with hch | hch
            · exact allP_headerMatchS hsp hline hh ch hch
            · rcases List.mem_singleton.mp hch with rfl; exact hnl
          · exact ih false content r2 hrest hcontent hrec l hl
      | none =>
        rw [hh] at h
        have h2 : (if hrTest (trim line) = true then
            (if cols < 4 then none
             else (rmsAux cols rest false content).map
              (fun r => ('\n' ::
                (List.replicate (min (cols - 4) 60) Box.horizontal ++ ['\n'])) :: r))
          else match listMatchS line with
          | some pr => (rmsAux cols rest false content).map
              (fun r => ((List.replicate pr.1 "  ".data).flatten ++ ("- ".data ++ pr.2)) :: r)
          | none => (rmsAux cols rest false content).map (fun r => line :: r)) = some r := h
        by_cases hhr : hrTest (trim line) = true
        · rw [if_pos hhr] at h2
          by_cases hc4 : cols < 4
          · rw [if_pos hc4] at h2; exact absurd h2 (by simp)
          rw [if_neg hc4] at h2
          cases hrec : rmsAux cols rest false content with
          | none => rw [hrec] at h2; exact absurd h2 (by simp)
          | some r2 =>
            rw [hrec, Option.map_some'] at h2
            injection h2 with h2
            subst h2
            intro l hl
            rcases List.mem_cons.mp hl with rfl | hl
            · intro ch hch
              rcases List.mem_cons.mp hch with rfl | hch
              · exact hnl
              rcases List.mem_append.mp hch with hch | hch
              · rcases List.eq_of_mem_replicate hch with rfl; exact hhz
              · rcases List.mem_singleton.mp hch with rfl; exact hnl
            · exact ih false content r2 hrest hcontent hrec l hl
        · rw [if_neg hhr] at h2
          cases hlm : listMatchS line with
          | some pr =>
            rw [hlm] at h2
            cases hrec : rmsAux cols rest false content with
            | none => rw [hrec] at h2; exact absurd h2 (by simp)
            | some r2 =>
              rw [hrec, Option.map_some'] at h2
              injection h2 with h2
              subst h2
              intro l hl
              rcases List.mem_cons.mp hl with rfl | hl
              · intro ch hch
                rcases List.mem_append.mp hch with hch | hch
                · rw [List.mem_flatten] at hch
                  obtain ⟨seg, hseg, hch⟩ := hch
                  rcases List.eq_of_mem_replicate hseg with rfl
                  rcases List.mem_cons.mp hch with rfl | hch
                  · exact hsp
                  · rcases List.mem_singleton.mp hch with rfl; exact hsp
                rcases List.mem_append.mp hch with hch | hch
                · rcases List.mem_cons.mp hch with rfl | hch
                  · exact hdash
                  · rcases List.mem_singleton.mp hch with rfl; exact hsp
                · exact allP_listMatchS hsp hline hlm ch hch
              · exact ih false content r2 hrest hcontent hrec l hl
          | none =>
            rw [hlm] at h2
            cases hrec : rmsAux cols rest false content with
            | none => rw [hrec] at h2; exact absurd h2 (by simp)
            | some r2 =>
              rw [hrec, Option.map_some'] at h2
              injection h2 with h2
              subst h2
              intro l hl
              rcases List.mem_cons.mp hl with rfl | hl
              · exact hline
              · exact ih false content r2 hrest hcontent hrec l hl

/-- C5 counterexample: the claim fails as stated.  The input `"\x1b[31m"`
(a raw red escape sequence) is passed through `renderMarkdownSimple`
verbatim as a paragraph line, so `renderMarkdown` with `colors = false`
returns output that still contains an ANSI escape sequence. -/
theorem c5_counterexample :
    renderMarkdown (escC :: "[31m".data) createDefaultCliTheme 80 false =
      some (escC :: "[31m".data) ∧
    hasCsi (escC :: "[31m".data) = true := by
  exact ⟨rfl, rfl⟩

/-- C5 (amended): for every document that does not itself contain the
escape character, every terminal width and theme, any output produced by
`renderMarkdown` with `colors = false` contains no ANSI escape sequence.
(The output exists unless the document has a horizontal rule at
`cols < 4`, where the JS `repeat` throws.) -/
theorem c5_simple_no_escapes (md : Str) (theme : MarkdownTheme) (cols : Nat)
    (hmd : escC ∉ md) :
    ∀ out, renderMarkdown md theme cols false = some out → hasCsi out = false := by
  intro out hout
  unfold renderMarkdown at hout
  rw [if_neg (by simp)] at hout
  unfold renderMarkdownSimple at hout
  cases hr : rmsAux cols (splitLines md) false [] with
  | none => rw [hr] at hout; exact absurd hout (by simp)
  | some r =>
    rw [hr, Option.map_some'] at hout
    injection hout with hout
    subst hout
    apply hasCsi_false_of_noEsc
    intro hin
    have hlines : ∀ l ∈ splitLines md, ∀ ch ∈ l, ch ≠ escC :=
      allP_splitLines (fun ch hch (he : ch = escC) => hmd (he ▸ hch))
    have hr2 : ∀ l ∈ r, ∀ ch ∈ l, ch ≠ escC :=
      allP_rmsAux (by decide) (by decide) (by decide) (by decide) cols
        (splitLines md) false [] r hlines (by simp) hr
    exact allP_joinWith
      (fun ch hch => by
        rcases List.mem_singleton.mp hch with rfl
        exact (by decide : ('\n' : Char) ≠ escC))
      r hr2 escC hin rfl

/-- C5 witness: the amended theorem applied to a concrete escape-free
document with a heading, emphasis, a list, a code fence and a rule, at
width 80: the rendered plain output contains no escape sequence. -/
theorem c5_simple_no_escapes_witness :
    (escC ∉ ("# Title\n\n- item **bold**\n```\ncode x\n```\n---\npara".data : Str)) ∧
    hasCsi ("\nTitle\n\n\n- item **bold**\n  code x\n\n".data ++
      (List.replicate 60 Box.horizontal ++ "\n\npara".data)) = false :=
  ⟨by decide,
    c5_simple_no_escapes "# Title\n\n- item **bold**\n```\ncode x\n```\n---\npara".data
      createDefaultCliTheme 80 (by decide)
      ("\nTitle\n\n\n- item **bold**\n  code x\n\n".data ++
        (List.replicate 60 Box.horizontal ++ "\n\npara".data)) (by decide)⟩

/-- A parsed markdown segment: plain text or a fenced code block. -/
inductive Segment where
  | text (content : Str)
  | code (content : Str) (language : Str)
deriving DecidableEq

/-- `flushText` of `parseMarkdownSegments`: pending text lines become one
text segment (nothing when empty). -/
def flushText (ct : List Str) : List Segment :=
  if ct = [] then [] else [Segment.text (joinWith ['\n'] ct)]

/-- `trimmed.slice(3).trim() || "text"`: the language of an opening
fence. -/
def jsLangOf (t : Str) : Str :=
  if trim (t.drop 3) = [] then "text".data else trim (t.drop 3)

/-- The line loop of `parseMarkdownSegments`: an unclosed code block at the
end is flushed exactly when its content is nonempty. -/
def pmsAux : List Str → List Str → Bool → Str → List Str → List Segment
  | [], ct, inCode, lang, cc =>
    flushText ct ++
      (if inCode = true ∧ cc ≠ [] then [Segment.code (joinWith ['\n'] cc) lang] else [])
  | line :: rest, ct, inCode, lang, cc =>
    if fenceTest (trim line) then
      (if inCode then
        Segment.code (joinWith ['\n'] cc) lang :: pmsAux rest ct false [] []
      else flushText ct ++ pmsAux rest [] true (jsLangOf (trim line)) [])
    else if inCode then pmsAux rest ct true lang (cc ++ [line])
    else pmsAux rest (ct ++ [line]) inCode lang cc

/-- `parseMarkdownSegments`: split a document into text and code
segments. -/
def parseMarkdownSegments (md : Str) : List Segment :=
  pmsAux (splitLines md) [] false [] []

theorem splitLines_joinWith : ∀ (ls : List Str), ls ≠ [] → (∀ l ∈ ls, '\n' ∉ l) →
    splitLines (joinWith ['\n'] ls) = ls := by
  intro ls
  induction ls with
  | nil => intro h; exact absurd rfl h
  | cons l ls ih =>
    intro _ hnl
    cases ls with
    | nil =>
      have h := splitLines_append_nlfree (hnl l (List.mem_cons_self l [])) []
      rw [List.append_nil] at h
      show splitLines l = [l]
      rw [h]
      simp [splitLines, consHead2]
    | cons l2 ls2 =>
      show splitLines (l ++ ['\n'] ++ joinWith ['\n'] (l2 :: ls2)) = _
      rw [List.append_assoc, List.singleton_append,
        splitLines_append_nlfree (hnl l (List.mem_cons_self l _))]
      have hstep : splitLines ('\n' :: joinWith ['\n'] (l2 :: ls2)) =
          [] :: splitLines (joinWith ['\n'] (l2 :: ls2)) := by
        simp [splitLines]
      rw [hstep, ih (by simp) (fun x hx => hnl x (List.mem_cons_of_mem _ hx))]
      simp [consHead2]

theorem pms_text_skip : ∀ (ls : List Str) (rest : List Str) (ct : List Str) (lang : Str)
    (cc : List Str), (∀ l ∈ ls, fenceTest (trim l) = false) →
    pmsAux (ls ++ rest) ct false lang cc = pmsAux rest (ct ++ ls) false lang cc := by
  intro ls
  induction ls with
  | nil => intro rest ct lang cc _; rw [List.nil_append, List.append_nil]
  | cons l ls ih =>
    intro rest ct lang cc h
    show pmsAux (l :: (ls ++ rest)) ct false lang cc = _
    simp only [pmsAux]
    rw [if_neg (by rw [h l (List.mem_cons_self l ls)]; exact Bool.false_ne_true),
      if_neg Bool.false_ne_true,
      ih rest (ct ++ [l]) lang cc (fun x hx => h x (List.mem_cons_of_mem l hx)),
      List.append_assoc, List.singleton_append]

theorem pms_code_skip : ∀ (ls : List Str) (rest : List Str) (ct : List Str) (lang : Str)
    (cc : List Str), (∀ l ∈ ls, fenceTest (trim l) = false) →
    pmsAux (ls ++ rest) ct true lang cc = pmsAux rest ct true lang (cc ++ ls) := by
  intro ls
  induction ls with
  | nil => intro rest ct lang cc _; rw [List.nil_append, List.append_nil]
  | cons l ls ih =>
    intro rest ct lang cc h
    show pmsAux (l :: (ls ++ rest)) ct true lang cc = _
    simp only [pmsAux]
    rw [if_neg (by rw [h l (List.mem_cons_self l ls)]; exact Bool.false_ne_true),
      if_pos trivial,
      ih rest ct lang (cc ++ [l]) (fun x hx => h x (List.mem_cons_of_mem l hx)),
      List.append_assoc, List.singleton_append]

theorem pms_fence_open (line : Str) (rest : List Str) (ct : List Str) (lang : Str)
    (cc : List Str) (h : fenceTest (trim line) = true) :
    pmsAux (line :: rest) ct false lang cc =
    flushText ct ++ pmsAux rest [] true (jsLangOf (trim line)) [] := by
  simp only [pmsAux]
  rw [if_pos h, if_neg Bool.false_ne_true]

theorem pms_fence_close (line : Str) (rest : List Str) (ct : List Str) (lang : Str)
    (cc : List Str) (h : fenceTest (trim line) = true) :
    pmsAux (line :: rest) ct true lang cc =
    Segment.code (joinWith ['\n'] cc) lang :: pmsAux rest ct false [] [] := by
  simp only [pmsAux]
  rw [if_pos h, if_pos trivial]

theorem pms_end_unclosed (ct : List Str) (lang : Str) (cc : List Str) (hcc : cc ≠ []) :
    pmsAux [] ct true lang cc =
    flushText ct ++ [Segment.code (joinWith ['\n'] cc) lang] := by
  simp only [pmsAux]
  rw [if_pos ⟨trivial, hcc⟩]

/-- C7 (confirmed): a document whose tail is an opening code fence followed
by at least one line and no closing fence parses exactly as if the fence
had been closed at the end of the document: everything after the fence is
emitted as one code segment (with the fence's language), after the
preceding text segment, with no line dropped and no error. -/
theorem c7_unterminated_fence (textLines : List Str) (fenceLine : Str)
    (restLines : List Str)
    (hnl : ∀ l ∈ textLines ++ fenceLine :: restLines, '\n' ∉ l)
    (htext : ∀ l ∈ textLines, fenceTest (trim l) = false)
    (hfence : fenceTest (trim fenceLine) = true)
    (hrest : restLines ≠ [])
    (hnof : ∀ l ∈ restLines, fenceTest (trim l) = false) :
    parseMarkdownSegments (joinWith ['\n'] (textLines ++ fenceLine :: restLines)) =
      parseMarkdownSegments
        (joinWith ['\n'] ((textLines ++ fenceLine :: restLines) ++ ["```".data])) ∧
    parseMarkdownSegments (joinWith ['\n'] (textLines ++ fenceLine :: restLines)) =
      flushText textLines ++
        [Segment.code (joinWith ['\n'] restLines) (jsLangOf (trim fenceLine))] := by
  have hnl2 : ∀ l ∈ (textLines ++ fenceLine :: restLines) ++ ["```".data], '\n' ∉ l := by
    intro l hl
    rcases List.mem_append.mp hl with hl | hl
    · exact hnl l hl
    · rcases List.mem_singleton.mp hl with rfl; decide
  have hopen : parseMarkdownSegments (joinWith ['\n'] (textLines ++ fenceLine :: restLines)) =
      flushText textLines ++
        [Segment.code (joinWith ['\n'] restLines) (jsLangOf (trim fenceLine))] := by
    unfold parseMarkdownSegments
    rw [splitLines_joinWith _ (by simp) hnl,
      pms_text_skip textLines (fenceLine :: restLines) [] [] [] htext,
      List.nil_append,
      pms_fence_open fenceLine restLines textLines [] [] hfence]
    have hskip := pms_code_skip restLines [] [] (jsLangOf (trim fenceLine)) [] hnof
    rw [List.append_nil, List.nil_append] at hskip
    rw [hskip, pms_end_unclosed [] (jsLangOf (trim fenceLine)) restLines hrest]
    rfl
  have hclosed : parseMarkdownSegments
      (joinWith ['\n'] ((textLines ++ fenceLine :: restLines) ++ ["```".data])) =
      flushText textLines ++
        [Segment.code (joinWith ['\n'] restLines) (jsLangOf (trim fenceLine))] := by
    unfold parseMarkdownSegments
    rw [splitLines_joinWith _ (by simp) hnl2,
      show (textLines ++ fenceLine :: restLines) ++ ["```".data] =
        textLines ++ fenceLine :: (restLines ++ ["```".data]) from by simp,
      pms_text_skip textLines (fenceLine :: (restLines ++ ["```".data])) [] [] [] htext,
      List.nil_append,
      pms_fence_open fenceLine (restLines ++ ["```".data]) textLines [] [] hfence,
      pms_code_skip restLines ["```".data] [] (jsLangOf (trim fenceLine)) [] hnof,
      List.nil_append,
      pms_fence_close "```".data [] [] (jsLangOf (trim fenceLine)) restLines (by decide)]
    rfl
  exact ⟨hopen.trans hclosed.symm, hopen⟩

/-- C7 witness: the theorem applied to the concrete document
`"hello\n```js\na\nb\nc"`: the three lines after the unterminated fence come
out as one `js` code segment, as if the fence were closed. -/
theorem c7_unterminated_fence_witness :
    parseMarkdownSegments "hello\n```js\na\nb\nc".data =
      flushText ["hello".data] ++
        [Segment.code (joinWith ['\n'] ["a".data, "b".data, "c".data])
          (jsLangOf (trim "```js".data))] := by
  have h := (c7_unterminated_fence ["hello".data] "```js".data
    ["a".data, "b".data, "c".data] (by decide) (by decide) (by decide) (by decide)
    (by decide)).2
  exact (show parseMarkdownSegments "hello\n```js\na\nb\nc".data =
    parseMarkdownSegments (joinWith ['\n']
      (["hello".data] ++ "```js".data :: ["a".data, "b".data, "c".data])) from rfl).trans h


/-- A theme color value: a plain hex/def-reference string or a dark/light
pair. -/
inductive ColorValue where
  | plain (s : Str)
  | modal (dark light : Str)
deriving DecidableEq

/-- The `mode` parameter of `loadTheme`. -/
inductive ThemeMode where
  | dark
  | light
deriving DecidableEq

/-- Theme JSON data (the theme files themselves are not part of the
sources, so the data is a parameter): `defs` and `theme` maps. -/
structure ThemeData where
  defs : List (Str × Str)
  theme : List (Str × ColorValue)
deriving DecidableEq

/-- JS object property lookup over an association list. -/
def lookupAssoc {α : Type} : List (Str × α) → Str → Option α
  | [], _ => none
  | p :: rest, key => if p.1 = key then some p.2 else lookupAssoc rest key

/-- JS `defs[value] || value`: a missing or empty (falsy) definition falls
back to the key itself. -/
def lookupD (defs : List (Str × Str)) (k : Str) : Str :=
  match lookupAssoc defs k with
  | some v => if v = [] then k else v
  | none => k

/-- `resolveColor`: resolve a color value through the defs map, picking the
mode-specific key for a dark/light pair. -/
def resolveColor (v : ColorValue) (defs : List (Str × Str)) (mode : ThemeMode) : Str :=
  match v with
  | .plain s => lookupD defs s
  | .modal d l => lookupD defs (match mode with | .dark => d | .light => l)

/-- JS `hex.replace("#", "")`: remove the first `#` only. -/
def replaceFirstHash : Str → Str
  | [] => []
  | c :: rest => if c = '#' then rest else c :: replaceFirstHash rest

/-- One hexadecimal digit. -/
def hexDigitVal (c : Char) : Option Nat :=
  if '0' ≤ c ∧ c ≤ '9' then some (c.toNat - 48)
  else if 'a' ≤ c ∧ c ≤ 'f' then some (c.toNat - 87)
  else if 'A' ≤ c ∧ c ≤ 'F' then some (c.toNat - 55)
  else none

/-- `Number.parseInt(s, 16)` on the two-character slices `hexToRGBA` feeds
it: the maximal leading run of hex digits, NaN (`none`) when there is
none. -/
def parseIntHex (s : Str) : Option ℚ :=
  if s.takeWhile (fun c => (hexDigitVal c).isSome) = [] then none
  else some (((s.takeWhile (fun c => (hexDigitVal c).isSome)).foldl
    (fun a c => a * 16 + ((hexDigitVal c).getD 0)) 0 : Nat) : ℚ)

/-- JS `s.substring(a, b)` for `a ≤ b`. -/
def jsSubstring (s : Str) (a b : Nat) : Str := (s.take b).drop a

/-- `hexToRGBA`: hex color string to RGBA 0-1 floats; an unparsable
component is NaN (`none`). -/
def hexToRGBA (hex : Str) : RGBA :=
  ⟨(parseIntHex (jsSubstring (replaceFirstHash hex) 0 2)).map (fun n => n / 255),
   (parseIntHex (jsSubstring (replaceFirstHash hex) 2 4)).map (fun n => n / 255),
   (parseIntHex (jsSubstring (replaceFirstHash hex) 4 6)).map (fun n => n / 255),
   some 1⟩

/-- The default white `{r: 1, g: 1, b: 1, a: 1}` of `resolve`. -/
def whiteRGBA : RGBA := ⟨some 1, some 1, some 1, some 1⟩

/-- JS falsiness of a theme value: only the empty plain string (an object
is never falsy). -/
def isFalsyCV : ColorValue → Bool
  | .plain s => s.isEmpty
  | .modal _ _ => false

/-- The `resolve` closure of `loadTheme`: a missing or falsy role value
gives the default white. -/
def resolve (td : ThemeData) (mode : ThemeMode) (key : Str) : RGBA :=
  match lookupAssoc td.theme key with
  | none => whiteRGBA
  | some v => if isFalsyCV v then whiteRGBA else hexToRGBA (resolveColor v td.defs mode)

/-- `loadTheme` over given theme data: every role resolved. -/
def loadTheme (td : ThemeData) (mode : ThemeMode) : MarkdownTheme :=
  ⟨resolve td mode "text".data,
   resolve td mode "textMuted".data,
   resolve td mode "accent".data,
   resolve td mode "primary".data,
   resolve td mode "border".data,
   resolve td mode "background".data,
   resolve td mode "backgroundPanel".data,
   resolve td mode "backgroundElement".data,
   resolve td mode "markdownText".data,
   resolve td mode "markdownHeading".data,
   resolve td mode "markdownLink".data,
   resolve td mode "markdownLinkText".data,
   resolve td mode "markdownCode".data,
   resolve td mode "markdownCodeBlock".data,
   resolve td mode "markdownBlockQuote".data,
   resolve td mode "markdownEmph".data,
   resolve td mode "markdownStrong".data,
   resolve td mode "markdownListItem".data,
   resolve td mode "markdownListEnumeration".data,
   resolve td mode "markdownHorizontalRule".data,
   resolve td mode "diffAdded".data,
   resolve td mode "diffRemoved".data⟩

/-- C8 (confirmed): for every theme data and mode, `loadTheme` populates
every one of the 22 color roles, and any role whose value is missing from
the theme data resolves to the default white `{r: 1, g: 1, b: 1, a: 1}`
instead of failing. -/
theorem c8_missing_role_white (td : ThemeData) (mode : ThemeMode) :
    (lookupAssoc td.theme "text".data = none → (loadTheme td mode).text = whiteRGBA) ∧
    (lookupAssoc td.theme "textMuted".data = none → (loadTheme td mode).textMuted = whiteRGBA) ∧
    (lookupAssoc td.theme "accent".data = none → (loadTheme td mode).accent = whiteRGBA) ∧
    (lookupAssoc td.theme "primary".data = none → (loadTheme td mode).primary = whiteRGBA) ∧
    (lookupAssoc td.theme "border".data = none → (loadTheme td mode).border = whiteRGBA) ∧
    (lookupAssoc td.theme "background".data = none → (loadTheme td mode).background = whiteRGBA) ∧
    (lookupAssoc td.theme "backgroundPanel".data = none → (loadTheme td mode).backgroundPanel = whiteRGBA) ∧
    (lookupAssoc td.theme "backgroundElement".data = none → (loadTheme td mode).backgroundElement = whiteRGBA) ∧
    (lookupAssoc td.theme "markdownText".data = none → (loadTheme td mode).markdownText = whiteRGBA) ∧
    (lookupAssoc td.theme "markdownHeading".data = none → (loadTheme td mode).markdownHeading = whiteRGBA) ∧
    (lookupAssoc td.theme "markdownLink".data = none → (loadTheme td mode).markdownLink = whiteRGBA) ∧
    (lookupAssoc td.theme "markdownLinkText".data = none → (loadTheme td mode).markdownLinkText = whiteRGBA) ∧
    (lookupAssoc td.theme "markdownCode".data = none → (loadTheme td mode).markdownCode = whiteRGBA) ∧
    (lookupAssoc td.theme "markdownCodeBlock".data = none → (loadTheme td mode).markdownCodeBlock = whiteRGBA) ∧
    (lookupAssoc td.theme "markdownBlockQuote".data = none → (loadTheme td mode).markdownBlockQuote = whiteRGBA) ∧
    (lookupAssoc td.theme "markdownEmph".data = none → (loadTheme td mode).markdownEmph = whiteRGBA) ∧
    (lookupAssoc td.theme "markdownStrong".data = none → (loadTheme td mode).markdownStrong = whiteRGBA) ∧
    (lookupAssoc td.theme "markdownListItem".data = none → (loadTheme td mode).markdownListItem = whiteRGBA) ∧
    (lookupAssoc td.theme "markdownListEnumeration".data = none → (loadTheme td mode).markdownListEnumeration = whiteRGBA) ∧
    (lookupAssoc td.theme "markdownHorizontalRule".data = none → (loadTheme td mode).markdownHorizontalRule = whiteRGBA) ∧
    (lookupAssoc td.theme "diffAdded".data = none → (loadTheme td mode).diffAdded = whiteRGBA) ∧
    (lookupAssoc td.theme "diffRemoved".data = none → (loadTheme td mode).diffRemoved = whiteRGBA) := by
  refine ⟨?_, ?_, ?_, ?_, ?_, ?_, ?_, ?_, ?_, ?_, ?_, ?_, ?_, ?_, ?_, ?_, ?_, ?_, ?_, ?_, ?_, ?_⟩
  all_goals intro h
  all_goals simp only [loadTheme]
  all_goals unfold resolve
  all_goals rw [h]

/-- C8 witness: the theorem applied to concrete theme data defining only
the `text` role: the missing `accent` role loads as white. -/
theorem c8_missing_role_white_witness :
    (lookupAssoc (⟨[], [("text".data, ColorValue.plain "#112233".data)]⟩ : ThemeData).theme
        "accent".data = none) ∧
    (loadTheme ⟨[], [("text".data, ColorValue.plain "#112233".data)]⟩ ThemeMode.dark).accent =
      whiteRGBA :=
  ⟨by decide, (c8_missing_role_white ⟨[], [("text".data, ColorValue.plain "#112233".data)]⟩
    ThemeMode.dark).2.2.1 (by decide)⟩

end MdRenderer
